import Mathlib

/-!
Pulse: record store, dependency graph and regeneration scheduler.

A shallow embedding of `src/lib/Collection.js` and `src/lib/Pulse.js`.

Conventions of the embedding

* A JavaScript object is an association list from property names to values, in
  insertion order (`oget`, `oset`, `odel`): its own properties.  The store, the
  index table and the relation objects are plain objects, so a read of a name
  that is not an own property gives the member inherited from
  `Object.prototype` when the name is one of `inheritedNames` (`constructor`,
  `toString`, ...): a truthy function.  The guards the source writes as a
  truthiness test of such a read (`truthyAt`) therefore pass for these names,
  and the member is what the read returns.  A built-in object is not part of
  the state: its own properties are not looked at and it is never written.
  `Object.keys` is the insertion order; JavaScript puts integer-like names
  first, which the model does not (the order is used for index and filter
  names only).
* Numbers are integers, arrays hold atoms, and any function or built-in object
  is an opaque `native` value.  Lists have no greatest length; an array has
  (`maxArrayLength`).
* Record objects live in a heap and are addressed by reference, because the
  source shares them between the store, the group outputs and the history, and
  mutates them in place (`update`, `buildGroupFromIndex`).
* A JavaScript exception (a `TypeError` raised by a property access on
  `undefined`, or the stack overflow of an unbounded recursion) is the `error`
  case of `Except`; it carries the state reached when the exception was raised,
  since the mutations made before it persist.
* `Log`, `assert` and `warn` of `./Utils` only report; watchers, component
  subscribers and the persistence adapter are external collaborators.  None of
  them is part of the state.  Timestamps and the `fromAction` field are left
  out of history and error entries; actions, routes and throttles are not
  modelled.
* A relation object holds the per-index arrays `_relations[key][index]`
  (`createRelationForIndex`, and the pushes of `processDataItem`) next to its
  properties `fromCollectionName` and `assignTo`, as in the source, where an
  index of one of these names replaces the property.
* An array that is shared as an object is modelled where the sharing shows: the
  public key list of an index (`Public.indexes`) and the payload of a
  `newGroup` history entry (`Collection.sharedWithHistory`).
* The flags `_executing`, `_collecting` and `_allowInternalChange` are set and
  cleared within one call and are not part of the state.  The flag `record` and
  the buffer `dependenciesFound` outlive a call only when a filter raises; they
  are an explicit argument of `executeFilterFrom` and
  `executeAndAnalyseFilterFrom`, and the functions without `From` are the calls
  made with the buffer empty.
* Filters are computations that only read the visible state (`FilterProg`).
-/

namespace Pulse

/-! ## Values -/

/-- Values that are not arrays: primitives, a record object by reference, or a
function / built-in object (`native`). -/
inductive Atom
  | undefined
  | null
  | bool (b : Bool)
  | num (n : Int)
  | str (s : String)
  | ref (r : Nat)
  | native (tag : String)
  deriving DecidableEq, Repr

/-- A value: an atom or an array of atoms. -/
inductive Val
  | atom (a : Atom)
  | arr (xs : List Atom)
  deriving DecidableEq, Repr

/-- An object's own properties, in insertion order. -/
abbrev Obj := List (String × Val)

/-- Truthiness of an atom. -/
def Atom.truthy : Atom → Bool
  | .undefined => false
  | .null => false
  | .bool b => b
  | .num n => n != 0
  | .str s => s != ""
  | .ref _ => true
  | .native _ => true

/-- Truthiness of a value: every array is truthy. -/
def Val.truthy : Val → Bool
  | .atom a => a.truthy
  | .arr _ => true

/-- The property key an atom is coerced to by `obj[atom]` (`String(atom)`). -/
def Atom.toKey : Atom → String
  | .undefined => "undefined"
  | .null => "null"
  | .bool b => if b then "true" else "false"
  | .num n => toString n
  | .str s => s
  | .ref _ => "[object Object]"
  | .native t => t

/-- The property key a value is coerced to by `obj[value]`; an array is joined
with commas, `null` and `undefined` elements becoming empty. -/
def Val.toKey : Val → String
  | .atom a => a.toKey
  | .arr xs => ",".intercalate (xs.map fun a =>
      match a with
      | .undefined => ""
      | .null => ""
      | a => a.toKey)

/-- The value `undefined`. -/
abbrev undefined : Val := .atom .undefined

/-! ## Objects as association lists -/

section Assoc
variable {α : Type}

/-- Property read `o[k]`; `none` is `undefined` (no own property). -/
def oget : List (String × α) → String → Option α
  | [], _ => none
  | (k', v) :: t, k => if k' = k then some v else oget t k

/-- Property write `o[k] = v`: overwrites in place, or appends a new property. -/
def oset : List (String × α) → String → α → List (String × α)
  | [], k, v => [(k, v)]
  | (k', v') :: t, k, v => if k' = k then (k', v) :: t else (k', v') :: oset t k v

/-- Property removal `delete o[k]`. -/
def odel : List (String × α) → String → List (String × α)
  | [], _ => []
  | (k', v') :: t, k => if k' = k then odel t k else (k', v') :: odel t k

/-- The own property names, `Object.keys(o)`. -/
def okeys (o : List (String × α)) : List String := o.map Prod.fst

/-- The test `o.hasOwnProperty(k)`. -/
def ohas (o : List (String × α)) (k : String) : Bool := (oget o k).isSome

/-- The property names every plain object inherits from `Object.prototype`.  On
an object without an own property of that name, the read `o[k]` gives the
inherited member: a function, which is truthy and has none of the methods of an
array.  (`__proto__` reads as the prototype object, which is truthy as well; the
effect of writing it is not modelled.) -/
def inheritedNames : List String :=
  ["constructor", "hasOwnProperty", "isPrototypeOf", "propertyIsEnumerable", "toLocaleString",
    "toString", "valueOf", "__defineGetter__", "__defineSetter__", "__lookupGetter__",
    "__lookupSetter__", "__proto__"]

/-- The truthiness of the read `o[k]` on a plain object whose own values are
all truthy (arrays, record objects): the property is an own one or an inherited
one. -/
def truthyAt (o : List (String × α)) (k : String) : Bool :=
  ohas o k || decide (k ∈ inheritedNames)

end Assoc

/-- Field read `record[k]` on a record object: a missing field is `undefined`. -/
def field (o : Obj) (k : String) : Val := (oget o k).getD undefined

/-! ## State -/

/-- A relation as the model declares it: the arguments `fromCollectionName`
and `assignTo` of `createDataRelation`. -/
structure ModelRelation where
  fromCollectionName : String
  assignTo : Option String
  deriving DecidableEq, Repr

/-- The relation object `this._relations[sourceField]`: a plain object with the
own property `fromCollectionName`, the own property `assignTo` when an alias was
declared, and an array under every index name `collect` was called with
(`createRelationForIndex`), which replaces a property of the same name. -/
structure Relation where
  props : Obj
  deriving DecidableEq, Repr

/-- The property key the value of `rel.fromCollectionName` is coerced to where
it is used, in `internalDataRef[rel.fromCollectionName]` and in
`data[rel.fromCollectionName]`. -/
def Relation.fromCollectionName (rel : Relation) : String :=
  (field rel.props "fromCollectionName").toKey

/-- The element an array holds for a pushed value; an array pushed into an
array is kept as the string it is joined to, which is all a key coercion of the
outer array reads of it. -/
def Val.asElement : Val → Atom
  | .atom a => a
  | .arr xs => .str (Val.toKey (.arr xs))

/-- The method `createDataRelation`, for a target in the collection namespace:
the relation object it assigns. -/
def createDataRelation (m : ModelRelation) : Relation :=
  { props := ("fromCollectionName", .atom (.str m.fromCollectionName)) ::
      (match m.assignTo with
        | some a => if a ≠ "" then [("assignTo", .atom (.str a))] else []
        | none => []) }

/-- The object a filter reads a property from: the collection's public object
itself (root alias) or one of its category objects. -/
inductive Ns
  | root
  | data
  | filters
  | groups
  deriving DecidableEq, Repr

/-- A filter function: a computation that reads properties of the collections'
public objects (each read goes through the recording proxy) and fields of record
objects (not recorded), and returns a value. -/
inductive FilterProg
  | ret (v : Val)
  | read (c : String) (ns : Ns) (p : String) (k : Val → FilterProg)
  | fieldOf (r : Nat) (f : String) (k : Val → FilterProg)

/-- The public object of a collection (`_public`): the root namespace and the
category objects.  An entry `none` of `indexes` says that the public key list is
the very array the internal index holds (an alias); `some l` is a detached array
with contents `l`. -/
structure Public where
  root : List (String × Val)
  data : List (String × Val)
  filters : List (String × Val)
  groups : List (String × Val)
  indexes : List (String × Option (List Val))

/-- The state of one collection.  `sharedWithHistory` is not a field of the
source: it says which index arrays are, as objects, also the payload of a
history entry (`newGroup` records the array it installs), by the position of
the entry in the history. -/
structure Collection where
  primaryKey : Option String
  data : List (String × Nat)
  indexes : List (String × List Val)
  relations : List (String × Relation)
  filters : List (String × FilterProg)
  filtersRelatedToData : List (String × List Val)
  filtersRelatedToGroup : List (String × List Val)
  mutableData : List String
  indexesToRegen : List String
  filtersToForceRegen : List String
  collectionSize : Nat
  pub : Public
  sharedWithHistory : List (String × Nat) := []

/-- A regeneration queue entry `{type: 'filter', property, collection}`, and
also a pair `{property, collection}` of the discovery buffer. -/
structure Entry where
  collection : String
  property : String
  deriving DecidableEq, Repr

/-- A node of the dependency graph. -/
structure GraphNode where
  dependencies : List String
  dependents : List String
  deriving DecidableEq, Repr

/-- The payload of a history entry, by mutation type. -/
inductive HistoryData
  | collect (dataCollected : List Nat) (indexesCreated indexesModified : List String)
  | move (ids : List Val) (previousSourceIndex previousDestIndex : String)
  | put (ids : List Val) (previousDestIndex : List Val)
  | update (dataId : Val) (previousValues newValues : Obj)
  | delete (deleted : Obj)
  | newGroup (createdGroup : String) (data : List Val)
  | increment (previousValue : Val)
  | decrement (previousValue : Val)
  deriving DecidableEq, Repr

/-- A history entry: `{type, collection, data}`; `type` is the constructor of
the payload. -/
structure HistoryItem where
  collection : String
  data : HistoryData
  deriving DecidableEq, Repr

/-- The `type` field of a history entry. -/
def HistoryItem.type (h : HistoryItem) : String :=
  match h.data with
  | .collect .. => "collect"
  | .move .. => "move"
  | .put .. => "put"
  | .update .. => "update"
  | .delete .. => "delete"
  | .newGroup .. => "newGroup"
  | .increment .. => "increment"
  | .decrement .. => "decrement"

/-- An entry of the global error sink written by `dataRejectionHandler`. -/
structure Rejection where
  data : Nat
  message : String
  deriving DecidableEq, Repr

/-- What the engine did, in order: the calls of `buildGroupFromIndex` and of
`executeAndAnalyseFilter` (the places where the source logs). -/
inductive Event
  | rebuild (collection index : String)
  | exec (collection filter : String)
  deriving DecidableEq, Repr

/-- The global state (`_global` and `_collections` of the Pulse instance, and
the heap of record objects). -/
structure State where
  collections : List (String × Collection)
  heap : List Obj
  regenQueue : List Entry
  errors : List Rejection
  history : List HistoryItem
  allFilters : List String
  generatedFilters : List String
  dependencyGraph : List (String × List (String × GraphNode))
  lastRegenerated : String
  trace : List Event

/-- The result of a call: the state after it, or the state at the moment an
exception was raised. -/
abbrev Result := Except State State

/-- The state a call leaves behind, whether it returned or raised. -/
def Result.state : Result → State
  | .ok s => s
  | .error s => s

/-- Whether the call raised. -/
def Result.threw : Result → Bool
  | .ok _ => false
  | .error _ => true

/-! ## Keys and the dependency graph -/

/-- The segments of `key.split('/')`, on the characters of the key. -/
def splitSlash : List Char → List (List Char)
  | [] => [[]]
  | ch :: t =>
    if ch = '/' then [] :: splitSlash t
    else
      match splitSlash t with
      | [] => [[ch]]
      | seg :: rest => (ch :: seg) :: rest

/-- The method `parseKey`: the first two segments of the key.  A missing second
segment is `undefined` in the source; every use coerces it to the string
`"undefined"` (template strings and property keys), which is what the model
returns. -/
def parseKey (key : String) : Entry :=
  match splitSlash key.data with
  | [] => { collection := "", property := "undefined" }
  | [c] => { collection := String.mk c, property := "undefined" }
  | c :: p :: _ => { collection := String.mk c, property := String.mk p }

/-- The dependency graph: collection name, then property name. -/
abbrev Graph := List (String × List (String × GraphNode))

/-- The lookup `graph[c][p]`; `none` when either step is `undefined`. -/
def nodeOf (g : Graph) (c p : String) : Option GraphNode :=
  (oget g c).bind fun m => oget m p

/-- The write of a node back into the graph (nodes are objects mutated in place
in the source). -/
def setNode (g : Graph) (c p : String) (n : GraphNode) : Graph :=
  match oget g c with
  | none => g
  | some m => oset g c (oset m p n)

/-- The lookup `graph[parsed.collection][parsed.property].dependents` made for
one key inside `findAllDependents`; `none` is the `TypeError` of a missing
node. -/
def dependentsOfKey (g : Graph) (dep : String) : Option (List String) :=
  let k := parseKey dep
  (nodeOf g k.collection k.property).map fun n => n.dependents

/-- One expansion round of `findAllDependents`: the dependents of every key of
the previous round, concatenated in order. -/
def expandRound (g : Graph) : List String → Option (List String)
  | [] => some []
  | dep :: rest =>
    match dependentsOfKey g dep with
    | none => none
    | some ds =>
      match expandRound g rest with
      | none => none
      | some more => some (ds ++ more)

/-- The greatest length a JavaScript array can have, `2^32 - 1`: a `push` onto
an array of this length raises a `RangeError`. -/
def maxArrayLength : Nat := 2 ^ 32 - 1

/-- The closure `loop` of `findAllDependents`.  `loops` is the source's counter;
the first argument bounds the recursion and is never exhausted when it starts at
1001, because the counter stops the recursion first.  The arrays `lastRound` and
`dependenciesFound` are lists here, which have no greatest length: the result is
the array the source returns as long as it is no longer than `maxArrayLength`,
and a longer result stands for a call that cannot build its array. -/
def findLoop (g : Graph) : Nat → Nat → List String → List String → Option (List String)
  | 0, _, _, found => some found
  | n + 1, loops, lastRound, found =>
    let loops := loops + 1
    match expandRound g lastRound with
    | none => none
    | some next =>
      if loops > 1000 then some (found ++ next)
      else if next.length ≠ 0 then findLoop g n loops next (found ++ next)
      else some (found ++ next)

/-- The method `findAllDependents(filter)` of collection `c`; `none` is a
`TypeError` on a missing graph node. -/
def findAllDependents (g : Graph) (c filter : String) : Option (List String) :=
  match nodeOf g c filter with
  | none => none
  | some n => findLoop g 1001 0 n.dependents n.dependents

/-- The closure `loop` of `findAllDependents` once more, returning with the
keys the value its counter `loops` ends with: the number of expansion rounds
that were made. -/
def findLoopCount (g : Graph) :
    Nat → Nat → List String → List String → Option (List String × Nat)
  | 0, loops, _, found => some (found, loops)
  | n + 1, loops, lastRound, found =>
    let loops := loops + 1
    match expandRound g lastRound with
    | none => none
    | some next =>
      if loops > 1000 then some (found ++ next, loops)
      else if next.length ≠ 0 then findLoopCount g n loops next (found ++ next)
      else some (found ++ next, loops)

/-- The loop of `pushDependentsToRegenQueue`: each key is parsed and pushed
unless an entry with the same property and collection is in the queue. -/
def enqueue (q : List Entry) : List String → List Entry
  | [] => q
  | f :: rest =>
    let parsed := parseKey f
    enqueue (if parsed ∈ q then q else q ++ [parsed]) rest

/-- The method `populateDependencies(found, filter)` of collection `c`, on the
graph; the `error` case is a `TypeError` and carries the graph as mutated so
far. -/
def populateDependencies (c filter : String) : Graph → List Entry → Except Graph Graph
  | g, [] => .ok g
  | g, dependency :: rest =>
    let key1 := dependency.collection ++ "/" ++ dependency.property
    match nodeOf g c filter with
    | none => .error g
    | some location1 =>
      let g1 :=
        if key1 ∈ location1.dependencies then g
        else setNode g c filter { location1 with dependencies := location1.dependencies ++ [key1] }
      let key2 := c ++ "/" ++ filter
      match oget g1 dependency.collection with
      | none => .error g1
      | some m =>
        match oget m dependency.property with
        | none => populateDependencies c filter g1 rest
        | some location2 =>
          let g2 :=
            if key2 ∈ location2.dependents then g1
            else setNode g1 dependency.collection dependency.property
              { location2 with dependents := location2.dependents ++ [key2] }
          populateDependencies c filter g2 rest

/-! ## Filter engine -/

/-- The collection `c`, as `this._collections[c]`. -/
def getC (s : State) (c : String) : Option Collection := oget s.collections c

/-- The state with collection `c` replaced by `f` of it. -/
def modC (s : State) (c : String) (f : Collection → Collection) : State :=
  match oget s.collections c with
  | none => s
  | some col => { s with collections := oset s.collections c (f col) }

/-- The object of the public tree a namespace stands for. -/
def Public.ns (p : Public) : Ns → List (String × Val)
  | .root => p.root
  | .data => p.data
  | .filters => p.filters
  | .groups => p.groups

/-- The assignment `target[key] = value` on an object of the public tree. -/
def Public.setNs (p : Public) (ns : Ns) (key : String) (v : Val) : Public :=
  match ns with
  | .root => { p with root := oset p.root key v }
  | .data => { p with data := oset p.data key v }
  | .filters => { p with filters := oset p.filters key v }
  | .groups => { p with groups := oset p.groups key v }

/-- The `get` trap of `initProxy` while recording: the pair is pushed unless the
key is one of the category names or the pair was found already. -/
def recordAccess (found : List Entry) (c key : String) : List Entry :=
  if key ∉ ["filters", "groups", "indexes", "data", "actions"]
      ∧ (found.filter fun item => item.property = key ∧ item.collection = c).length = 0 then
    found ++ [{ collection := c, property := key }]
  else found

/-- Running a filter function on the current state with recording on: the value
it returns and the discovery buffer.  `none` is the `TypeError` of reading a
property of a collection that does not exist. -/
def FilterProg.run (s : State) : FilterProg → List Entry → Option (Val × List Entry)
  | .ret v, found => some (v, found)
  | .read c ns p k, found =>
    match getC s c with
    | none => none
    | some col => (k ((oget (col.pub.ns ns) p).getD undefined)).run s (recordAccess found c p)
  | .fieldOf r f k, found =>
    (k (match s.heap[r]? with
      | none => undefined
      | some o => field o f)).run s found

/-- The method `deliverUpdate(type, data, name)`: the category slot is written,
and the root alias too when the public object has that own property. -/
def deliverUpdate (p : Public) (type : Ns) (data : Val) (name : String) : Public :=
  let p1 := p.setNs type name data
  if ohas p1.root name then { p1 with root := oset p1.root name data } else p1

/-- The coercion of a filter's result in `executeFilter`: `undefined` and
`null` become `false`. -/
def coerceResult (data : Val) : Val :=
  if data = undefined ∨ data = .atom .null then .atom (.bool false) else data

/-- The method `executeFilter(filter)` of collection `c`, called while the
global `dependenciesFound` is empty: returns the state with the output
delivered, and the discovery buffer.  `executeFilterFrom` is the method for any
content of the global. -/
def executeFilter (s : State) (c filter : String) : Except State (State × List Entry) :=
  match getC s c with
  | none => .error s
  | some col =>
    match oget col.filters filter with
    | none => .error s
    | some prog =>
      match prog.run s [] with
      | none => .error s
      | some (data, found) =>
        .ok (modC s c fun col =>
          { col with pub := deliverUpdate col.pub .filters (coerceResult data) filter }, found)

/-- The method `checkForMissingDependency(dependency, filter)`: whether the
dependency is a filter name that is not in the generated list. -/
def isMissingDependency (s : State) (dependency : Entry) : Bool :=
  dependency.property ∈ s.allFilters
    ∧ (dependency.collection ++ dependency.property) ∉ s.generatedFilters

/-- The method `executeAndAnalyseFilter(filter)` of collection `c`, called while
the global `dependenciesFound` is empty, as it is unless a filter raised while
recording; `executeAndAnalyseFilterFrom` is the method for any content of the
global. -/
def executeAndAnalyseFilter (s : State) (c filter : String) : Result :=
  match getC s c with
  | none => .error s
  | some _ =>
    match executeFilter { s with trace := s.trace ++ [.exec c filter] } c filter with
    | .error s1 => .error s1
    | .ok (s1, found) =>
      if found.any (isMissingDependency s1) then
        .ok { s1 with regenQueue := s1.regenQueue ++ [{ collection := c, property := filter }] }
      else
        match populateDependencies c filter s1.dependencyGraph found with
        | .error g => .error { s1 with dependencyGraph := g }
        | .ok g =>
          .ok { s1 with
            dependencyGraph := g, generatedFilters := s1.generatedFilters ++ [c ++ filter] }

/-- The discovery buffer a filter function leaves when it is run with the
buffer `found`, whether it returns or raises: the pairs recorded up to the end
of the run. -/
def FilterProg.recorded (s : State) : FilterProg → List Entry → List Entry
  | .ret _, found => found
  | .read c ns p k, found =>
    match getC s c with
    | none => found
    | some col =>
      (k ((oget (col.pub.ns ns) p).getD undefined)).recorded s (recordAccess found c p)
  | .fieldOf r f k, found =>
    (k (match s.heap[r]? with
      | none => undefined
      | some o => field o f)).recorded s found

/-- The method `executeFilter(filter)` of collection `c` with the global
`dependenciesFound` made explicit.  `executeAndAnalyseFilter` empties the global
only after a run that returned, and `executeFilter` turns recording off only
after the filter function returned: when a filter raises, the pairs it recorded
stay in the global and recording stays on.  `buffer` holds what the global
contains when the method is called; the run pushes onto it.  The `error` case
carries the state and the buffer the raise leaves. -/
def executeFilterFrom (buffer : List Entry) (s : State) (c filter : String) :
    Except (State × List Entry) (State × List Entry) :=
  match getC s c with
  | none => .error (s, buffer)
  | some col =>
    match oget col.filters filter with
    | none => .error (s, buffer)
    | some prog =>
      match prog.run s buffer with
      | none => .error (s, prog.recorded s buffer)
      | some (data, found) =>
        .ok (modC s c fun col =>
          { col with pub := deliverUpdate col.pub .filters (coerceResult data) filter }, found)

/-- The method `executeAndAnalyseFilter(filter)` of collection `c` with the
global `dependenciesFound` made explicit: `found` is the whole content of the
global after the run, the pairs of `buffer` included, and the global is emptied
before the analysis.  With an empty buffer this is `executeAndAnalyseFilter`. -/
def executeAndAnalyseFilterFrom (buffer : List Entry) (s : State) (c filter : String) :
    Except (State × List Entry) State :=
  match getC s c with
  | none => .error (s, buffer)
  | some _ =>
    match executeFilterFrom buffer { s with trace := s.trace ++ [.exec c filter] } c filter with
    | .error e => .error e
    | .ok (s1, found) =>
      if found.any (isMissingDependency s1) then
        .ok { s1 with regenQueue := s1.regenQueue ++ [{ collection := c, property := filter }] }
      else
        match populateDependencies c filter s1.dependencyGraph found with
        | .error g => .error ({ s1 with dependencyGraph := g }, [])
        | .ok g =>
          .ok { s1 with
            dependencyGraph := g, generatedFilters := s1.generatedFilters ++ [c ++ filter] }

/-! ## Regeneration scheduler -/

/-- The `for ... of` loop of `processRegenQueue`, which shifts the queue it
iterates over: `i` is the iterator's position, compared with the live length.
The first argument bounds the iterations; the queue's initial length is never
exhausted, since an iteration removes one entry and adds at most one.  The
boolean says that the repeat guard returned from `processRegenQueue`. -/
def regenPass : Nat → Nat → State → Except State (State × Bool)
  | 0, _, s => .ok (s, false)
  | n + 1, i, s =>
    if i < s.regenQueue.length then
      match s.regenQueue with
      | [] => .ok (s, false)
      | entry :: rest =>
        let s1 := { s with regenQueue := rest }
        let concatEntryName := entry.collection ++ "/" ++ entry.property
        if concatEntryName = s1.lastRegenerated then
          .ok ({ s1 with lastRegenerated := "" }, true)
        else
          match executeAndAnalyseFilter s1 entry.collection entry.property with
          | .error s2 => .error s2
          | .ok s2 => regenPass n (i + 1) { s2 with lastRegenerated := concatEntryName }
    else .ok (s, false)

/-- The method `processRegenQueue` of the Pulse instance.  The first argument is
the depth of recursion available: exhausting it is the stack overflow of an
unbounded recursion.  `lastRegenerated` is `""` both for the cleared marker and
for the initial `undefined`: neither equals an entry name, which contains `/`. -/
def processRegenQueue : Nat → State → Result
  | 0, s => .error s
  | fuel + 1, s =>
    if s.regenQueue.length = 0 then .ok s
    else
      match regenPass s.regenQueue.length 0 s with
      | .error s1 => .error s1
      | .ok (s1, true) => .ok s1
      | .ok (s1, false) =>
        if s1.regenQueue.length > 0 then processRegenQueue fuel s1
        else .ok { s1 with lastRegenerated := "" }

/-- The method `pushDependentsToRegenQueue(dependentFilters)`: the keys are
enqueued, then the event bus runs `processRegenQueue`. -/
def pushDependentsToRegenQueue (fuel : Nat) (s : State) (dependentFilters : List String) :
    Result :=
  processRegenQueue fuel { s with regenQueue := enqueue s.regenQueue dependentFilters }

/-- The accumulation of `findAndUpdateDependents` for an array argument: the
dependents of each property, without repeats. -/
def collectDependents (g : Graph) (c : String) :
    List String → List String → Option (List String)
  | [], all => some all
  | i :: rest, all =>
    match findAllDependents g c i with
    | none => none
    | some deps =>
      collectDependents g c rest (deps.foldl (fun acc dep => if dep ∈ acc then acc else acc ++ [dep]) all)

/-- The method `findAndUpdateDependents(propertyChanged)` of collection `c`, for
a single property name. -/
def findAndUpdateDependents (fuel : Nat) (s : State) (c propertyChanged : String) : Result :=
  match findAllDependents s.dependencyGraph c propertyChanged with
  | none => .error s
  | some allDependents => pushDependentsToRegenQueue fuel s allDependents

/-- The method `findAndUpdateDependents(propertyChanged)` for an array of
property names. -/
def findAndUpdateDependentsOfAll (fuel : Nat) (s : State) (c : String)
    (propertiesChanged : List String) : Result :=
  match collectDependents s.dependencyGraph c propertiesChanged [] with
  | none => .error s
  | some allDependents => pushDependentsToRegenQueue fuel s allDependents

/-- The method `forceUpdate(filter)` of collection `c`. -/
def forceUpdate (fuel : Nat) (s : State) (c filter : String) : Result :=
  processRegenQueue fuel
    { s with regenQueue := s.regenQueue ++ [{ collection := c, property := filter }] }

/-! ## Group materialization -/

/-- The field of a record the foreign record is assigned to: the value of
`assignTo` when the relation object has that own property and it is truthy,
else the value of `fromCollectionName`; either is coerced to a property key. -/
def Relation.target (rel : Relation) : String :=
  match oget rel.props "assignTo" with
  | some a => if a.truthy then a.toKey else rel.fromCollectionName
  | none => rel.fromCollectionName

/-- The relation loop of `buildGroupFromIndex` for one record object: for every
relation whose source field the record has, the value read from the target
collection's store under the field's value, when truthy, is attached to the
record itself: a foreign record, or the inherited member when the value names
one and the store has no such own key.  `none` is a `TypeError`: of
`rel.hasOwnProperty` when an index array replaced it, or of a target collection
without a store (a target name that is an inherited name reads a function, in
which nothing is found). -/
def resolveRelations (s : State) : List (String × Relation) → Obj → Option Obj
  | [], data => some data
  | (relationKey, rel) :: rest, data =>
    if ohas rel.props "hasOwnProperty" then none
    else if ohas data relationKey then
      match getC s rel.fromCollectionName with
      | none =>
        if rel.fromCollectionName ∈ inheritedNames then resolveRelations s rest data else none
      | some target =>
        match oget target.data (field data relationKey).toKey with
        | none =>
          if (field data relationKey).toKey ∈ inheritedNames then
            resolveRelations s rest
              (oset data rel.target (.atom (.native (field data relationKey).toKey)))
          else resolveRelations s rest data
        | some foreignData =>
          resolveRelations s rest (oset data rel.target (.atom (.ref foreignData)))
    else resolveRelations s rest data

/-- The `map` of `buildGroupFromIndex` over the index's key list: each key is
looked up in the store of `col` and its record resolved in place on the heap.
A key without a record that names an inherited member reads that member, an
opaque function whose own properties are not looked at: it becomes the element.
The result is the heap and the resolved array; the `error` case is a `TypeError`
(a key without a record while relations are declared, or `rel.hasOwnProperty`
replaced by an index array) and carries the heap as mutated so far. -/
def mapIndex (s : State) (col : Collection) :
    List Val → List Obj → List Atom → Except (List Obj) (List Obj × List Atom)
  | [], heap, out => .ok (heap, out)
  | id :: rest, heap, out =>
    match oget col.data id.toKey with
    | none =>
      if id.toKey ∈ inheritedNames then
        if col.relations.any (fun e => ohas e.2.props "hasOwnProperty") then .error heap
        else mapIndex s col rest heap (out ++ [.native id.toKey])
      else if col.relations.length = 0 then mapIndex s col rest heap (out ++ [.undefined])
      else .error heap
    | some r =>
      match resolveRelations s col.relations (heap.getD r []) with
      | none => .error heap
      | some data => mapIndex s col rest (heap.set r data) (out ++ [.ref r])

/-- The method `buildGroupFromIndex(index)` of collection `c`. -/
def buildGroupFromIndex (s : State) (c index : String) : Result :=
  let s := { s with trace := s.trace ++ [.rebuild c index] }
  match getC s c with
  | none => .error s
  | some col =>
    match oget col.indexes index with
    | none => .error s
    | some keys =>
      match mapIndex s col keys s.heap [] with
      | .error heap => .error { s with heap := heap }
      | .ok (heap, data) =>
        .ok (modC { s with heap := heap } c fun col =>
          let p :=
            if ohas col.pub.root index ∨ ohas col.pub.groups index then
              deliverUpdate col.pub .groups (.arr data) index
            else col.pub
          { col with pub := { p with indexes := oset p.indexes index none } })

/-- The resolved array `buildGroupFromIndex` returns. -/
def groupOf (s : State) (c index : String) : Option (List Atom) :=
  match getC s c with
  | none => none
  | some col =>
    match oget col.indexes index with
    | none => none
    | some keys =>
      match mapIndex s col keys s.heap [] with
      | .error _ => none
      | .ok (_, data) => some data

/-! ## Regeneration of groups and filters -/

/-- The loop of `findGroupsToRegen(primaryKey)` over the index names. -/
def findGroupsToRegen (col : Collection) (primaryKey : Val) : Collection :=
  (okeys col.indexes).foldl (fun col indexName =>
    if primaryKey ∈ (oget col.indexes indexName).getD [] ∧ indexName ∉ col.indexesToRegen then
      { col with indexesToRegen := col.indexesToRegen ++ [indexName] }
    else col) col

/-- The closure `findFilters(source, index)` of `findFiltersToRegen`. -/
def findFilters (source : List (String × List Val)) (index : Val) (toForce : List String) :
    List String :=
  (okeys source).foldl (fun acc filterName =>
    if index ∈ (oget source filterName).getD [] ∧ filterName ∉ acc then acc ++ [filterName]
    else acc) toForce

/-- The method `findFiltersToRegen(primaryKey, indexes)` for a single index
value (`undefined` when no index was given). -/
def findFiltersToRegen (col : Collection) (primaryKey index : Val) : Collection :=
  let l1 := findFilters col.filtersRelatedToGroup index col.filtersToForceRegen
  { col with filtersToForceRegen := findFilters col.filtersRelatedToData primaryKey l1 }

/-- The `for ... of` loop of `regenerateGroupsAndFilters`, which shifts the
pending list it iterates over: `i` is the iterator's position, compared with the
live length.  The first argument bounds the iterations (the initial length of
the pending list). -/
def regenIndexLoop (fuel : Nat) (c : String) : Nat → Nat → State → Result
  | 0, _, s => .ok s
  | n + 1, i, s =>
    match getC s c with
    | none => .error s
    | some col =>
      if i < col.indexesToRegen.length then
        match col.indexesToRegen with
        | [] => .ok s
        | index :: rest =>
          match buildGroupFromIndex (modC s c fun col => { col with indexesToRegen := rest })
              c index with
          | .error s1 => .error s1
          | .ok s1 =>
            match
              (if ((getC s1 c).bind fun col => oget col.pub.root index).elim false Val.truthy then
                findAndUpdateDependents fuel s1 c index
              else .ok s1) with
            | .error s2 => .error s2
            | .ok s2 => regenIndexLoop fuel c n (i + 1) s2
      else .ok s

/-- The method `regenerateGroupsAndFilters` of collection `c`. -/
def regenerateGroupsAndFilters (fuel : Nat) (s : State) (c : String) : Result :=
  match regenIndexLoop fuel c ((getC s c).elim 0 fun col => col.indexesToRegen.length) 0 s with
  | .error s1 => .error s1
  | .ok s1 =>
    let encoded := ((getC s1 c).elim [] fun col => col.filtersToForceRegen).map
      fun filter => c ++ "/" ++ filter
    match pushDependentsToRegenQueue fuel s1 encoded with
    | .error s2 => .error s2
    | .ok s2 => .ok (modC s2 c fun col => { col with filtersToForceRegen := [] })

/-- The method `internalDataModified(primaryKey)` of collection `c`. -/
def internalDataModified (fuel : Nat) (s : State) (c : String) (primaryKey : Val) : Result :=
  regenerateGroupsAndFilters fuel
    (modC s c fun col => findFiltersToRegen (findGroupsToRegen col primaryKey) primaryKey undefined)
    c

/-! ## Record store -/

/-- The method `dataRejectionHandler(data, message)`: one entry is pushed to
the global error sink; nothing else happens. -/
def dataRejectionHandler (s : State) (data : Nat) (message : String) : State :=
  { s with errors := s.errors ++ [{ data := data, message := message }] }

/-- The test `!this._primaryKey`: `null` and the empty string are falsy. -/
def noPrimaryKey (col : Collection) : Bool :=
  match col.primaryKey with
  | none => true
  | some k => k = ""

/-- The loop of `findPrimaryKey(item)` over the conventional names. -/
def discoverKey (item : Obj) (col : Collection) : Collection :=
  ["id", "_id"].foldl (fun col key =>
    if ohas item key then { col with primaryKey := some key } else col) col

/-- The method `findPrimaryKey(item)` of collection `c`: every conventional
name the item has is assigned in turn, so the last one stays. -/
def findPrimaryKey (s : State) (c : String) (ref : Nat) (item : Obj) : State :=
  let s1 := modC s c (discoverKey item)
  if (getC s1 c).elim true noPrimaryKey then
    dataRejectionHandler s1 ref "No primary key supplied."
  else s1

/-- The property name `this._primaryKey` is coerced to when it is used as a
key. -/
def pkName (col : Collection) : String := col.primaryKey.getD "null"

/-- The value of the `index` argument: `undefined` when it was not given. -/
def indexVal : Option String → Val
  | none => undefined
  | some i => .atom (.str i)

/-- The test `if (index)`: an index name was given and is not the empty
string. -/
def indexGiven : Option String → Bool
  | some i => i ≠ ""
  | none => false

/-- The method `createRelationForIndex(index)`: every relation object gets an
empty array under the index name. -/
def createRelationForIndex (col : Collection) (index : String) : Collection :=
  { col with
    relations := col.relations.map fun e => (e.1, { props := oset e.2.props index (.arr []) }) }

/-- The relation loop of `processDataItem`: the value of the record's source
field is pushed onto `relation[index]` when that is an array. -/
def pushRelations (rels : List (String × Relation)) (index : Val) (data : Obj) :
    List (String × Relation) :=
  rels.map fun (e : String × Relation) =>
    match oget e.2.props index.toKey with
    | some (Val.arr xs) =>
      (e.1, { props := oset e.2.props index.toKey (.arr (xs ++ [(field data e.1).asElement])) })
    | _ => e

/-- The history as the arrays it shares with the indexes of `col` show it: the
payload of a `newGroup` entry whose array is still the index's array has the
contents of the index. -/
def syncHistory (col : Collection) (history : List HistoryItem) : List HistoryItem :=
  col.sharedWithHistory.foldl (fun h (e : String × Nat) =>
    match h[e.2]?, oget col.indexes e.1 with
    | some item, some keys =>
      match item.data with
      | .newGroup name _ => h.set e.2 { item with data := .newGroup name keys }
      | _ => h
    | _, _ => h) history

/-- The state with collection `c` replaced by `col`, whose index arrays were
pushed onto in place: the history entries that share an array show the push. -/
def setC (s : State) (c : String) (col : Collection) : State :=
  { s with collections := oset s.collections c col, history := syncHistory col s.history }

/-- The method `processDataItem(data, index)` of collection `c`.  The record
object `data` is placed on the heap at a fresh address first.  The `error` case
is the `TypeError` of an index that is not an own array (`.includes` of
`undefined` or of an inherited member). -/
def processDataItem (s : State) (c : String) (data : Obj) (index : Option String) : Result :=
  let ref := s.heap.length
  let s := { s with heap := s.heap ++ [data] }
  let s := if (getC s c).elim true noPrimaryKey then findPrimaryKey s c ref data else s
  match getC s c with
  | none => .error s
  | some col =>
    let pk := pkName col
    let s := if !ohas data pk then dataRejectionHandler s ref "Primary key mismatch" else s
    let key := field data pk
    match
      (match index with
        | none => some col
        | some i =>
          if i ≠ "" then
            match oget col.indexes i with
            | none => none
            | some keys =>
              if key ∈ keys then some col
              else some { col with indexes := oset col.indexes i (keys ++ [key]) }
          else some col) with
    | none => .error s
    | some col =>
      let col := { col with relations := pushRelations col.relations (indexVal index) data }
      let col := if key ∈ (okeys col.data).map (fun k => Val.atom (.str k)) then
        findGroupsToRegen col key else col
      let col := findFiltersToRegen col key (indexVal index)
      let col := { col with
        data := oset col.data key.toKey ref, collectionSize := col.collectionSize + 1 }
      .ok (setC s c col)

/-- The loop of `collect` over the items. -/
def processDataItems (c : String) (index : Option String) : State → List Obj → Result
  | s, [] => .ok s
  | s, item :: rest =>
    match processDataItem s c item index with
    | .error s1 => .error s1
    | .ok s1 => processDataItems c index s1 rest

/-- The method `collect(data, index)` of collection `c`, for an array of record
objects (a single record is wrapped into an array by the source; either is
truthy, so the guard `if (!data)` does not fire) and an optional single index
name.  The index is created when the read `this._indexes[index]` is falsy: a
name that is an inherited one is not created, and `processDataItem` raises. -/
def collect (fuel : Nat) (s : State) (c : String) (data : List Obj) (index : Option String) :
    Result :=
  let given := indexGiven index
  let s0 := if given then
      modC s c fun col =>
        let i := index.getD ""
        let col := createRelationForIndex col i
        { col with
          indexesToRegen := col.indexesToRegen ++ [i]
          indexes := if truthyAt col.indexes i then col.indexes else oset col.indexes i [] }
    else s
  match processDataItems c index s0 data with
  | .error s1 => .error s1
  | .ok s1 =>
    let refs := (List.range data.length).map fun k => s.heap.length + k
    let s2 := { s1 with history := s1.history ++
      [{ collection := c, data := .collect refs (if given then [index.getD ""] else []) [] }] }
    regenerateGroupsAndFilters fuel s2 c

/-- The loop of `update` over the properties to change, on the pair of
`history.previousValues` and the record object: the old value of the property is
noted, then the property is written. -/
def patchFold (propertiesToChange : Obj) (loop : List String) (acc : Obj × Obj) : Obj × Obj :=
  loop.foldl (fun (acc : Obj × Obj) property =>
    (oset acc.1 property (field acc.2 property),
     oset acc.2 property (field propertiesToChange property))) acc

/-- The method `update(id, propertiesToChange)` of collection `c`, for an id
that has a record or names no inherited member.  (For an id without a record
that names an inherited member the guard `this._data[id]` passes and the source
writes the properties onto that built-in object, which is outside the state.) -/
def update (fuel : Nat) (s : State) (c : String) (id : Val) (propertiesToChange : Obj) : Result :=
  match (getC s c).bind fun col => oget col.data id.toKey with
  | none => .ok s
  | some ref =>
    let patched := patchFold propertiesToChange (okeys propertiesToChange) ([], s.heap.getD ref [])
    let s1 := { s with
      heap := s.heap.set ref patched.2
      history := s.history ++ [{ collection := c, data := .update id patched.1 propertiesToChange }] }
    internalDataModified fuel s1 c id

/-- The method `findById(id)` of collection `c`, called from outside a filter:
the record object stored under the key, as a reference.  (For a key without a
record that names an inherited member the source returns that member, for which
there is no reference.) -/
def findById (s : State) (c : String) (id : Val) : Option Nat :=
  (getC s c).bind fun col => oget col.data id.toKey

/-- The closure `deleteFunction(primaryKey)` of `delete`.  The snapshot is
`Object.assign({}, this._data.primaryKey)`: a copy of the record stored under
the literal name `primaryKey`, the empty object when there is none. -/
def deleteFunction (fuel : Nat) (s : State) (c : String) (primaryKey : Val) : Result :=
  let deletedData : Obj :=
    match (getC s c).bind fun col => oget col.data "primaryKey" with
    | none => []
    | some ref => s.heap.getD ref []
  let s1 := modC s c fun col => { col with data := odel col.data primaryKey.toKey }
  let s2 := { s1 with history := s1.history ++ [{ collection := c, data := .delete deletedData }] }
  internalDataModified fuel s2 c primaryKey

/-- The method `delete(items)` of collection `c`, for an array of keys (a single
key is handled the same way). -/
def delete (fuel : Nat) (c : String) : State → List Val → Result
  | s, [] => .ok s
  | s, primaryKey :: rest =>
    match deleteFunction fuel s c primaryKey with
    | .error s1 => .error s1
    | .ok s1 => delete fuel c s1 rest

/-- The assignment `this._indexes[index] = keys` of a new array: a public key
list, or a history entry, that was the old array keeps the old contents. -/
def rebindIndex (col : Collection) (index : String) (keys : List Val) : Collection :=
  { col with
    indexes := oset col.indexes index keys
    sharedWithHistory := odel col.sharedWithHistory index
    pub := { col.pub with
      indexes :=
        match oget col.pub.indexes index with
        | some none => oset col.pub.indexes index (some ((oget col.indexes index).getD []))
        | _ => col.pub.indexes } }

/-- The loop of `move` over the ids.  The boolean says that the loop returned
from `move` at an id for which the read `this._data[id]` is falsy: an id
without a record that does not name an inherited member.  The `error` case is
the `TypeError` of `.filter` or `.push` on an index that is not an own array,
and carries the collection as mutated so far. -/
def moveLoop (sourceIndex destIndex : String) :
    Collection → List Val → Except Collection (Collection × Bool)
  | col, [] => .ok (col, false)
  | col, id :: rest =>
    if !truthyAt col.data id.toKey then .ok (col, true)
    else
      match oget col.indexes sourceIndex with
      | none => .error col
      | some source =>
        let col1 := rebindIndex col sourceIndex (source.filter fun item => item ≠ id)
        match oget col1.indexes destIndex with
        | none => .error col1
        | some dest =>
          moveLoop sourceIndex destIndex
            { col1 with indexes := oset col1.indexes destIndex (dest ++ [id]) } rest

/-- The method `move(ids, sourceIndex, destIndex)` of collection `c`, for an
array of ids.  The guards test the reads `this._indexes[sourceIndex]` and
`this._indexes[destIndex]` for truthiness. -/
def move (fuel : Nat) (s : State) (c : String) (ids : List Val) (sourceIndex destIndex : String) :
    Result :=
  match getC s c with
  | none => .error s
  | some col =>
    if !truthyAt col.indexes sourceIndex then .ok s
    else if !truthyAt col.indexes destIndex then .ok s
    else
      match moveLoop sourceIndex destIndex col ids with
      | .error col1 => .error (setC s c col1)
      | .ok (col1, stopped) =>
        let s1 := setC s c col1
        if stopped then .ok s1
        else
          match buildGroupFromIndex s1 c sourceIndex with
          | .error s2 => .error s2
          | .ok s2 =>
            match buildGroupFromIndex s2 c destIndex with
            | .error s3 => .error s3
            | .ok s3 =>
              findAndUpdateDependentsOfAll fuel
                { s3 with history := s3.history ++
                  [{ collection := c, data := .move ids sourceIndex destIndex }] }
                c [sourceIndex, destIndex]

/-- The loop of `put` over the ids, with the stop test and the `error` case of
`moveLoop`. -/
def putLoop (destIndex : String) : Collection → List Val → Except Collection (Collection × Bool)
  | col, [] => .ok (col, false)
  | col, id :: rest =>
    if !truthyAt col.data id.toKey then .ok (col, true)
    else
      match oget col.indexes destIndex with
      | none => .error col
      | some dest =>
        putLoop destIndex { col with indexes := oset col.indexes destIndex (dest ++ [id]) } rest

/-- The method `put(ids, destIndex)` of collection `c`, for an array of ids.
`previousDestIndex` is `Object.assign({}, this._indexes[destIndex])`: a copy of
the index, empty for an inherited member. -/
def put (fuel : Nat) (s : State) (c : String) (ids : List Val) (destIndex : String) : Result :=
  match getC s c with
  | none => .error s
  | some col =>
    if !truthyAt col.indexes destIndex then .ok s
    else
      let previousDestIndex := (oget col.indexes destIndex).getD []
      match putLoop destIndex col ids with
      | .error col1 => .error (setC s c col1)
      | .ok (col1, stopped) =>
        let s1 := setC s c col1
        if stopped then .ok s1
        else
          match buildGroupFromIndex s1 c destIndex with
          | .error s2 => .error s2
          | .ok s2 =>
            findAndUpdateDependents fuel
              { s2 with history := s2.history ++
                [{ collection := c, data := .put ids previousDestIndex }] }
              c destIndex

/-- The method `getGroup(id)` of collection `c`, called from outside a filter:
the state after the call.  The test is the truthiness of the read
`this._indexes[id]`, so `buildGroupFromIndex` is called for an inherited name
too, and raises.  The array the method returns is `getGroupValue`. -/
def getGroup (s : State) (c id : String) : Result :=
  match getC s c with
  | none => .error s
  | some col => if truthyAt col.indexes id then buildGroupFromIndex s c id else .ok s

/-- The array `getGroup(id)` of collection `c` returns: the resolved array of
`buildGroupFromIndex`, or the empty array when the read `this._indexes[id]` is
falsy.  `none` is the `TypeError` of `buildGroupFromIndex`. -/
def getGroupValue (s : State) (c id : String) : Option (List Atom) :=
  match getC s c with
  | none => none
  | some col => if truthyAt col.indexes id then groupOf s c id else some []

/-- The method `newGroup(name, indexArray)` of collection `c`.  The array that
becomes the index is the array the history entry records: the two are one
object until the index is assigned a new array. -/
def newGroup (s : State) (c name : String) (indexArray : List Val) : State :=
  match getC s c with
  | none => s
  | some col =>
    if name ∉ okeys col.indexes then
      { s with
        collections := oset s.collections c
          { col with
            indexes := oset col.indexes name indexArray
            sharedWithHistory := oset col.sharedWithHistory name s.history.length }
        history := s.history ++ [{ collection := c, data := .newGroup name indexArray }] }
    else s

/-- The names bound in the scope of the module `Collection.js`: those it takes
from `./Utils`.  The call of any other free identifier raises a
`ReferenceError`. -/
def moduleScope : List String := ["Log", "assert", "warn"]

/-- The test `typeof v === 'number'`. -/
def isNumber : Val → Bool
  | .atom (.num _) => true
  | _ => false

/-- The method `validateNumberForDataProperty(primaryKey, property, amount)` of
collection `c`: the record exists, the property is truthy, and the amount and
the property are numbers. -/
def validateNumberForDataProperty (s : State) (c : String) (primaryKey : Val)
    (property : String) (amount : Val) : Bool :=
  match (getC s c).bind fun col => oget col.data primaryKey.toKey with
  | none => false
  | some r =>
    if !(field (s.heap.getD r []) property).truthy ∨ !isNumber amount
        ∨ !isNumber (field (s.heap.getD r []) property) then false
    else true

/-- The sum `value + amount` of two numbers (what `+=` computes once
`validateNumberForDataProperty` has accepted both; `-=` adds the negated
amount). -/
def addNumbers (value : Val) (amount : Int) : Val :=
  match value with
  | .atom (.num x) => .atom (.num (x + amount))
  | v => v

/-- The value of a number, `0` for anything else. -/
def numberOf : Val → Int
  | .atom (.num x) => x
  | _ => 0

/-- The method `increment(primaryKey, property, amount)` of collection `c`.  Its
guard calls `validateNumberForDataProperty` as a free identifier, not as a
method of `this`: the call raises a `ReferenceError` unless the module binds
that name. -/
def increment (fuel : Nat) (s : State) (c : String) (primaryKey : Val) (property : String)
    (amount : Val) : Result :=
  if "validateNumberForDataProperty" ∉ moduleScope then .error s
  else if !validateNumberForDataProperty s c primaryKey property amount then .ok s
  else
    match (getC s c).bind fun col => oget col.data primaryKey.toKey with
    | none => .error s
    | some r =>
      internalDataModified fuel
        { s with
          heap := s.heap.set r (oset (s.heap.getD r []) property
            (addNumbers (field (s.heap.getD r []) property) (numberOf amount)))
          history := s.history ++ [{ collection := c, data := .increment amount }] }
        c primaryKey

/-- The method `decrement(primaryKey, property, amount)` of collection `c`, with
the same guard as `increment`. -/
def decrement (fuel : Nat) (s : State) (c : String) (primaryKey : Val) (property : String)
    (amount : Val) : Result :=
  if "validateNumberForDataProperty" ∉ moduleScope then .error s
  else if !validateNumberForDataProperty s c primaryKey property amount then .ok s
  else
    match (getC s c).bind fun col => oget col.data primaryKey.toKey with
    | none => .error s
    | some r =>
      internalDataModified fuel
        { s with
          heap := s.heap.set r (oset (s.heap.getD r []) property
            (addNumbers (field (s.heap.getD r []) property) (- numberOf amount)))
          history := s.history ++ [{ collection := c, data := .decrement amount }] }
        c primaryKey

/-! ## User writes through the proxy -/

/-- The `set` trap of `initProxy` once initialization is complete, for a write
`target[key] = value` by the user on the public object of collection `c` or on
one of its category objects.  A key of `_mutableData` is written, child
properties are analysed (`Object.keys(null)` raises; an object with properties
is aliased at the root), and the dependents of the key are regenerated.  Any
other key is refused. -/
def write (fuel : Nat) (s : State) (c : String) (target : Ns) (key : String) (value : Val) :
    Result :=
  match getC s c with
  | none => .error s
  | some col =>
    if key ∈ col.mutableData then
      let s1 := modC s c fun col => { col with pub := col.pub.setNs target key value }
      match value with
      | .atom .null => .error s1
      | .atom (.ref r) =>
        let s2 := if (s1.heap.getD r []).length ≠ 0 then
            modC s1 c fun col => { col with pub := col.pub.setNs .root key value }
          else s1
        findAndUpdateDependents fuel s2 c key
      | _ => findAndUpdateDependents fuel s1 c key
    else .ok s

/-! ## Construction -/

/-- The configuration of one collection: initial data properties, the declared
primary key, the declared relations (`parent` / `assignTo` of the model), the
filters, and the declared index names (`indexes.concat(groups)`). -/
structure Config where
  data : List (String × Val) := []
  primaryKey : Option String := none
  relations : List (String × ModelRelation) := []
  filters : List (String × FilterProg) := []
  groups : List String := []

/-- The own properties of `publicObject` in the constructor: the category
objects and the bound methods of `_actionRefrence`. -/
def publicObject : List (String × Val) :=
  ["groups", "data", "actions", "filters", "routes", "indexes", "collect", "undo", "move",
    "update", "put", "delete", "findById", "getGroup", "newGroup", "forceUpdate", "throttle",
    "set"].map fun k => (k, Val.atom (.native k))

/-- The method `initGroups(indexes)`: an empty index and an empty public group
per name; the loop returns at the first duplicate declaration. -/
def initGroups : List String → Collection → Collection
  | [], col => col
  | index :: rest, col =>
    if ((oget col.pub.groups index).elim false Val.truthy) ∨ ohas col.indexes index then col
    else
      initGroups rest { col with
        indexes := oset col.indexes index []
        pub := { col.pub with groups := oset col.pub.groups index (.arr []) } }

/-- The inner loop of `prepareNamespace` for one category object: the
assignment `this._public[item] = this._public[category][item]` per item. -/
def rootAliases (p : Public) (items : List (String × Val)) : Public :=
  (okeys items).foldl (fun (p : Public) item =>
    { p with root := oset p.root item ((oget items item).getD undefined) }) p

/-- The method `prepareNamespace`: every item of the categories `groups`,
`data` and `filters` (in the key order of the public object; there are no
actions in the model) gets a root alias. -/
def prepareNamespace (p : Public) : Public :=
  let p1 := rootAliases p p.groups
  let p2 := rootAliases p1 p1.data
  rootAliases p2 p2.filters

/-- The constructor of `Collection`, without the parts about actions, routes,
watchers and persistence. -/
def newCollection (cfg : Config) : Collection :=
  let col : Collection :=
    { primaryKey := cfg.primaryKey
      data := []
      indexes := []
      relations := cfg.relations.foldl (fun o e => oset o e.1 (createDataRelation e.2)) []
      filters := cfg.filters
      filtersRelatedToData := []
      filtersRelatedToGroup := []
      mutableData := okeys cfg.data
      indexesToRegen := []
      filtersToForceRegen := []
      collectionSize := 0
      pub := { root := publicObject, data := cfg.data, filters := [], groups := [], indexes := [] } }
  let col := initGroups cfg.groups col
  let col := { col with
    pub := { col.pub with filters := (okeys cfg.filters).foldl (fun o f => oset o f (.arr [])) [] } }
  { col with pub := prepareNamespace col.pub }

/-- The method `prepareDependencyGraph`: one node without edges per filter,
group and data property of every collection. -/
def prepareDependencyGraph (collections : List (String × Collection)) : Graph :=
  collections.foldl (fun g (entry : String × Collection) =>
    let names := okeys entry.2.pub.filters ++ okeys entry.2.pub.groups ++ okeys entry.2.pub.data
    oset g entry.1
      (names.foldl (fun m item => oset m item { dependencies := [], dependents := [] }) []))
    []

/-- The loop of `analyseFilters` of collection `c` over its filters. -/
def analyseFilters (c : String) : State → List String → Result
  | s, [] => .ok s
  | s, filter :: rest =>
    match executeAndAnalyseFilter s c filter with
    | .error s1 => .error s1
    | .ok s1 => analyseFilters c s1 rest

/-- The loop of `executeAllFilters` over the collections. -/
def executeAllFilters : State → List String → Result
  | s, [] => .ok s
  | s, c :: rest =>
    match analyseFilters c s ((getC s c).elim [] fun col => okeys col.filters) with
    | .error s1 => .error s1
    | .ok s1 => executeAllFilters s1 rest

/-- The loop of `initCollections`: each name is pushed to the collection
namespace, then its collection is built.  `createDataRelation` looks the target
of a relation up in the namespace as it is then, which holds `base`, `request`
and the collections declared so far; when the target is not there, the message
of its `assert` reads the undeclared variable `collection`, a `ReferenceError`
that ends the construction.  The `error` case carries the collections built
before. -/
def initCollections :
    List String → List (String × Collection) → List (String × Config) →
      Except (List (String × Collection)) (List (String × Collection))
  | _, cs, [] => .ok cs
  | ns, cs, (name, cfg) :: rest =>
    if cfg.relations.all fun e => decide (e.2.fromCollectionName ∈ ns ++ [name]) then
      initCollections (ns ++ [name]) (oset cs name (newCollection cfg)) rest
    else .error cs

/-- The constructor of `Pulse` for the given collections: they are built, the
dependency graph is prepared, every filter is executed and analysed, and the
regeneration queue is processed.  The built-in collections `base` and `request`
are in the namespace but are not built. -/
def construct (fuel : Nat) (configs : List (String × Config)) : Result :=
  let empty : State :=
    { collections := []
      heap := []
      regenQueue := []
      errors := []
      history := []
      allFilters := []
      generatedFilters := []
      dependencyGraph := []
      lastRegenerated := ""
      trace := [] }
  match initCollections ["base", "request"] [] configs with
  | .error cs =>
    .error { empty with
      collections := cs, allFilters := cs.foldl (fun l entry => l ++ okeys entry.2.filters) [] }
  | .ok collections =>
    let s : State :=
      { empty with
        collections := collections
        allFilters := configs.foldl (fun l entry => l ++ okeys entry.2.filters) []
        dependencyGraph := prepareDependencyGraph collections }
    match executeAllFilters s (okeys collections) with
    | .error s1 => .error s1
    | .ok s1 => processRegenQueue fuel s1

end Pulse


namespace Pulse

/-! ## Scenarios -/

/-- A string value. -/
def sv (s : String) : Val := .atom (.str s)

/-- A number value. -/
def nv (n : Int) : Val := .atom (.num n)

/-- The store and the index key lists of a collection. -/
def storeAndIndexes (s : State) (c : String) :
    Option (List (String × Nat) × List (String × List Val)) :=
  (getC s c).map fun col => (col.data, col.indexes)

/-- A collection `c` without a declared primary key, with the declared group
`list`. -/
def rejectionState : State := (construct 10 [("c", { groups := ["list"] })]).state

/-- A collection `c` with the declared primary key `id` and the declared group
`list`. -/
def rejectionStateDeclared : State :=
  (construct 10 [("c", { primaryKey := some "id", groups := ["list"] })]).state

/-- A filter that returns the property `p` of collection `c` as it reads it at
the root of the public object. -/
def readRoot (c p : String) : FilterProg := .read c .root p fun v => .ret v

/-- Collection `c` with the data property `D` and three filters declared in the
order `Z`, `Y`, `X`: `Z` reads `D`, `Y` reads `Z`, and `X` reads `D` and then
returns what it reads from `Y`. -/
def diamondConfig : Config :=
  { data := [("D", nv 0)]
    filters := [("Z", readRoot "c" "D"), ("Y", readRoot "c" "Z"),
      ("X", .read "c" .root "D" fun _ => readRoot "c" "Y")] }

/-- The state after construction from `diamondConfig`: the graph is the one
`populateDependencies` built during the first generation of the filters. -/
def diamondState : State := (construct 10 [("c", diamondConfig)]).state

/-- The order the specification asks of a queue on a graph: no entry is a
dependent of an entry placed after it. -/
def dependencyOrdered (g : Graph) : List Entry → Bool
  | [] => true
  | x :: rest =>
    rest.all (fun y =>
      (x.collection ++ "/" ++ x.property) ∉
        ((nodeOf g y.collection y.property).elim [] fun n => n.dependents))
      && dependencyOrdered g rest

/-- The output slots of the filters of a collection. -/
def filterOutputs (s : State) (c : String) : Option (List (String × Val)) :=
  (getC s c).map fun col => col.pub.filters

/-- A filter that returns the `name` field of the first record of the group `g`
of collection `c`, read at the root of the public object. -/
def firstName (c g : String) : FilterProg :=
  .read c .root g fun v =>
    match v with
    | .arr (.ref r :: _) => .fieldOf r "name" fun n => .ret n
    | _ => .ret undefined

/-- Collection `c` with primary key `id`, the declared groups `P`, `Q`, `R` and
one filter per group that reads it. -/
def threeGroupsConfig : Config :=
  { primaryKey := some "id"
    groups := ["P", "Q", "R"]
    filters := [("FP", firstName "c" "P"), ("FQ", firstName "c" "Q"), ("FR", firstName "c" "R")] }

/-- The record `{id: "a", name: n}`. -/
def recordA (n : String) : Obj := [("id", sv "a"), ("name", sv n)]

/-- The state after construction from `threeGroupsConfig`, then
`collect({id: "a", name: "n1"}, "P")` and `collect({id: "a", name: "n2"}, "Q")`. -/
def threeGroupsState : State :=
  (collect 10
    (collect 10 (construct 10 [("c", threeGroupsConfig)]).state "c" [recordA "n1"] (some "P")).state
    "c" [recordA "n2"] (some "Q")).state

/-- The pending-rebuild list of a collection. -/
def pendingIndexes (s : State) (c : String) : Option (List String) :=
  (getC s c).map fun col => col.indexesToRegen

/-- The public group outputs of a collection. -/
def groupOutputs (s : State) (c : String) : Option (List (String × Val)) :=
  (getC s c).map fun col => col.pub.groups

/-- Collection `c` with primary key `id`, the declared groups `Q` and `P` (in
that order) and the filter `F` that reads group `P`. -/
def twoGroupsConfig : Config :=
  { primaryKey := some "id", groups := ["Q", "P"], filters := [("F", firstName "c" "P")] }

/-- The state after construction from `twoGroupsConfig`, then
`collect({id: 1, name: "a"}, "P")` and `put([1], "Q")`: record `1` is in both
indexes and nothing is pending. -/
def twoGroupsState : State :=
  (put 10
    (collect 10 (construct 10 [("c", twoGroupsConfig)]).state "c"
      [[("id", nv 1), ("name", sv "a")]] (some "P")).state
    "c" [nv 1] "Q").state

/-- The index key lists of a collection. -/
def indexLists (s : State) (c : String) : Option (List (String × List Val)) :=
  (getC s c).map fun col => col.indexes

/-- The store of a collection, with the record objects read from the heap. -/
def storeRecords (s : State) (c : String) : Option (List (String × Obj)) :=
  (getC s c).map fun col => col.data.map fun e => (e.1, s.heap.getD e.2 [])

/-- Collection `c` with primary key `id` and the declared group `list`, holding
the record `{id: 1, name: "a"}` in `list`. -/
def oneRecordState : State :=
  (collect 10 (construct 10 [("c", { primaryKey := some "id", groups := ["list"] })]).state "c"
    [[("id", nv 1), ("name", sv "a")]] (some "list")).state

/-- The collection `c` of `oneRecordState`. -/
def oneRecordCollection : Collection :=
  match getC oneRecordState "c" with
  | some col => col
  | none => newCollection {}

/-- Collections `users` and `posts`, both with primary key `id`; `posts`
declares the group `list` and the relation `owner -> users` without alias.
`users` holds `{id: 5, name: "u"}` and `posts` holds `{id: 1, owner: 5}` in
`list`. -/
def relationState : State :=
  (collect 10
    (collect 10
      (construct 10
        [("users", { primaryKey := some "id" }),
         ("posts", { primaryKey := some "id", groups := ["list"],
                     relations := [("owner", { fromCollectionName := "users", assignTo := none })] })]).state
      "users" [[("id", nv 5), ("name", sv "u")]] none).state
    "posts" [[("id", nv 1), ("owner", nv 5)]] (some "list")).state

/-- Collection `c` with the data property `D = 1` and two filters declared in
the order `B`, `A`: `B` returns `D` (read at the root of the public object) and
`A` returns the output of `B` (read from the `filters` object). -/
def chainConfig : Config :=
  { data := [("D", nv 1)]
    filters := [("B", .read "c" .root "D" fun x => .ret (id x)),
      ("A", .read "c" .filters "B" fun x => .ret (id x))] }

/-- The state after construction from `chainConfig`. -/
def chainState : State := (construct 10 [("c", chainConfig)]).state

/-- The collection `c` of `chainState`. -/
def chainCollection : Collection :=
  match getC chainState "c" with
  | some col => col
  | none => newCollection {}

/-- The value of a property of the root of a collection's public object. -/
def rootValue (s : State) (c p : String) : Option Val :=
  (getC s c).bind fun col => oget col.pub.root p

/-- Collections `users` and `posts`, both with primary key `id`; `posts`
declares the group `B` and the relation `owner -> users`.  `posts` holds
`{id: 1}`, and the index `A = [1, 99]` was made by `newGroup("A", [1, 99])`:
no record has the key `99`. -/
def danglingKeyState : State :=
  newGroup
    (collect 10
      (construct 10
        [("users", { primaryKey := some "id" }),
         ("posts", { primaryKey := some "id", groups := ["B"],
                     relations := [("owner", { fromCollectionName := "users", assignTo := none })] })]).state
      "posts" [[("id", nv 1)]] none).state
    "posts" "A" [nv 1, nv 99]

/-- The state `chainState` in the middle of a drain: the filter `B` was
processed last and the queue holds `B` again, then `A`. -/
def repeatedEntryState : State :=
  { chainState with regenQueue := [⟨"c", "B"⟩, ⟨"c", "A"⟩], lastRegenerated := "c/B" }

/-- The state the constructor of `Pulse` has built when it calls
`executeAllFilters`: the collections and the prepared graph, no filter generated
yet. -/
def preparedState (configs : List (String × Config)) : State :=
  let collections := configs.foldl
    (fun (cs : List (String × Collection)) entry => oset cs entry.1 (newCollection entry.2)) []
  { collections := collections
    heap := []
    regenQueue := []
    errors := []
    history := []
    allFilters := configs.foldl (fun l entry => l ++ okeys entry.2.filters) []
    generatedFilters := []
    dependencyGraph := prepareDependencyGraph collections
    lastRegenerated := ""
    trace := [] }

/-- The collection `c` built from `chainConfig`, before any filter has run. -/
def chainPrepared : Collection :=
  match getC (preparedState [("c", chainConfig)]) "c" with
  | some col => col
  | none => newCollection {}

/-- Collection `c` with the data property `D = 1` and the filters `S`, `X`, `F`,
`G` (declared in that order): `S` returns its own output, `X` and `G` return
`D`, and `F` reads `D` and `X`, and the output of `S` as well when `D` is not
`1`. -/
def retryConfig : Config :=
  { data := [("D", nv 1)]
    filters := [("S", .read "c" .filters "S" fun v => .ret v),
      ("X", readRoot "c" "D"),
      ("F", .read "c" .root "D" fun d => .read "c" .root "X" fun x =>
        if d = nv 1 then .ret x else .read "c" .filters "S" fun _ => .ret x),
      ("G", readRoot "c" "D")] }

/-- The state after construction from `retryConfig`: `S`, which reads itself,
was deferred and never generated; the other filters were. -/
def retryState : State := (construct 10 [("c", retryConfig)]).state

/-- Collection `c` with the data property `D = 1` and the filters `X`, `F`, `G`
(declared in that order): `F` and `G` return `D`; `X` returns `D` while it is
`1` and otherwise reads a property of `ghost`, which is not a collection, so
that its execution raises a `TypeError`. -/
def throwConfig : Config :=
  { data := [("D", nv 1)]
    filters := [("X", .read "c" .root "D" fun d =>
        if d = nv 1 then .ret d else .read "ghost" .root "D" fun v => .ret v),
      ("F", readRoot "c" "D"), ("G", readRoot "c" "D")] }

/-- The state after construction from `throwConfig`. -/
def throwState : State := (construct 10 [("c", throwConfig)]).state

/-- The state the write `c.D = 2` leaves on `throwState`: the execution of `X`
raised, and the entries behind it are still in the queue.  (The raise also
leaves the recording flag set and the pair `c`, `D` in the discovery buffer;
`F` and `G` discover that very pair, so their executions are not affected.) -/
def pendingState : State := (write 10 throwState "c" .root "D" (nv 2)).state

/-- Collection `c1` with the data property `x = 1` and the filter `F`, which
returns `x`; collection `c2` with a filter that is named `x` as well. -/
def clashConfigs : List (String × Config) :=
  [("c1", { data := [("x", nv 1)], filters := [("F", readRoot "c1" "x")] }),
   ("c2", { filters := [("x", .ret (nv 0))] })]

/-- The state after construction from `clashConfigs`. -/
def clashState : State := (construct 10 clashConfigs).state

/-- Collection `a` with the filter `bc`; collection `ab` with the filters `F`
and `c` (declared in that order), where `F` returns the output of `c`.  The
pairs `a`, `bc` and `ab`, `c` concatenate to the same string. -/
def concatConfigs : List (String × Config) :=
  [("a", { filters := [("bc", .ret (nv 7))] }),
   ("ab", { filters := [("F", .read "ab" .filters "c" fun v => .ret v), ("c", .ret (nv 9))] })]

/-- The state after construction from `concatConfigs`. -/
def concatState : State := (construct 10 concatConfigs).state

/-- The primary-key field of a collection. -/
def primaryKeyOf (s : State) (c : String) : Option (Option String) :=
  (getC s c).map fun col => col.primaryKey

/-- Collection `c` with primary key `id` and the declared group `list`, holding
the record `{id: "a", name: "n1"}` in `list`. -/
def stringKeyState : State :=
  (collect 10 (construct 10 [("c", { primaryKey := some "id", groups := ["list"] })]).state "c"
    [recordA "n1"] (some "list")).state

/-- Collection `c` with primary key `id` and the declared group `list`, holding
the record `{id: 1, n: 5, z: 0}` in `list`. -/
def counterState : State :=
  (collect 10 (construct 10 [("c", { primaryKey := some "id", groups := ["list"] })]).state "c"
    [[("id", nv 1), ("n", nv 5), ("z", nv 0)]] (some "list")).state

/-- The collection `c` of `rejectionState`. -/
def rejectionCollection : Collection :=
  match getC rejectionState "c" with
  | some col => col
  | none => newCollection {}

/-- A graph with a cycle: the node `a` of collection `c` is its own
dependent. -/
def cycleGraph : Graph := [("c", [("a", ⟨[], ["c/a"]⟩)])]

/-- The state `relationState` after `users.delete(5)`: the store of `users` is
empty, and record `1` of `posts` still has `owner = 5`. -/
def staleRelationState : State := (delete 10 "users" relationState [nv 5]).state

/-- The collection `posts` of `relationState`. -/
def relationPosts : Collection :=
  match getC relationState "posts" with
  | some col => col
  | none => newCollection {}

/-- The collection `users` of `relationState`. -/
def relationUsers : Collection :=
  match getC relationState "users" with
  | some col => col
  | none => newCollection {}

/-- Collections `users` and `posts` as in `relationState`, but the record
`{id: 1, owner: 5}` of `posts` was collected without an index, so that no
group has been built from it; the index `mine = [1]` was made by
`newGroup("mine", [1])`. -/
def unresolvedState : State :=
  newGroup
    (collect 10
      (collect 10
        (construct 10
          [("users", { primaryKey := some "id" }),
           ("posts", { primaryKey := some "id", groups := ["list"],
                       relations := [("owner", { fromCollectionName := "users", assignTo := none })] })]).state
        "users" [[("id", nv 5), ("name", sv "u")]] none).state
      "posts" [[("id", nv 1), ("owner", nv 5)]] none).state
    "posts" "mine" [nv 1]

/-- The public key-list output of an index: the contents of the array
`_public.indexes[index]`, which is the index's own array or a detached one. -/
def publicKeyList (s : State) (c index : String) : Option (List Val) :=
  (getC s c).bind fun col =>
    match oget col.pub.indexes index with
    | some none => oget col.indexes index
    | some (some l) => some l
    | none => none

/-- The value of a property of the `data` object of a collection's public
object. -/
def dataValue (s : State) (c p : String) : Option Val :=
  (getC s c).bind fun col => oget col.pub.data p

/-! ## Vocabulary of the statements -/

/-- The part of a collection the record store operations are about: primary
key, store, index key lists and relations. -/
def Collection.store (col : Collection) :
    Option String × List (String × Nat) × List (String × List Val) × List (String × Relation) :=
  (col.primaryKey, col.data, col.indexes, col.relations)

/-- The fields relations of a list attach foreign records under. -/
def relationTargets (rels : List (String × Relation)) : List String :=
  rels.map fun e => e.2.target

/-- What regeneration keeps of a state: the history, the error sink, the store
part of every collection, and every field of every record object other than the
fields named in `T`. -/
structure Keeps (T : List String) (s s' : State) : Prop where
  history : s'.history = s.history
  errors : s'.errors = s.errors
  store : ∀ c, (getC s' c).map Collection.store = (getC s c).map Collection.store
  heap : ∀ r f, f ∉ T → oget (s'.heap.getD r []) f = oget (s.heap.getD r []) f

/-- The relation targets of collection `c` are among `T`. -/
def TargetsIn (T : List String) (s : State) (c : String) : Prop :=
  ∀ col, getC s c = some col → ∀ e ∈ col.relations, e.2.target ∈ T

/-- The primary-key field `processDataItem` works with for a record: the one
already set (declared or discovered earlier), else the last of `id`, `_id` that
the record has. -/
def keyFieldFor (col : Collection) (r : Obj) : String :=
  if noPrimaryKey col then
    if ohas r "_id" then "_id" else if ohas r "id" then "id" else pkName col
  else pkName col

/-- The graph `populateDependencies` leaves, whether it returns or raises. -/
def graphAfter : Except Graph Graph → Graph
  | .ok g => g
  | .error g => g

/-- What filter execution keeps of the dependency graph `g` in the graph `g'`:
the collection names, the property names under each collection, and every node,
whose two lists in `g` are initial segments of its lists in `g'`. -/
def GraphKept (g g' : Graph) : Prop :=
  okeys g' = okeys g
    ∧ (∀ c, (oget g' c).map okeys = (oget g c).map okeys)
    ∧ ∀ c p n, nodeOf g c p = some n →
        ∃ n', nodeOf g' c p = some n'
          ∧ (∃ t, n'.dependencies = n.dependencies ++ t)
          ∧ ∃ t, n'.dependents = n.dependents ++ t

/-- A list of a node that has no repeated key in `g` has none in `g'`. -/
def NodupKept (g g' : Graph) : Prop :=
  ∀ c p n n', nodeOf g c p = some n → nodeOf g' c p = some n' →
    (n.dependencies.Nodup → n'.dependencies.Nodup)
      ∧ (n.dependents.Nodup → n'.dependents.Nodup)

/-- The name `collection/property` of a queue entry (`concatEntryName` in
`processRegenQueue`), which is compared with the last-processed marker. -/
def concatEntryName (e : Entry) : String := e.collection ++ "/" ++ e.property

/-- The execution events of a list of entries, in order. -/
def execEvents (q : List Entry) : List Event := q.map fun e => .exec e.collection e.property

/-- The states that run the same filters on the same data as `s0`: same
collections, heap, filter names and dependency graph. -/
def SameProgram (s0 t : State) : Prop :=
  t.collections = s0.collections ∧ t.heap = s0.heap ∧ t.allFilters = s0.allFilters
    ∧ t.dependencyGraph = s0.dependencyGraph

/-- Every key of every dependents list names a node of the graph. -/
def DependentsNamed (g : Graph) : Prop :=
  ∀ c p n k, nodeOf g c p = some n → k ∈ n.dependents → (dependentsOfKey g k).isSome = true

/-- The key `k` is reached from the node `c/p` over exactly `j` dependents
edges (`j` is at least one): an edge leads from a node to each key of its
dependents list, and from a key to the node it names. -/
inductive ReachIn (g : Graph) (c p : String) : Nat → String → Prop
  | direct (n : GraphNode) (k : String) (hn : nodeOf g c p = some n) (hk : k ∈ n.dependents) :
      ReachIn g c p 1 k
  | step (j : Nat) (k k' : String) (m : GraphNode) (h : ReachIn g c p j k)
      (hm : nodeOf g (parseKey k).collection (parseKey k).property = some m)
      (hk : k' ∈ m.dependents) : ReachIn g c p (j + 1) k'

/-- The keys of round `j` of a traversal that starts with the keys `start`:
round `j + 1` holds the dependents of the keys of round `j`. -/
def levelKeys (g : Graph) (start : List String) : Nat → Option (List String)
  | 0 => some start
  | j + 1 => (levelKeys g start j).bind (expandRound g)

/-- The element of the resolved array for a key, the read `this._data[id]`: the
record object stored under the key, the inherited member when there is none and
the key names one, else `undefined`. -/
def atomOf (data : List (String × Nat)) (id : Val) : Atom :=
  match oget data id.toKey with
  | some r => .ref r
  | none => if id.toKey ∈ inheritedNames then .native id.toKey else .undefined

/-- No relation object has an index array in the place of the method
`hasOwnProperty` it inherits. -/
def Unshadowed (rels : List (String × Relation)) : Prop :=
  ∀ e ∈ rels, ohas e.2.props "hasOwnProperty" = false

/-- The collection after the delivery part of `buildGroupFromIndex`: the
resolved array is delivered when the group is public, and the public key list
is made the index's array. -/
def delivered (data : List Atom) (index : String) (col : Collection) : Collection :=
  let p :=
    if ohas col.pub.root index ∨ ohas col.pub.groups index then
      deliverUpdate col.pub .groups (.arr data) index
    else col.pub
  { col with pub := { p with indexes := oset p.indexes index none } }

/-- No relation attaches its foreign record under a field that is the source
field of a relation. -/
def TargetsApart (rels : List (String × Relation)) : Prop :=
  ∀ e ∈ rels, ∀ e' ∈ rels, e.2.target ≠ e'.1

/-- The record object `o` carries what the relation `relationKey -> rel` gives
for the record object `o0`: the target collection exists, and `o` holds under
the relation's field the foreign record, when the target store has one under
the value of the source field of `o0`; what `o0` holds under that field, when
the store has none and the value names no inherited member; and the inherited
member, when the store has none and the value names one. -/
def Attached (s : State) (relationKey : String) (rel : Relation) (o0 o : Obj) : Prop :=
  ∃ target, getC s rel.fromCollectionName = some target
    ∧ (∀ f, oget target.data (field o0 relationKey).toKey = some f →
        oget o rel.target = some (.atom (.ref f)))
    ∧ (oget target.data (field o0 relationKey).toKey = none →
        (field o0 relationKey).toKey ∉ inheritedNames →
        oget o rel.target = oget o0 rel.target)
    ∧ (oget target.data (field o0 relationKey).toKey = none →
        (field o0 relationKey).toKey ∈ inheritedNames →
        oget o rel.target = some (.atom (.native (field o0 relationKey).toKey)))

/-- What every record store call keeps between the state `s` it is called on
and the state `s'` it leaves: collection `c` has the primary key it had. -/
def Continues (c : String) (s s' : State) : Prop :=
  (getC s' c).map (fun col => col.primaryKey) = (getC s c).map fun col => col.primaryKey

/-- The graphs `populateDependencies` can leave, starting from the graph `g0`,
when it is called for the filters `F` (pairs of a collection name and a filter
name) only, with any discovered pairs, whether it returns or raises. -/
inductive GraphReach (F : String → String → Prop) (g0 : Graph) : Graph → Prop
  | init : GraphReach F g0 g0
  | step (g : Graph) (c filter : String) (found : List Entry) (hF : F c filter)
      (h : GraphReach F g0 g) :
      GraphReach F g0 (graphAfter (populateDependencies c filter g found))

/-- Every key of every dependents list is the encoding `collection/filter` of a
filter of `F` that has a node in the graph. -/
def DependentsDeclared (F : String → String → Prop) (g : Graph) : Prop :=
  ∀ c p n k, nodeOf g c p = some n → k ∈ n.dependents →
    ∃ c' f, k = c' ++ "/" ++ f ∧ F c' f ∧ (nodeOf g c' f).isSome = true

/-- The entries of a list in the order of their first occurrences: every
entry is kept where it occurs first, and its later occurrences are dropped. -/
def firstOccurrences : List Entry → List Entry
  | [] => []
  | e :: t => e :: (firstOccurrences t).filter fun x => x ≠ e

/-- A graph with cycles, as `populateDependencies` builds it for three filters
`A`, `B`, `C` of collection `c` each of which read the outputs of the other
two: every node has the other two as its dependents. -/
def cliqueGraph : Graph :=
  graphAfter (populateDependencies "c" "C"
    (graphAfter (populateDependencies "c" "B"
      (graphAfter (populateDependencies "c" "A"
        [("c", [("A", ⟨[], []⟩), ("B", ⟨[], []⟩), ("C", ⟨[], []⟩)])]
        [⟨"c", "B"⟩, ⟨"c", "C"⟩]))
      [⟨"c", "A"⟩, ⟨"c", "C"⟩]))
    [⟨"c", "A"⟩, ⟨"c", "B"⟩])

/-- The name of a filter of the ladder: the letter of its side and one `i` for
each rung above it. -/
def ladderName (side : Char) (j : Nat) : String := String.mk (side :: List.replicate j 'i')

/-- The two keys of rung `j` of the ladder. -/
def ladderRung (j : Nat) : List String :=
  ["c/" ++ ladderName 'a' j, "c/" ++ ladderName 'b' j]

/-- An acyclic graph of depth 32: the data property `r` of collection `c` is
read by the two filters of rung 0, and for `j < 31` both filters of rung `j` are
read by the two filters of rung `j + 1`. -/
def ladderGraph : Graph :=
  [("c", ("r", ⟨[], ladderRung 0⟩) ::
    (List.range 32).flatMap fun j =>
      ['a', 'b'].map fun side =>
        (ladderName side j,
          (⟨if j = 0 then ["c/r"] else ladderRung (j - 1),
            if j < 31 then ladderRung (j + 1) else []⟩ : GraphNode)))]

/-- The test that every key of every dependents list of a graph names a node
of the graph. -/
def dependentsNamedCheck (g : Graph) : Bool :=
  g.all fun cm => cm.2.all fun pn => pn.2.dependents.all fun k => (dependentsOfKey g k).isSome

/-! ## Lemmas on objects and collections -/

theorem oget_oset {α : Type} (o : List (String × α)) (k k' : String) (v : α) :
    oget (oset o k v) k' = if k = k' then some v else oget o k' := by
  induction o with
  | nil => simp [oset, oget]
  | cons e t ih =>
    obtain ⟨k0, v0⟩ := e
    by_cases h0 : k0 = k
    · subst h0
      by_cases h1 : k0 = k' <;> simp [oset, oget, h1]
    · by_cases h1 : k0 = k'
      · subst h1
        have h2 : ¬ k = k0 := fun h => h0 h.symm
        simp [oset, oget, h0, h2]
      · simp [oset, oget, h0, h1, ih]

theorem oget_oset_same {α : Type} (o : List (String × α)) (k : String) (v : α) :
    oget (oset o k v) k = some v := by
  simp [oget_oset]

theorem oget_oset_ne {α : Type} (o : List (String × α)) (k k' : String) (v : α) (h : k ≠ k') :
    oget (oset o k v) k' = oget o k' := by
  simp [oget_oset, h]

theorem getC_modC (s : State) (c c' : String) (f : Collection → Collection) :
    getC (modC s c f) c' = if c = c' then (getC s c).map f else getC s c' := by
  unfold modC getC
  cases h : oget s.collections c with
  | none =>
    by_cases hc : c = c'
    · subst hc; simp [h]
    · simp [hc]
  | some col => simp [oget_oset]

theorem getC_setC_sync (s : State) (c c' : String) (col : Collection) :
    getC (setC s c col) c' = if c = c' then some col else getC s c' := by
  simp [setC, getC, oget_oset]

theorem Keeps.refl (T : List String) (s : State) : Keeps T s s :=
  ⟨rfl, rfl, fun _ => rfl, fun _ _ _ => rfl⟩

theorem Keeps.trans {T : List String} {s1 s2 s3 : State} (h12 : Keeps T s1 s2)
    (h23 : Keeps T s2 s3) : Keeps T s1 s3 :=
  ⟨h23.history.trans h12.history, h23.errors.trans h12.errors,
    fun c => (h23.store c).trans (h12.store c),
    fun r f hf => (h23.heap r f hf).trans (h12.heap r f hf)⟩

theorem Keeps.modC {T : List String} (s : State) (c : String) (f : Collection → Collection)
    (hf : ∀ col, (f col).store = col.store) : Keeps T s (modC s c f) := by
  refine ⟨?_, ?_, ?_, fun _ _ _ => ?_⟩
  · unfold Pulse.modC; split <;> rfl
  · unfold Pulse.modC; split <;> rfl
  · intro c'
    rw [getC_modC]
    by_cases hc : c = c'
    · subst hc
      cases h : getC s c <;> simp [hf]
    · simp [hc]
  · unfold Pulse.modC; split <;> rfl

theorem Keeps.of_eq {T : List String} {s s' : State} (h1 : s'.history = s.history)
    (h2 : s'.errors = s.errors) (h3 : s'.collections = s.collections) (h4 : s'.heap = s.heap) :
    Keeps T s s' :=
  ⟨h1, h2, fun c => by simp [getC, h3], fun r f _ => by rw [h4]⟩

/-! ## The scheduler keeps the record store -/

theorem executeFilter_keeps (T : List String) (s : State) (c filter : String) :
    (∀ s1, executeFilter s c filter = .error s1 → Keeps T s s1)
    ∧ (∀ s1 found, executeFilter s c filter = .ok (s1, found) → Keeps T s s1) := by
  unfold executeFilter
  constructor
  · intro s1 h
    split at h
    · cases h; exact Keeps.refl T s
    · split at h
      · cases h; exact Keeps.refl T s
      · split at h
        · cases h; exact Keeps.refl T s
        · cases h
  · intro s1 found h
    split at h
    · cases h
    · split at h
      · cases h
      · split at h
        · cases h
        · cases h
          exact Keeps.modC s c _ (fun _ => rfl)

theorem executeAndAnalyseFilter_keeps (T : List String) (s : State) (c filter : String) :
    Keeps T s (executeAndAnalyseFilter s c filter).state := by
  have h0 : Keeps T s { s with trace := s.trace ++ [.exec c filter] } :=
    Keeps.of_eq rfl rfl rfl rfl
  have hf := executeFilter_keeps T { s with trace := s.trace ++ [.exec c filter] } c filter
  unfold executeAndAnalyseFilter
  split
  · exact Keeps.refl T s
  · split
    · rename_i s1 h
      exact h0.trans (hf.1 s1 h)
    · rename_i s1 found h
      have h1 := h0.trans (hf.2 s1 found h)
      split
      · exact h1.trans (Keeps.of_eq rfl rfl rfl rfl)
      · split
        · exact h1.trans (Keeps.of_eq rfl rfl rfl rfl)
        · exact h1.trans (Keeps.of_eq rfl rfl rfl rfl)

theorem regenPass_keeps (T : List String) :
    ∀ (n i : Nat) (s : State),
      (∀ s1, regenPass n i s = .error s1 → Keeps T s s1)
      ∧ (∀ s1 b, regenPass n i s = .ok (s1, b) → Keeps T s s1) := by
  intro n
  induction n with
  | zero =>
    intro i s
    constructor
    · intro s1 h; simp [regenPass] at h
    · intro s1 b h
      simp [regenPass] at h
      rw [← h.1]; exact Keeps.refl T s
  | succ n ih =>
    intro i s
    have key : ∀ r, regenPass (n + 1) i s = r →
        match r with
        | .error s1 => Keeps T s s1
        | .ok (s1, _) => Keeps T s s1 := by
      intro r hr
      unfold regenPass at hr
      split at hr
      · split at hr
        · subst hr; exact Keeps.refl T s
        · rename_i entry rest hq
          have hs1 : Keeps T s { s with regenQueue := rest } := Keeps.of_eq rfl rfl rfl rfl
          dsimp only at hr
          split at hr
          · subst hr; exact hs1.trans (Keeps.of_eq rfl rfl rfl rfl)
          · have he := executeAndAnalyseFilter_keeps T { s with regenQueue := rest }
              entry.collection entry.property
            split at hr
            · rename_i s2 h2
              subst hr
              rw [h2] at he
              exact hs1.trans he
            · rename_i s2 h2
              rw [h2] at he
              have h3 : Keeps T s { s2 with
                  lastRegenerated := entry.collection ++ "/" ++ entry.property } :=
                (hs1.trans he).trans (Keeps.of_eq rfl rfl rfl rfl)
              have h4 := ih (i + 1) { s2 with
                  lastRegenerated := entry.collection ++ "/" ++ entry.property }
              subst hr
              split
              · rename_i s5 h5; exact h3.trans (h4.1 s5 h5)
              · rename_i s5 b h5; exact h3.trans (h4.2 s5 b h5)
      · subst hr; exact Keeps.refl T s
    constructor
    · intro s1 h; exact key _ h
    · intro s1 b h; exact key _ h

theorem processRegenQueue_keeps (T : List String) :
    ∀ (fuel : Nat) (s : State), Keeps T s (processRegenQueue fuel s).state := by
  intro fuel
  induction fuel with
  | zero => intro s; exact Keeps.refl T s
  | succ fuel ih =>
    intro s
    have hp := regenPass_keeps T s.regenQueue.length 0 s
    unfold processRegenQueue
    split
    · exact Keeps.refl T s
    · split
      · rename_i s1 h; exact hp.1 s1 h
      · rename_i s1 h; exact hp.2 s1 true h
      · rename_i s1 h
        have h1 := hp.2 s1 false h
        split
        · exact h1.trans (ih s1)
        · exact h1.trans (Keeps.of_eq rfl rfl rfl rfl)

theorem pushDependentsToRegenQueue_keeps (T : List String) (fuel : Nat) (s : State)
    (deps : List String) : Keeps T s (pushDependentsToRegenQueue fuel s deps).state := by
  have h1 : Keeps T s { s with regenQueue := enqueue s.regenQueue deps } :=
    Keeps.of_eq rfl rfl rfl rfl
  exact h1.trans (processRegenQueue_keeps T fuel _)

theorem findAndUpdateDependents_keeps (T : List String) (fuel : Nat) (s : State)
    (c p : String) : Keeps T s (findAndUpdateDependents fuel s c p).state := by
  unfold findAndUpdateDependents
  split
  · exact Keeps.refl T s
  · exact pushDependentsToRegenQueue_keeps T fuel s _

theorem findAndUpdateDependentsOfAll_keeps (T : List String) (fuel : Nat) (s : State)
    (c : String) (ps : List String) :
    Keeps T s (findAndUpdateDependentsOfAll fuel s c ps).state := by
  unfold findAndUpdateDependentsOfAll
  split
  · exact Keeps.refl T s
  · exact pushDependentsToRegenQueue_keeps T fuel s _

/-! ## Materialization changes relation fields only -/

theorem getD_set_obj (heap : List Obj) (r r' : Nat) (data : Obj) :
    (heap.set r data).getD r' [] = if r = r' ∧ r < heap.length then data else heap.getD r' [] := by
  by_cases h : r = r'
  · subst h
    by_cases hl : r < heap.length
    · simp [List.getD_eq_getElem?_getD, hl]
    · have hn : heap[r]? = none := List.getElem?_eq_none (Nat.le_of_not_lt hl)
      simp [List.getD_eq_getElem?_getD, hl, List.getElem?_set, hn]
  · simp [List.getD_eq_getElem?_getD, h, List.getElem?_set]

theorem resolveRelations_oget (s : State) (T : List String) :
    ∀ (rels : List (String × Relation)) (data data' : Obj),
      (∀ e ∈ rels, e.2.target ∈ T) → resolveRelations s rels data = some data' →
      ∀ f, f ∉ T → oget data' f = oget data f := by
  intro rels
  induction rels with
  | nil =>
    intro data data' _ h f _
    simp [resolveRelations] at h
    rw [h]
  | cons e rest ih =>
    intro data data' hT h f hf
    obtain ⟨relationKey, rel⟩ := e
    have hrest : ∀ e ∈ rest, e.2.target ∈ T := fun e he => hT e (List.mem_cons_of_mem _ he)
    have hrel : rel.target ∈ T := hT (relationKey, rel) (List.mem_cons_self _ _)
    have hset : ∀ v, resolveRelations s rest (oset data rel.target v) = some data' →
        oget data' f = oget data f := by
      intro v hv
      rw [ih _ data' hrest hv f hf]
      apply oget_oset_ne
      intro heq
      exact hf (heq ▸ hrel)
    unfold resolveRelations at h
    split at h
    · cases h
    · split at h
      · split at h
        · split at h
          · exact ih data data' hrest h f hf
          · cases h
        · split at h
          · split at h
            · exact hset _ h
            · exact ih data data' hrest h f hf
          · exact hset _ h
      · exact ih data data' hrest h f hf

theorem mapIndex_heap (s : State) (col : Collection) (T : List String)
    (hT : ∀ e ∈ col.relations, e.2.target ∈ T) :
    ∀ (keys : List Val) (heap : List Obj) (out : List Atom)
      (res : Except (List Obj) (List Obj × List Atom)), mapIndex s col keys heap out = res →
      match res with
      | .error heap' => ∀ r f, f ∉ T → oget (heap'.getD r []) f = oget (heap.getD r []) f
      | .ok (heap', _) => ∀ r f, f ∉ T → oget (heap'.getD r []) f = oget (heap.getD r []) f := by
  intro keys
  induction keys with
  | nil =>
    intro heap out res hres
    simp [mapIndex] at hres
    subst hres
    intro r f _; rfl
  | cons id rest ih =>
    intro heap out res hres
    unfold mapIndex at hres
    split at hres
    · split at hres
      · split at hres
        · subst hres; intro r f _; rfl
        · exact ih heap _ res hres
      · split at hres
        · exact ih heap _ res hres
        · subst hres; intro r f _; rfl
    · rename_i ref href
      split at hres
      · subst hres; intro r f _; rfl
      · rename_i data hdata
        have hstep : ∀ r f, f ∉ T →
            oget ((heap.set ref data).getD r []) f = oget (heap.getD r []) f := by
          intro r f hf
          rw [getD_set_obj]
          split
          · rename_i hr
            rw [← hr.1]
            exact resolveRelations_oget s T col.relations _ data hT hdata f hf
          · rfl
        have h2 := ih (heap.set ref data) (out ++ [.ref ref]) res hres
        cases res with
        | error heap' =>
          intro r f hf
          rw [h2 r f hf, hstep r f hf]
        | ok p =>
          intro r f hf
          rw [h2 r f hf, hstep r f hf]

theorem TargetsIn.of_keeps {T : List String} {s s' : State} {c : String}
    (h : TargetsIn T s c) (hk : Keeps T s s') : TargetsIn T s' c := by
  intro col' hcol' e he
  have hs := hk.store c
  rw [hcol'] at hs
  cases hc : getC s c with
  | none => rw [hc] at hs; simp at hs
  | some col =>
    rw [hc] at hs
    simp [Collection.store] at hs
    exact h col hc e (hs.2.2.2 ▸ he)

theorem buildGroupFromIndex_keeps (T : List String) (s : State) (c index : String)
    (hT : TargetsIn T s c) : Keeps T s (buildGroupFromIndex s c index).state := by
  have h0 : Keeps T s { s with trace := s.trace ++ [.rebuild c index] } :=
    Keeps.of_eq rfl rfl rfl rfl
  unfold buildGroupFromIndex
  dsimp only
  split
  · exact h0
  · rename_i col hcol
    split
    · exact h0
    · rename_i keys hkeys
      have hm := mapIndex_heap { s with trace := s.trace ++ [.rebuild c index] } col T
        (hT col hcol) keys s.heap []
      split
      · rename_i heap h1
        have hm := hm _ h1
        exact ⟨rfl, rfl, fun _ => rfl, hm⟩
      · rename_i heap data h1
        have hm := hm _ h1
        have h2 : Keeps T s { s with trace := s.trace ++ [.rebuild c index], heap := heap } :=
          ⟨rfl, rfl, fun _ => rfl, hm⟩
        exact h2.trans (Keeps.modC _ c _ (fun _ => rfl))

theorem regenIndexLoop_keeps (T : List String) (fuel : Nat) (c : String) :
    ∀ (n i : Nat) (s : State), TargetsIn T s c → Keeps T s (regenIndexLoop fuel c n i s).state := by
  intro n
  induction n with
  | zero => intro i s _; exact Keeps.refl T s
  | succ n ih =>
    intro i s hT
    unfold regenIndexLoop
    split
    · exact Keeps.refl T s
    · split
      · split
        · exact Keeps.refl T s
        · rename_i col hcol _ _ index rest hpending
          have h1 : Keeps T s (modC s c fun col => { col with indexesToRegen := rest }) :=
            Keeps.modC s c _ (fun _ => rfl)
          have h2 := buildGroupFromIndex_keeps T _ c index (hT.of_keeps h1)
          split
          · rename_i s1 hs1
            rw [hs1] at h2
            exact h1.trans h2
          · rename_i s1 hs1
            rw [hs1] at h2
            have h12 := h1.trans h2
            have h3 := findAndUpdateDependents_keeps T fuel s1 c index
            split
            · rename_i s2 hs2
              split at hs2
              · rw [hs2] at h3; exact h12.trans h3
              · cases hs2
            · rename_i s2 hs2
              have h4 : Keeps T s s2 := by
                split at hs2
                · rw [hs2] at h3; exact h12.trans h3
                · cases hs2; exact h12
              exact h4.trans (ih (i + 1) s2 (hT.of_keeps h4))
      · exact Keeps.refl T s

theorem regenerateGroupsAndFilters_keeps (T : List String) (fuel : Nat) (s : State) (c : String)
    (hT : TargetsIn T s c) : Keeps T s (regenerateGroupsAndFilters fuel s c).state := by
  have h1 := regenIndexLoop_keeps T fuel c
    ((getC s c).elim 0 fun col => col.indexesToRegen.length) 0 s hT
  unfold regenerateGroupsAndFilters
  split
  · rename_i s1 hs1
    rw [hs1] at h1; exact h1
  · rename_i s1 hs1
    rw [hs1] at h1
    dsimp only
    have h2 := pushDependentsToRegenQueue_keeps T fuel s1
      (((getC s1 c).elim [] fun col => col.filtersToForceRegen).map fun filter => c ++ "/" ++ filter)
    split
    · rename_i s2 hs2
      rw [hs2] at h2; exact h1.trans h2
    · rename_i s2 hs2
      rw [hs2] at h2
      exact (h1.trans h2).trans (Keeps.modC s2 c _ (fun _ => rfl))

/-! ## The record store operations -/

theorem foldl_store (g : Collection → String → Collection)
    (hg : ∀ col x, (g col x).store = col.store) :
    ∀ (l : List String) (col : Collection), (l.foldl g col).store = col.store := by
  intro l
  induction l with
  | nil => intro col; rfl
  | cons a t ih => intro col; simp only [List.foldl]; rw [ih, hg]

theorem findGroupsToRegen_store (col : Collection) (primaryKey : Val) :
    (findGroupsToRegen col primaryKey).store = col.store := by
  unfold findGroupsToRegen
  apply foldl_store
  intro col x
  split <;> rfl

theorem findFiltersToRegen_store (col : Collection) (primaryKey index : Val) :
    (findFiltersToRegen col primaryKey index).store = col.store := rfl

theorem internalDataModified_keeps (T : List String) (fuel : Nat) (s : State) (c : String)
    (primaryKey : Val) (hT : TargetsIn T s c) :
    Keeps T s (internalDataModified fuel s c primaryKey).state := by
  unfold internalDataModified
  have h1 : Keeps T s (modC s c fun col =>
      findFiltersToRegen (findGroupsToRegen col primaryKey) primaryKey undefined) :=
    Keeps.modC s c _ (fun col => by
      rw [findFiltersToRegen_store, findGroupsToRegen_store])
  exact h1.trans (regenerateGroupsAndFilters_keeps T fuel _ c (hT.of_keeps h1))

theorem modC_heap (s : State) (c : String) (f : Collection → Collection) :
    (modC s c f).heap = s.heap := by
  unfold modC; split <;> rfl

theorem modC_history (s : State) (c : String) (f : Collection → Collection) :
    (modC s c f).history = s.history := by
  unfold modC; split <;> rfl

theorem discoverKey_spec (r : Obj) (col : Collection) :
    (discoverKey r col).primaryKey
        = (if ohas r "_id" then some "_id" else if ohas r "id" then some "id" else col.primaryKey)
      ∧ (discoverKey r col).data = col.data ∧ (discoverKey r col).indexes = col.indexes
      ∧ (discoverKey r col).relations = col.relations := by
  by_cases h1 : ohas r "id" = true <;> by_cases h2 : ohas r "_id" = true <;>
    simp [discoverKey, List.foldl, h1, h2]

theorem store_eq {a b : Collection} (h : a.store = b.store) :
    a.primaryKey = b.primaryKey ∧ a.data = b.data ∧ a.indexes = b.indexes
      ∧ a.relations = b.relations := by
  simpa [Collection.store] using h

theorem discovery_spec (s : State) (c : String) (col : Collection) (ref : Nat) (r : Obj)
    (hc : getC s c = some col) :
    ∃ col', getC (if (getC s c).elim true noPrimaryKey then findPrimaryKey s c ref r else s) c
        = some col'
      ∧ pkName col' = keyFieldFor col r ∧ col'.data = col.data ∧ col'.indexes = col.indexes
      ∧ col'.relations = col.relations
      ∧ (if (getC s c).elim true noPrimaryKey then findPrimaryKey s c ref r else s).heap = s.heap
      ∧ (if (getC s c).elim true noPrimaryKey then findPrimaryKey s c ref r else s).history
          = s.history := by
  by_cases hn : noPrimaryKey col = true
  · simp only [hc, Option.elim, hn, if_true]
    have hd := discoverKey_spec r col
    unfold findPrimaryKey
    dsimp only
    refine ⟨discoverKey r col, ?_, ?_, hd.2.1, hd.2.2.1, hd.2.2.2, ?_, ?_⟩
    · split
      · show getC (modC s c _) c = _
        rw [getC_modC, hc]; simp
      · rw [getC_modC, hc]; simp
    · rw [pkName, hd.1]
      by_cases h1 : ohas r "id" = true <;> by_cases h2 : ohas r "_id" = true <;>
        simp [h1, h2, keyFieldFor, hn, pkName]
    · split
      · show (modC s c _).heap = _
        rw [modC_heap]
      · rw [modC_heap]
    · split
      · show (modC s c _).history = _
        rw [modC_history]
      · rw [modC_history]
  · simp only [hc, Option.elim, hn]
    exact ⟨col, by simp [hc], by simp [keyFieldFor, hn], rfl, rfl, rfl, by simp, by simp⟩

theorem Keeps.getC {T : List String} {s s' : State} (h : Keeps T s s') {c : String}
    {col : Collection} (hc : getC s c = some col) :
    ∃ col', Pulse.getC s' c = some col' ∧ col'.store = col.store := by
  have hs := h.store c
  rw [hc] at hs
  cases hc' : Pulse.getC s' c with
  | none => rw [hc'] at hs; simp at hs
  | some col' =>
    rw [hc'] at hs
    exact ⟨col', rfl, by simpa using hs⟩

theorem field_oset_ne (o : Obj) (k k' : String) (v : Val) (h : k ≠ k') :
    field (oset o k v) k' = field o k' := by
  simp [field, oget_oset_ne _ _ _ _ h]

theorem patchFold_spec (p : Obj) :
    ∀ (ks : List String) (acc : Obj × Obj), ks.Nodup →
      (∀ f, oget (patchFold p ks acc).1 f
          = if f ∈ ks then some (field acc.2 f) else oget acc.1 f)
      ∧ (∀ f, oget (patchFold p ks acc).2 f
          = if f ∈ ks then some (field p f) else oget acc.2 f) := by
  intro ks
  induction ks with
  | nil => intro acc _; simp [patchFold]
  | cons k t ih =>
    intro acc hnd
    have hk : k ∉ t := (List.nodup_cons.mp hnd).1
    have ht := ih (oset acc.1 k (field acc.2 k), oset acc.2 k (field p k)) (List.nodup_cons.mp hnd).2
    have hfold : patchFold p (k :: t) acc
        = patchFold p t (oset acc.1 k (field acc.2 k), oset acc.2 k (field p k)) := rfl
    rw [hfold]
    constructor
    · intro f
      rw [ht.1 f]
      by_cases hft : f ∈ t
      · have hne : k ≠ f := fun h => hk (h ▸ hft)
        simp [hft, field_oset_ne _ _ _ _ hne]
      · by_cases hkf : k = f
        · subst hkf; simp [hft, oget_oset_same]
        · have hfk : ¬ f = k := fun h => hkf h.symm
          simp [hft, hfk, oget_oset_ne _ _ _ _ hkf]
    · intro f
      rw [ht.2 f]
      by_cases hft : f ∈ t
      · simp [hft]
      · by_cases hkf : k = f
        · subst hkf; simp [hft, oget_oset_same]
        · have hfk : ¬ f = k := fun h => hkf h.symm
          simp [hft, hfk, oget_oset_ne _ _ _ _ hkf]

/-! ## Keys -/

theorem splitSlash_ne_nil (l : List Char) : splitSlash l ≠ [] := by
  cases l with
  | nil => simp [splitSlash]
  | cons ch t =>
    unfold splitSlash
    split
    · simp
    · split <;> simp

theorem splitSlash_noSlash (l : List Char) (h : '/' ∉ l) : splitSlash l = [l] := by
  induction l with
  | nil => rfl
  | cons ch t ih =>
    have hch : ch ≠ '/' := fun e => h (e ▸ List.mem_cons_self _ _)
    have ht : '/' ∉ t := fun e => h (List.mem_cons_of_mem _ e)
    simp [splitSlash, hch, ih ht]

theorem splitSlash_append (l r : List Char) (h : '/' ∉ l) :
    splitSlash (l ++ '/' :: r) = l :: splitSlash r := by
  induction l with
  | nil => simp [splitSlash]
  | cons ch t ih =>
    have hch : ch ≠ '/' := fun e => h (e ▸ List.mem_cons_self _ _)
    have ht : '/' ∉ t := fun e => h (List.mem_cons_of_mem _ e)
    simp [splitSlash, hch, ih ht]

theorem parseKey_key (c p : String) (hc : '/' ∉ c.data) (hp : '/' ∉ p.data) :
    parseKey (c ++ "/" ++ p) = { collection := c, property := p } := by
  have hd : (c ++ "/" ++ p).data = c.data ++ '/' :: p.data := by
    simp [String.data_append]
  unfold parseKey
  rw [hd, splitSlash_append _ _ hc, splitSlash_noSlash _ hp]

/-! ## The queue after a traversal -/

theorem enqueue_append (l1 l2 : List String) :
    ∀ q : List Entry, enqueue q (l1 ++ l2) = enqueue (enqueue q l1) l2 := by
  induction l1 with
  | nil => intro q; rfl
  | cons a t ih => intro q; simp only [List.cons_append, enqueue]; exact ih _

theorem enqueue_spec (l : List String) :
    ∀ q : List Entry, ∃ later, enqueue q l = q ++ later
      ∧ (∀ e ∈ later, e ∉ q)
      ∧ (∀ e ∈ later, ∃ d ∈ l, parseKey d = e)
      ∧ (∀ d ∈ l, parseKey d ∈ q ++ later) := by
  induction l with
  | nil => intro q; exact ⟨[], by simp [enqueue], by simp, by simp, by simp⟩
  | cons f rest ih =>
    intro q
    by_cases hmem : parseKey f ∈ q
    · obtain ⟨later, h1, h2, h3, h4⟩ := ih q
      refine ⟨later, ?_, h2, ?_, ?_⟩
      · simp only [enqueue, hmem, if_true]; exact h1
      · intro e he
        obtain ⟨d, hd, hde⟩ := h3 e he
        exact ⟨d, List.mem_cons_of_mem _ hd, hde⟩
      · intro d hd
        rcases List.mem_cons.mp hd with rfl | hd
        · exact List.mem_append_left _ hmem
        · exact h4 d hd
    · obtain ⟨later, h1, h2, h3, h4⟩ := ih (q ++ [parseKey f])
      refine ⟨parseKey f :: later, ?_, ?_, ?_, ?_⟩
      · simp only [enqueue, hmem, if_false]
        rw [h1]; simp
      · intro e he
        rcases List.mem_cons.mp he with rfl | he
        · exact hmem
        · intro hq
          exact h2 e he (List.mem_append_left _ hq)
      · intro e he
        rcases List.mem_cons.mp he with rfl | he
        · exact ⟨f, List.mem_cons_self _ _, rfl⟩
        · obtain ⟨d, hd, hde⟩ := h3 e he
          exact ⟨d, List.mem_cons_of_mem _ hd, hde⟩
      · intro d hd
        rcases List.mem_cons.mp hd with rfl | hd
        · simp
        · have := h4 d hd
          simpa using this

theorem findLoop_extends (g : Graph) :
    ∀ (n loops : Nat) (lastRound found all : List String),
      findLoop g n loops lastRound found = some all → ∃ rest, all = found ++ rest := by
  intro n
  induction n with
  | zero =>
    intro loops lastRound found all h
    simp [findLoop] at h
    exact ⟨[], by simp [h]⟩
  | succ n ih =>
    intro loops lastRound found all h
    unfold findLoop at h
    dsimp only at h
    split at h
    · cases h
    · rename_i next _
      split at h
      · cases h; exact ⟨next, rfl⟩
      · split at h
        · obtain ⟨rest, hrest⟩ := ih _ _ _ _ h
          exact ⟨next ++ rest, by rw [hrest, List.append_assoc]⟩
        · cases h; exact ⟨next, rfl⟩

/-! ## A write to a chain of filters -/

theorem nodeOf_setNode (g : Graph) (c p : String) (n n0 : GraphNode) (c' p' : String)
    (h : nodeOf g c p = some n0) :
    nodeOf (setNode g c p n) c' p' = if c = c' ∧ p = p' then some n else nodeOf g c' p' := by
  unfold nodeOf at h
  cases hm : oget g c with
  | none => rw [hm] at h; simp at h
  | some m =>
    unfold setNode nodeOf
    rw [hm]
    by_cases hc : c = c'
    · subst hc
      by_cases hp : p = p'
      · subst hp; simp [oget_oset]
      · simp [oget_oset, hp, hm]
    · simp [oget_oset, hc]

theorem exec_reader (s : State) (c F P : String) (ns : Ns) (f : Val → Val) (col : Collection)
    (nF nP : GraphNode)
    (hc : getC s c = some col)
    (hF : oget col.filters F = some (.read c ns P fun x => .ret (f x)))
    (hnF : nodeOf s.dependencyGraph c F = some nF)
    (hnP : nodeOf s.dependencyGraph c P = some nP)
    (hdep : c ++ "/" ++ F ∈ nP.dependents)
    (hgen : P ∉ s.allFilters ∨ c ++ P ∈ s.generatedFilters) :
    ∃ g', executeAndAnalyseFilter s c F = .ok { s with
        trace := s.trace ++ [.exec c F]
        collections := oset s.collections c { col with
          pub := deliverUpdate col.pub .filters
            (coerceResult (f ((oget (col.pub.ns ns) P).getD undefined))) F }
        dependencyGraph := g'
        generatedFilters := s.generatedFilters ++ [c ++ F] }
      ∧ ∀ p n, nodeOf s.dependencyGraph c p = some n →
          ∃ n', nodeOf g' c p = some n' ∧ n'.dependents = n.dependents := by
  have hc' : getC { s with trace := s.trace ++ [.exec c F] } c = some col := hc
  have hex : executeFilter { s with trace := s.trace ++ [.exec c F] } c F
      = .ok ({ s with
          trace := s.trace ++ [.exec c F]
          collections := oset s.collections c { col with
            pub := deliverUpdate col.pub .filters
              (coerceResult (f ((oget (col.pub.ns ns) P).getD undefined))) F } },
        recordAccess [] c P) := by
    unfold executeFilter
    rw [hc']
    simp only [hF, FilterProg.run, hc']
    simp only [modC]
    have : oget s.collections c = some col := hc
    simp only [this]
  unfold executeAndAnalyseFilter
  rw [hc]
  simp only [hex]
  by_cases hx : P ∈ ["filters", "groups", "indexes", "data", "actions"]
  · have hrec : recordAccess [] c P = [] := by simp [recordAccess, hx]
    rw [hrec]
    exact ⟨s.dependencyGraph, by simp [populateDependencies], fun p n h => ⟨n, h, rfl⟩⟩
  · have hrec : recordAccess [] c P = [⟨c, P⟩] := by simp [recordAccess, hx]
    rw [hrec]
    have hmiss : isMissingDependency { s with
          trace := s.trace ++ [.exec c F]
          collections := oset s.collections c { col with
            pub := deliverUpdate col.pub .filters
              (coerceResult (f ((oget (col.pub.ns ns) P).getD undefined))) F } } ⟨c, P⟩
        = false := by
      simp only [isMissingDependency]
      rcases hgen with h | h <;> simp [h]
    -- the graph after the dependency of `F` has been registered
    obtain ⟨g1, hg1, hnodes⟩ : ∃ g1,
        g1 = (if c ++ "/" ++ P ∈ nF.dependencies then s.dependencyGraph
          else setNode s.dependencyGraph c F
            { nF with dependencies := nF.dependencies ++ [c ++ "/" ++ P] })
        ∧ ∀ p n, nodeOf s.dependencyGraph c p = some n →
          ∃ n', nodeOf g1 c p = some n' ∧ n'.dependents = n.dependents := by
      refine ⟨_, rfl, ?_⟩
      intro p n hn
      split
      · exact ⟨n, hn, rfl⟩
      · rw [nodeOf_setNode _ _ _ _ nF _ _ hnF]
        by_cases hp : F = p
        · subst hp
          rw [hnF] at hn
          cases hn
          exact ⟨{ nF with dependencies := nF.dependencies ++ [c ++ "/" ++ P] }, by simp, rfl⟩
        · exact ⟨n, by simp [hp, hn], rfl⟩
    obtain ⟨n2, hn2, hd2⟩ := hnodes P nP hnP
    have hn2' := hn2
    unfold nodeOf at hn2'
    cases hm : oget g1 c with
    | none => rw [hm] at hn2'; simp at hn2'
    | some m =>
      rw [hm] at hn2'
      simp only [Option.bind] at hn2'
      have hpop : populateDependencies c F s.dependencyGraph [⟨c, P⟩] = .ok g1 := by
        unfold populateDependencies
        simp only [hnF]
        rw [← hg1, hm]
        simp only [hn2', hd2, hdep, if_true]
        rfl
      refine ⟨g1, ?_, hnodes⟩
      simp [hmiss, hpop]

theorem processRegenQueue_two (fuel : Nat) (s sB sA : State) (eB eA : Entry)
    (hq : s.regenQueue = [eB, eA])
    (hB : eB.collection ++ "/" ++ eB.property ≠ s.lastRegenerated)
    (hAB : eA.collection ++ "/" ++ eA.property ≠ eB.collection ++ "/" ++ eB.property)
    (hexB : executeAndAnalyseFilter { s with regenQueue := [eA] } eB.collection eB.property
      = .ok sB)
    (hqB : sB.regenQueue = [eA])
    (hexA : executeAndAnalyseFilter
      { sB with lastRegenerated := eB.collection ++ "/" ++ eB.property, regenQueue := [] }
      eA.collection eA.property = .ok sA)
    (hqA : sA.regenQueue = []) :
    processRegenQueue (fuel + 2) s = .ok { sA with lastRegenerated := "" } := by
  obtain ⟨cols1, heap1, q1, errs1, hist1, af1, gf1, g1, last1, tr1⟩ := sB
  obtain ⟨cols2, heap2, q2, errs2, hist2, af2, gf2, g2, last2, tr2⟩ := sA
  simp only at hqB hqA
  subst hqB hqA
  simp only at hexA
  have hpass1 : regenPass 2 0 s
      = .ok (⟨cols1, heap1, [eA], errs1, hist1, af1, gf1, g1,
          eB.collection ++ "/" ++ eB.property, tr1⟩, false) := by
    unfold regenPass
    simp only [hq, List.length_cons, List.length_nil]
    simp only [hB, hexB, if_false]
    unfold regenPass
    simp
  have hpass2 : regenPass 1 0 ⟨cols1, heap1, [eA], errs1, hist1, af1, gf1, g1,
          eB.collection ++ "/" ++ eB.property, tr1⟩
      = .ok (⟨cols2, heap2, [], errs2, hist2, af2, gf2, g2,
          eA.collection ++ "/" ++ eA.property, tr2⟩, false) := by
    unfold regenPass
    simp only [List.length_cons, List.length_nil]
    simp only [hAB, hexA, if_false]
    unfold regenPass
    simp
  unfold processRegenQueue
  simp only [hq, List.length_cons, List.length_nil]
  simp only [hpass1]
  unfold processRegenQueue
  simp only [List.length_cons, List.length_nil]
  simp only [hpass2]
  simp

theorem findAllDependents_chain (g : Graph) (c A B D : String)
    (hsc : '/' ∉ c.data) (hsA : '/' ∉ A.data) (hsB : '/' ∉ B.data)
    (hgD : (nodeOf g c D).map (fun n => n.dependents) = some [c ++ "/" ++ B])
    (hgB : (nodeOf g c B).map (fun n => n.dependents) = some [c ++ "/" ++ A])
    (hgA : (nodeOf g c A).map (fun n => n.dependents) = some []) :
    findAllDependents g c D = some [c ++ "/" ++ B, c ++ "/" ++ A] := by
  obtain ⟨nD, hnD, hdD⟩ := Option.map_eq_some'.mp hgD
  have hkB : dependentsOfKey g (c ++ "/" ++ B) = some [c ++ "/" ++ A] := by
    unfold dependentsOfKey
    simp only [parseKey_key c B hsc hsB]
    exact hgB
  have hkA : dependentsOfKey g (c ++ "/" ++ A) = some [] := by
    unfold dependentsOfKey
    simp only [parseKey_key c A hsc hsA]
    exact hgA
  unfold findAllDependents
  rw [hnD]
  simp only [hdD]
  have h1 : findLoop g 1001 0 [c ++ "/" ++ B] [c ++ "/" ++ B]
      = findLoop g 1000 1 [c ++ "/" ++ A] [c ++ "/" ++ B, c ++ "/" ++ A] := by
    rw [show (1001 : Nat) = 1000 + 1 from rfl, findLoop]
    simp [expandRound, hkB]
  have h2 : findLoop g 1000 1 [c ++ "/" ++ A] [c ++ "/" ++ B, c ++ "/" ++ A]
      = some [c ++ "/" ++ B, c ++ "/" ++ A] := by
    rw [show (1000 : Nat) = 999 + 1 from rfl, findLoop]
    simp [expandRound, hkA]
  rw [h1, h2]

theorem oset_oset_same {α : Type} (o : List (String × α)) (k : String) (a b : α) :
    oset (oset o k a) k b = oset o k b := by
  induction o with
  | nil => simp [oset]
  | cons e t ih =>
    obtain ⟨k0, v0⟩ := e
    by_cases h : k0 = k
    · simp [oset, h]
    · simp [oset, h, ih]

theorem setNs_read (p : Public) (target : Ns) (D : String) (v : Val) :
    oget ((p.setNs target D v).ns target) D = some v := by
  cases target <;> simp [Public.setNs, Public.ns, oget_oset_same]

theorem setNs_root_read (p : Public) (target : Ns) (D : String) (v : Val) :
    oget (((p.setNs target D v).setNs .root D v).ns target) D = some v := by
  cases target <;> simp [Public.setNs, Public.ns, oget_oset_same]

theorem write_reaches_dependents (fuel : Nat) (s : State) (c D : String) (col : Collection)
    (target : Ns) (v : Val) (hc : getC s c = some col) (hD : D ∈ col.mutableData)
    (hv : v ≠ .atom .null) :
    ∃ pubW, write fuel s c target D v
        = findAndUpdateDependents fuel
            { s with collections := oset s.collections c { col with pub := pubW } } c D
      ∧ oget (pubW.ns target) D = some v := by
  have hc2 : oget s.collections c = some col := hc
  unfold write
  rw [hc]
  simp only [hD, if_true]
  cases v with
  | arr xs =>
    exact ⟨col.pub.setNs target D (.arr xs), by simp [modC, hc2], setNs_read _ _ _ _⟩
  | atom a =>
    cases a with
    | null => exact absurd rfl hv
    | ref r =>
      have hm : ∀ pub : Collection → Public, modC s c (fun col => { col with pub := pub col }) =
          { s with collections := oset s.collections c { col with pub := pub col } } := by
        intro pub; simp [modC, hc2]
      by_cases hl : (s.heap.getD r []).length ≠ 0
      · refine ⟨(col.pub.setNs target D (.atom (.ref r))).setNs .root D (.atom (.ref r)), ?_,
          setNs_root_read _ _ _ _⟩
        have hl2 : ¬ s.heap[r]?.getD [] = [] := by
          intro h; apply hl; simp [List.getD_eq_getElem?_getD, h]
        simp only [modC_heap, hl, if_true]
        rw [hm (fun col => col.pub.setNs target D (.atom (.ref r)))]
        simp [modC, oget_oset, oset_oset_same, hl2]
      · refine ⟨col.pub.setNs target D (.atom (.ref r)), ?_, setNs_read _ _ _ _⟩
        simp only [modC_heap, hl, if_false]
        rw [hm (fun col => col.pub.setNs target D (.atom (.ref r)))]
    | undefined => exact ⟨col.pub.setNs target D _, by simp [modC, hc2], setNs_read _ _ _ _⟩
    | bool b => exact ⟨col.pub.setNs target D _, by simp [modC, hc2], setNs_read _ _ _ _⟩
    | num n => exact ⟨col.pub.setNs target D _, by simp [modC, hc2], setNs_read _ _ _ _⟩
    | str x => exact ⟨col.pub.setNs target D _, by simp [modC, hc2], setNs_read _ _ _ _⟩
    | native t => exact ⟨col.pub.setNs target D _, by simp [modC, hc2], setNs_read _ _ _ _⟩

theorem key_ne_of_ne (c A B : String) (h : A ≠ B) : c ++ "/" ++ A ≠ c ++ "/" ++ B := by
  intro e
  apply h
  have h1 : (c ++ "/" ++ A).data = (c ++ "/" ++ B).data := by rw [e]
  simp only [String.data_append, List.append_assoc] at h1
  have h2 := List.append_cancel_left h1
  have h3 := List.append_cancel_left h2
  exact String.ext h3

theorem key_ne_empty (c A : String) : c ++ "/" ++ A ≠ "" := by
  intro e
  have h1 : (c ++ "/" ++ A).data = ("" : String).data := by rw [e]
  simp [String.data_append] at h1

theorem deliverUpdate_filters_read (p : Public) (out : Val) (F : String) :
    oget (deliverUpdate p .filters out F).filters F = some out := by
  unfold deliverUpdate
  dsimp only
  split <;> simp [Public.setNs, oget_oset_same]

theorem deliverUpdate_filters_other (p : Public) (out : Val) (F G : String) (h : F ≠ G) :
    oget (deliverUpdate p .filters out F).filters G = oget p.filters G := by
  unfold deliverUpdate
  dsimp only
  split <;> simp [Public.setNs, oget_oset_ne _ _ _ _ h]

/-- A chain `D -> B -> A` is regenerated in order by a write of any value other
than `null`.  In a state with an empty queue and a cleared marker, where filter
`B` of collection `c` returns `fB` of the data property `D` (read from the
object the write goes to), filter `A` returns `fA` of the output of `B`, and the
dependents edges are `D -> B -> A`, the write executes `B`, then `A`, and
returns; the output of `A` is `fA` applied to the output `B` has after the
write (each result coerced as `executeFilter` does). -/
theorem chain_regenerated_in_order (fuel : Nat) (s : State) (c A B D : String)
    (col : Collection) (target : Ns) (v : Val) (fA fB : Val → Val)
    (hc : getC s c = some col) (hD : D ∈ col.mutableData)
    (hB : oget col.filters B = some (.read c target D fun x => .ret (fB x)))
    (hA : oget col.filters A = some (.read c .filters B fun x => .ret (fA x)))
    (hAB : A ≠ B)
    (hsc : '/' ∉ c.data) (hsA : '/' ∉ A.data) (hsB : '/' ∉ B.data)
    (hq : s.regenQueue = []) (hlast : s.lastRegenerated = "")
    (hgD : (nodeOf s.dependencyGraph c D).map (fun n => n.dependents) = some [c ++ "/" ++ B])
    (hgB : (nodeOf s.dependencyGraph c B).map (fun n => n.dependents) = some [c ++ "/" ++ A])
    (hgA : (nodeOf s.dependencyGraph c A).map (fun n => n.dependents) = some [])
    (hgen : D ∉ s.allFilters ∨ c ++ D ∈ s.generatedFilters)
    (hv : v ≠ .atom .null) :
    ∃ s', write (fuel + 2) s c target D v = .ok s'
      ∧ s'.trace = s.trace ++ [.exec c B, .exec c A]
      ∧ (filterOutputs s' c).bind (fun o => oget o B) = some (coerceResult (fB v))
      ∧ (filterOutputs s' c).bind (fun o => oget o A)
          = some (coerceResult (fA (coerceResult (fB v))))
      ∧ s'.regenQueue = [] := by
  obtain ⟨nD, hnD, hdD⟩ := Option.map_eq_some'.mp hgD
  obtain ⟨nB, hnB, hdB⟩ := Option.map_eq_some'.mp hgB
  obtain ⟨nA, hnA, hdA⟩ := Option.map_eq_some'.mp hgA
  obtain ⟨pubW, hw, hread⟩ := write_reaches_dependents (fuel + 2) s c D col target v hc hD hv
  rw [hw]
  -- the queue after the traversal
  have hfind := findAllDependents_chain s.dependencyGraph c A B D hsc hsA hsB hgD hgB hgA
  have henq : enqueue [] [c ++ "/" ++ B, c ++ "/" ++ A] = [⟨c, B⟩, ⟨c, A⟩] := by
    have hne : (⟨c, A⟩ : Entry) ≠ ⟨c, B⟩ := by
      intro e; exact hAB (congrArg Entry.property e)
    simp [enqueue, parseKey_key c B hsc hsB, parseKey_key c A hsc hsA, hne]
  unfold findAndUpdateDependents
  simp only [hfind]
  unfold pushDependentsToRegenQueue
  simp only [hq, henq]
  -- the execution of `B`
  obtain ⟨g1, hexB, hnodes1⟩ := exec_reader
    { s with
      collections := oset s.collections c { col with pub := pubW }
      regenQueue := [⟨c, A⟩] }
    c B D target fB { col with pub := pubW } nB nD
    (by simp [getC, oget_oset_same]) hB hnB hnD (by rw [hdD]; simp) hgen
  simp only [hread, Option.getD_some] at hexB
  -- the execution of `A`
  obtain ⟨nB1, hnB1, hdB1⟩ := hnodes1 B nB hnB
  obtain ⟨nA1, hnA1, _⟩ := hnodes1 A nA hnA
  obtain ⟨g2, hexA, _⟩ := exec_reader
    { s with
      collections := oset (oset s.collections c { col with pub := pubW }) c
        { col with pub := deliverUpdate pubW .filters (coerceResult (fB v)) B }
      regenQueue := []
      trace := s.trace ++ [.exec c B]
      dependencyGraph := g1
      generatedFilters := s.generatedFilters ++ [c ++ B]
      lastRegenerated := c ++ "/" ++ B }
    c A B .filters fA { col with pub := deliverUpdate pubW .filters (coerceResult (fB v)) B }
    nA1 nB1
    (by simp [getC, oget_oset_same]) hA hnA1 hnB1 (by rw [hdB1, hdB]; simp)
    (Or.inr (by simp))
  simp only [Public.ns, deliverUpdate_filters_read, Option.getD_some] at hexA
  have hfinal := processRegenQueue_two fuel
    { s with
      collections := oset s.collections c { col with pub := pubW }
      regenQueue := [⟨c, B⟩, ⟨c, A⟩] }
    _ _ ⟨c, B⟩ ⟨c, A⟩ rfl
    (by rw [show ({ s with
      collections := oset s.collections c { col with pub := pubW }
      regenQueue := [⟨c, B⟩, ⟨c, A⟩] } : State).lastRegenerated = s.lastRegenerated from rfl,
      hlast]; exact key_ne_empty c B)
    (key_ne_of_ne c A B hAB) hexB rfl hexA rfl
  refine ⟨_, hfinal, ?_, ?_, ?_, rfl⟩
  · simp
  · simp [filterOutputs, getC, oget_oset_same, deliverUpdate_filters_read,
      deliverUpdate_filters_other _ _ _ _ hAB]
  · simp [filterOutputs, getC, oget_oset_same, deliverUpdate_filters_read]

/-- The chain statement at the write `c.D = 7` on `chainState`: every
hypothesis holds there. -/
theorem chain_regenerated_in_order_witness :
    getC chainState "c" = some chainCollection ∧ "D" ∈ chainCollection.mutableData
    ∧ chainState.regenQueue = [] ∧ chainState.lastRegenerated = ""
    ∧ ∃ s', write 2 chainState "c" .root "D" (nv 7) = .ok s'
      ∧ s'.trace = chainState.trace ++ [.exec "c" "B", .exec "c" "A"]
      ∧ (filterOutputs s' "c").bind (fun o => oget o "B") = some (coerceResult (id (nv 7)))
      ∧ (filterOutputs s' "c").bind (fun o => oget o "A")
          = some (coerceResult (id (coerceResult (id (nv 7)))))
      ∧ s'.regenQueue = [] :=
  ⟨rfl, by decide, rfl, rfl,
    chain_regenerated_in_order 0 chainState "c" "A" "B" "D" chainCollection .root (nv 7) id id
      rfl (by decide) rfl rfl (by decide) (by decide) (by decide) (by decide) rfl rfl rfl rfl rfl
      (Or.inl (by decide)) (by decide)⟩

/-! ## The dependency graph only grows -/

theorem okeys_oset {α : Type} (o : List (String × α)) (k : String) (v : α)
    (h : (oget o k).isSome = true) : okeys (oset o k v) = okeys o := by
  induction o with
  | nil => simp [oget] at h
  | cons e t ih =>
    obtain ⟨k0, v0⟩ := e
    by_cases h0 : k0 = k
    · simp [oset, okeys, h0]
    · simp only [oget, h0, if_false] at h
      have := ih h
      simp only [okeys] at this
      simp [oset, okeys, h0, this]

theorem graphKept_refl (g : Graph) : GraphKept g g :=
  ⟨rfl, fun _ => rfl, fun _ _ n h => ⟨n, h, ⟨[], by simp⟩, ⟨[], by simp⟩⟩⟩

theorem graphKept_trans {g1 g2 g3 : Graph} (h12 : GraphKept g1 g2) (h23 : GraphKept g2 g3) :
    GraphKept g1 g3 := by
  refine ⟨h23.1.trans h12.1, fun c => (h23.2.1 c).trans (h12.2.1 c), ?_⟩
  intro c p n hn
  obtain ⟨n2, hn2, ⟨t1, ht1⟩, ⟨t2, ht2⟩⟩ := h12.2.2 c p n hn
  obtain ⟨n3, hn3, ⟨u1, hu1⟩, ⟨u2, hu2⟩⟩ := h23.2.2 c p n2 hn2
  exact ⟨n3, hn3, ⟨t1 ++ u1, by rw [hu1, ht1, List.append_assoc]⟩,
    ⟨t2 ++ u2, by rw [hu2, ht2, List.append_assoc]⟩⟩

theorem nodupKept_refl (g : Graph) : NodupKept g g := by
  intro c p n n' h h'
  rw [h] at h'
  cases h'
  exact ⟨id, id⟩

theorem nodupKept_trans {g1 g2 g3 : Graph} (k12 : GraphKept g1 g2) (h12 : NodupKept g1 g2)
    (h23 : NodupKept g2 g3) : NodupKept g1 g3 := by
  intro c p n n' hn hn'
  obtain ⟨n2, hn2, _⟩ := k12.2.2 c p n hn
  have a := h12 c p n n2 hn hn2
  have b := h23 c p n2 n' hn2 hn'
  exact ⟨fun h => b.1 (a.1 h), fun h => b.2 (a.2 h)⟩

theorem setNode_kept (g : Graph) (c p : String) (n n0 : GraphNode)
    (h : nodeOf g c p = some n0)
    (h1 : ∃ t, n.dependencies = n0.dependencies ++ t)
    (h2 : ∃ t, n.dependents = n0.dependents ++ t) :
    GraphKept g (setNode g c p n) := by
  have hn := nodeOf_setNode g c p n n0
  unfold nodeOf at h
  cases hm : oget g c with
  | none => rw [hm] at h; simp at h
  | some m =>
    rw [hm] at h
    simp only [Option.bind] at h
    have hset : setNode g c p n = oset g c (oset m p n) := by
      unfold setNode; rw [hm]
    refine ⟨?_, ?_, ?_⟩
    · rw [hset]; exact okeys_oset _ _ _ (by rw [hm]; rfl)
    · intro c'
      rw [hset, oget_oset]
      by_cases hc : c = c'
      · subst hc
        simp only [if_true, hm, Option.map]
        rw [okeys_oset _ _ _ (by rw [h]; rfl)]
      · simp [hc]
    · intro c' p' n1 hn1
      have hnode : nodeOf g c p = some n0 := by unfold nodeOf; rw [hm]; exact h
      rw [hn c' p' hnode]
      by_cases hcp : c = c' ∧ p = p'
      · obtain ⟨rfl, rfl⟩ := hcp
        rw [hnode] at hn1
        cases hn1
        exact ⟨n, by simp, h1, h2⟩
      · exact ⟨n1, by simp [hcp, hn1], ⟨[], by simp⟩, ⟨[], by simp⟩⟩

theorem setNode_nodup (g : Graph) (c p : String) (n n0 : GraphNode)
    (h : nodeOf g c p = some n0)
    (h1 : n0.dependencies.Nodup → n.dependencies.Nodup)
    (h2 : n0.dependents.Nodup → n.dependents.Nodup) :
    NodupKept g (setNode g c p n) := by
  intro c' p' n1 n1' hn1 hn1'
  rw [nodeOf_setNode g c p n n0 c' p' h] at hn1'
  by_cases hcp : c = c' ∧ p = p'
  · obtain ⟨rfl, rfl⟩ := hcp
    rw [h] at hn1
    simp at hn1'
    cases hn1
    subst hn1'
    exact ⟨h1, h2⟩
  · simp only [hcp, if_false] at hn1'
    rw [hn1] at hn1'
    cases hn1'
    exact ⟨id, id⟩


theorem addDependency_kept (g : Graph) (c p key : String) (n0 : GraphNode)
    (h : nodeOf g c p = some n0) :
    GraphKept g (if key ∈ n0.dependencies then g
        else setNode g c p { n0 with dependencies := n0.dependencies ++ [key] })
    ∧ NodupKept g (if key ∈ n0.dependencies then g
        else setNode g c p { n0 with dependencies := n0.dependencies ++ [key] })
    ∧ ∃ n1, nodeOf (if key ∈ n0.dependencies then g
        else setNode g c p { n0 with dependencies := n0.dependencies ++ [key] }) c p = some n1
      ∧ key ∈ n1.dependencies := by
  by_cases hk : key ∈ n0.dependencies
  · simp only [hk, if_true]
    exact ⟨graphKept_refl g, nodupKept_refl g, n0, h, hk⟩
  · simp only [hk, if_false]
    refine ⟨setNode_kept g c p _ n0 h ⟨[key], rfl⟩ ⟨[], by simp⟩,
      setNode_nodup g c p _ n0 h ?_ id,
      { n0 with dependencies := n0.dependencies ++ [key] }, ?_, ?_⟩
    · intro hnd
      exact List.Nodup.append hnd (List.nodup_singleton key) (by simpa using hk)
    · rw [nodeOf_setNode g c p _ n0 c p h]; simp
    · simp

theorem addDependent_kept (g : Graph) (c p key : String) (n0 : GraphNode)
    (h : nodeOf g c p = some n0) :
    GraphKept g (if key ∈ n0.dependents then g
        else setNode g c p { n0 with dependents := n0.dependents ++ [key] })
    ∧ NodupKept g (if key ∈ n0.dependents then g
        else setNode g c p { n0 with dependents := n0.dependents ++ [key] })
    ∧ ∃ n1, nodeOf (if key ∈ n0.dependents then g
        else setNode g c p { n0 with dependents := n0.dependents ++ [key] }) c p = some n1
      ∧ key ∈ n1.dependents := by
  by_cases hk : key ∈ n0.dependents
  · simp only [hk, if_true]
    exact ⟨graphKept_refl g, nodupKept_refl g, n0, h, hk⟩
  · simp only [hk, if_false]
    refine ⟨setNode_kept g c p _ n0 h ⟨[], by simp⟩ ⟨[key], rfl⟩,
      setNode_nodup g c p _ n0 h id ?_,
      { n0 with dependents := n0.dependents ++ [key] }, ?_, ?_⟩
    · intro hnd
      exact List.Nodup.append hnd (List.nodup_singleton key) (by simpa using hk)
    · rw [nodeOf_setNode g c p _ n0 c p h]; simp
    · simp

theorem populateDependencies_kept (c filter : String) (found : List Entry) :
    ∀ g : Graph, GraphKept g (graphAfter (populateDependencies c filter g found))
      ∧ NodupKept g (graphAfter (populateDependencies c filter g found)) := by
  induction found with
  | nil => intro g; exact ⟨graphKept_refl g, nodupKept_refl g⟩
  | cons dependency rest ih =>
    intro g
    rw [populateDependencies]
    cases h1 : nodeOf g c filter with
    | none => exact ⟨graphKept_refl g, nodupKept_refl g⟩
    | some location1 =>
      obtain ⟨a1, a2, _⟩ := addDependency_kept g c filter
        (dependency.collection ++ "/" ++ dependency.property) location1 h1
      dsimp only
      cases hm : oget (if dependency.collection ++ "/" ++ dependency.property
            ∈ location1.dependencies then g
          else setNode g c filter { location1 with
            dependencies := location1.dependencies
              ++ [dependency.collection ++ "/" ++ dependency.property] })
          dependency.collection with
      | none => exact ⟨a1, a2⟩
      | some m =>
        dsimp only
        cases hp : oget m dependency.property with
        | none =>
          dsimp only
          obtain ⟨b1, b2⟩ := ih _
          exact ⟨graphKept_trans a1 b1, nodupKept_trans a1 a2 b2⟩
        | some location2 =>
          dsimp only
          have h2 : nodeOf (if dependency.collection ++ "/" ++ dependency.property
                ∈ location1.dependencies then g
              else setNode g c filter { location1 with
                dependencies := location1.dependencies
                  ++ [dependency.collection ++ "/" ++ dependency.property] })
              dependency.collection dependency.property = some location2 := by
            unfold nodeOf; rw [hm]; exact hp
          obtain ⟨d1, d2, _⟩ := addDependent_kept _ dependency.collection dependency.property
            (c ++ "/" ++ filter) location2 h2
          obtain ⟨b1, b2⟩ := ih (if c ++ "/" ++ filter ∈ location2.dependents then _
            else setNode _ dependency.collection dependency.property
              { location2 with dependents := location2.dependents ++ [c ++ "/" ++ filter] })
          exact ⟨graphKept_trans (graphKept_trans a1 d1) b1,
            nodupKept_trans (graphKept_trans a1 d1) (nodupKept_trans a1 a2 d2) b2⟩


theorem graphKept_has {g g' : Graph} (h : GraphKept g g') (c : String)
    (hc : (oget g c).isSome = true) : (oget g' c).isSome = true := by
  have := h.2.1 c
  cases h1 : oget g c with
  | none => rw [h1] at hc; simp at hc
  | some m =>
    rw [h1] at this
    cases h2 : oget g' c with
    | none => rw [h2] at this; simp at this
    | some m' => rfl

theorem graphKept_dependency {g g' : Graph} (h : GraphKept g g') (c p key : String)
    (hn : ∃ n, nodeOf g c p = some n ∧ key ∈ n.dependencies) :
    ∃ n, nodeOf g' c p = some n ∧ key ∈ n.dependencies := by
  obtain ⟨n, hn, hk⟩ := hn
  obtain ⟨n', hn', ⟨t, ht⟩, _⟩ := h.2.2 c p n hn
  exact ⟨n', hn', by rw [ht]; exact List.mem_append_left _ hk⟩

theorem graphKept_dependent {g g' : Graph} (h : GraphKept g g') (c p key : String)
    (hn : ∃ n, nodeOf g c p = some n ∧ key ∈ n.dependents) :
    ∃ n, nodeOf g' c p = some n ∧ key ∈ n.dependents := by
  obtain ⟨n, hn, hk⟩ := hn
  obtain ⟨n', hn', _, ⟨t, ht⟩⟩ := h.2.2 c p n hn
  exact ⟨n', hn', by rw [ht]; exact List.mem_append_left _ hk⟩

theorem populateDependencies_ok_kept (c filter : String) (found : List Entry) (g g' : Graph)
    (h : populateDependencies c filter g found = .ok g') : GraphKept g g' := by
  have k := (populateDependencies_kept c filter found g).1
  rw [h] at k
  exact k

theorem populateDependencies_spec (c filter : String) (found : List Entry) :
    ∀ (g : Graph) (n0 : GraphNode), nodeOf g c filter = some n0 →
    (∀ dep ∈ found, (oget g dep.collection).isSome = true) →
    ∃ g', populateDependencies c filter g found = .ok g'
      ∧ (∀ dep ∈ found, ∃ n, nodeOf g' c filter = some n
          ∧ dep.collection ++ "/" ++ dep.property ∈ n.dependencies)
      ∧ ∀ dep ∈ found, ∀ n2, nodeOf g dep.collection dep.property = some n2 →
          ∃ n, nodeOf g' dep.collection dep.property = some n
            ∧ c ++ "/" ++ filter ∈ n.dependents := by
  induction found with
  | nil => intro g n0 _ _; exact ⟨g, rfl, by simp, by simp⟩
  | cons dependency rest ih =>
    intro g location1 h1 hcols
    obtain ⟨a1, _, a3⟩ := addDependency_kept g c filter
      (dependency.collection ++ "/" ++ dependency.property) location1 h1
    have hm0 := graphKept_has a1 dependency.collection (hcols dependency (List.mem_cons_self _ _))
    rw [populateDependencies]
    simp only [h1]
    cases hm : oget (if dependency.collection ++ "/" ++ dependency.property
          ∈ location1.dependencies then g
        else setNode g c filter { location1 with
          dependencies := location1.dependencies
            ++ [dependency.collection ++ "/" ++ dependency.property] })
        dependency.collection with
    | none => rw [hm] at hm0; simp at hm0
    | some m =>
      dsimp only
      cases hp : oget m dependency.property with
      | none =>
        dsimp only
        obtain ⟨nF, hnF, _⟩ := a1.2.2 c filter location1 h1
        obtain ⟨g', e1, e2, e3⟩ := ih _ nF hnF
          (fun dep hdep => graphKept_has a1 dep.collection (hcols dep (List.mem_cons_of_mem _ hdep)))
        have k := populateDependencies_ok_kept c filter rest _ g' e1
        refine ⟨g', e1, ?_, ?_⟩
        · intro dep hdep
          rcases List.mem_cons.1 hdep with rfl | hdep
          · exact graphKept_dependency k c filter _ a3
          · exact e2 dep hdep
        · intro dep hdep n2 hn2
          obtain ⟨n2', hn2', _⟩ := a1.2.2 _ _ n2 hn2
          rcases List.mem_cons.1 hdep with rfl | hdep
          · exfalso
            unfold nodeOf at hn2'
            rw [hm] at hn2'
            simp only [Option.bind] at hn2'
            rw [hp] at hn2'
            cases hn2'
          · exact e3 dep hdep n2' hn2'
      | some location2 =>
        dsimp only
        have h2 : nodeOf (if dependency.collection ++ "/" ++ dependency.property
              ∈ location1.dependencies then g
            else setNode g c filter { location1 with
              dependencies := location1.dependencies
                ++ [dependency.collection ++ "/" ++ dependency.property] })
            dependency.collection dependency.property = some location2 := by
          unfold nodeOf; rw [hm]; exact hp
        obtain ⟨d1, _, d3⟩ := addDependent_kept _ dependency.collection dependency.property
          (c ++ "/" ++ filter) location2 h2
        have ad := graphKept_trans a1 d1
        obtain ⟨nF, hnF, _⟩ := ad.2.2 c filter location1 h1
        obtain ⟨g', e1, e2, e3⟩ := ih _ nF hnF
          (fun dep hdep => graphKept_has ad dep.collection (hcols dep (List.mem_cons_of_mem _ hdep)))
        have k := populateDependencies_ok_kept c filter rest _ g' e1
        refine ⟨g', e1, ?_, ?_⟩
        · intro dep hdep
          rcases List.mem_cons.1 hdep with rfl | hdep
          · exact graphKept_dependency (graphKept_trans d1 k) c filter _ a3
          · exact e2 dep hdep
        · intro dep hdep n2 hn2
          rcases List.mem_cons.1 hdep with rfl | hdep
          · exact graphKept_dependent k _ _ _ d3
          · obtain ⟨n2', hn2', _⟩ := ad.2.2 _ _ n2 hn2
            exact e3 dep hdep n2' hn2'

/-! ## One execution of a filter -/

theorem FilterProg.run_congr (s s' : State) (hc : s'.collections = s.collections)
    (hh : s'.heap = s.heap) :
    ∀ (prog : FilterProg) (found : List Entry), prog.run s' found = prog.run s found := by
  intro prog
  induction prog with
  | ret v => intro found; rfl
  | read c ns p k ih =>
    intro found
    simp only [FilterProg.run, getC, hc]
    cases oget s.collections c with
    | none => rfl
    | some col => exact ih _ _
  | fieldOf r f k ih =>
    intro found
    simp only [FilterProg.run, hh]
    exact ih _ _

theorem executeFilter_spec (s : State) (c filter : String) (col : Collection)
    (prog : FilterProg) (data : Val) (found : List Entry)
    (hc : getC s c = some col) (hF : oget col.filters filter = some prog)
    (hrun : prog.run s [] = some (data, found)) :
    executeFilter s c filter
      = .ok ({ s with
          collections := oset s.collections c { col with
            pub := deliverUpdate col.pub .filters (coerceResult data) filter } }, found) := by
  unfold executeFilter
  rw [hc]
  simp only [hF, hrun]
  simp only [modC]
  have : oget s.collections c = some col := hc
  simp only [this]

theorem executeAndAnalyseFilter_spec (s : State) (c filter : String) (col : Collection)
    (prog : FilterProg) (data : Val) (found : List Entry)
    (hc : getC s c = some col) (hF : oget col.filters filter = some prog)
    (hrun : prog.run s [] = some (data, found)) :
    executeAndAnalyseFilter s c filter
      = if found.any (isMissingDependency s) then
          .ok { s with
            trace := s.trace ++ [.exec c filter]
            collections := oset s.collections c { col with
              pub := deliverUpdate col.pub .filters (coerceResult data) filter }
            regenQueue := s.regenQueue ++ [⟨c, filter⟩] }
        else
          match populateDependencies c filter s.dependencyGraph found with
          | .error g => .error { s with
              trace := s.trace ++ [.exec c filter]
              collections := oset s.collections c { col with
                pub := deliverUpdate col.pub .filters (coerceResult data) filter }
              dependencyGraph := g }
          | .ok g => .ok { s with
              trace := s.trace ++ [.exec c filter]
              collections := oset s.collections c { col with
                pub := deliverUpdate col.pub .filters (coerceResult data) filter }
              dependencyGraph := g
              generatedFilters := s.generatedFilters ++ [c ++ filter] } := by
  have hrun' : prog.run { s with trace := s.trace ++ [.exec c filter] } [] = some (data, found) :=
    (FilterProg.run_congr s { s with trace := s.trace ++ [.exec c filter] } rfl rfl prog []).trans
      hrun
  have hex := executeFilter_spec { s with trace := s.trace ++ [.exec c filter] } c filter col
    prog data found hc hF hrun'
  unfold executeAndAnalyseFilter
  rw [hc]
  simp only [hex]
  have hmiss : isMissingDependency { s with
        trace := s.trace ++ [.exec c filter]
        collections := oset s.collections c { col with
          pub := deliverUpdate col.pub .filters (coerceResult data) filter } }
      = isMissingDependency s := rfl
  rw [hmiss]


theorem modC_graph (s : State) (c : String) (f : Collection → Collection) :
    (modC s c f).dependencyGraph = s.dependencyGraph := by
  unfold modC; split <;> rfl

theorem executeFilter_graph (s : State) (c filter : String) :
    (∀ s1, executeFilter s c filter = .error s1 → s1.dependencyGraph = s.dependencyGraph)
    ∧ (∀ s1 found, executeFilter s c filter = .ok (s1, found) →
        s1.dependencyGraph = s.dependencyGraph) := by
  unfold executeFilter
  constructor
  · intro s1 h
    split at h
    · cases h; rfl
    · split at h
      · cases h; rfl
      · split at h
        · cases h; rfl
        · cases h
  · intro s1 found h
    split at h
    · cases h
    · split at h
      · cases h
      · split at h
        · cases h
        · cases h
          exact modC_graph _ _ _

theorem executeAndAnalyseFilter_graph (s : State) (c filter : String) :
    GraphKept s.dependencyGraph (executeAndAnalyseFilter s c filter).state.dependencyGraph
    ∧ NodupKept s.dependencyGraph
        (executeAndAnalyseFilter s c filter).state.dependencyGraph := by
  have hf := executeFilter_graph { s with trace := s.trace ++ [.exec c filter] } c filter
  unfold executeAndAnalyseFilter
  split
  · exact ⟨graphKept_refl _, nodupKept_refl _⟩
  · split
    · rename_i s1 h
      have h1 : s1.dependencyGraph = s.dependencyGraph := hf.1 s1 h
      show GraphKept s.dependencyGraph s1.dependencyGraph
        ∧ NodupKept s.dependencyGraph s1.dependencyGraph
      rw [h1]
      exact ⟨graphKept_refl _, nodupKept_refl _⟩
    · rename_i s1 found h
      have h1 : s1.dependencyGraph = s.dependencyGraph := hf.2 s1 found h
      split
      · show GraphKept s.dependencyGraph s1.dependencyGraph
          ∧ NodupKept s.dependencyGraph s1.dependencyGraph
        rw [h1]
        exact ⟨graphKept_refl _, nodupKept_refl _⟩
      · have hp := populateDependencies_kept c filter found s1.dependencyGraph
        rw [h1] at hp
        split
        · rename_i g hg
          rw [h1] at hg
          rw [hg] at hp
          exact hp
        · rename_i g hg
          rw [h1] at hg
          rw [hg] at hp
          exact hp

/-! ## Draining the queue -/

theorem regenPass_single (s : State) (e : Entry) (hq : s.regenQueue = [e]) :
    regenPass 1 0 s
      = if e.collection ++ "/" ++ e.property = s.lastRegenerated then
          .ok ({ s with regenQueue := [], lastRegenerated := "" }, true)
        else
          match executeAndAnalyseFilter { s with regenQueue := [] } e.collection e.property with
          | .error s2 => .error s2
          | .ok s2 => .ok ({ s2 with lastRegenerated := e.collection ++ "/" ++ e.property }, false) := by
  unfold regenPass
  simp only [hq, List.length_singleton, Nat.lt_one_iff, if_true]
  split
  · rfl
  · split
    · rfl
    · unfold regenPass
      rfl

theorem modC_frame (s : State) (c : String) (f : Collection → Collection) :
    (modC s c f).trace = s.trace ∧ (modC s c f).lastRegenerated = s.lastRegenerated
    ∧ (modC s c f).regenQueue = s.regenQueue := by
  unfold modC; split <;> exact ⟨rfl, rfl, rfl⟩

theorem executeFilter_frame (s : State) (c filter : String) (s1 : State) (found : List Entry)
    (h : executeFilter s c filter = .ok (s1, found)) :
    s1.trace = s.trace ∧ s1.lastRegenerated = s.lastRegenerated := by
  unfold executeFilter at h
  split at h
  · cases h
  · split at h
    · cases h
    · split at h
      · cases h
      · cases h
        exact ⟨(modC_frame _ _ _).1, (modC_frame _ _ _).2.1⟩

theorem executeAndAnalyseFilter_frame (s : State) (c filter : String) (s' : State)
    (h : executeAndAnalyseFilter s c filter = .ok s') :
    s'.trace = s.trace ++ [.exec c filter] ∧ s'.lastRegenerated = s.lastRegenerated := by
  unfold executeAndAnalyseFilter at h
  split at h
  · cases h
  · split at h
    · cases h
    · rename_i s1 found hex
      have hf := executeFilter_frame _ c filter s1 found hex
      split at h
      · cases h; exact hf
      · split at h
        · cases h
        · cases h; exact hf


theorem regenPass_drains (Inv : State → Prop) (Q : List Entry)
    (hframe : ∀ (t : State) (q : List Entry) (m : String),
      Inv t → Inv { t with regenQueue := q, lastRegenerated := m })
    (hexec : ∀ (t : State) (e : Entry), Inv t → e ∈ Q →
      ∃ t', executeAndAnalyseFilter t e.collection e.property = .ok t'
        ∧ t'.regenQueue = t.regenQueue ∧ Inv t') :
    ∀ (n i : Nat) (s : State), Inv s → (∀ e ∈ s.regenQueue, e ∈ Q) →
      List.Chain (fun a b => a ≠ b) s.lastRegenerated (s.regenQueue.map concatEntryName) →
      s.regenQueue.length ≤ n →
      ∃ k s', regenPass n i s = .ok (s', false)
        ∧ s'.regenQueue = s.regenQueue.drop k
        ∧ s'.trace = s.trace ++ execEvents (s.regenQueue.take k)
        ∧ Inv s'
        ∧ List.Chain (fun a b => a ≠ b) s'.lastRegenerated (s'.regenQueue.map concatEntryName)
        ∧ (i < s.regenQueue.length → 0 < k) := by
  intro n
  induction n with
  | zero =>
    intro i s hI hQ hch hn
    have hq : s.regenQueue = [] := List.length_eq_zero.1 (Nat.le_zero.1 hn)
    refine ⟨0, s, rfl, by simp, by simp [execEvents], hI, hch, ?_⟩
    rw [hq]; simp
  | succ n ih =>
    intro i s hI hQ hch hn
    by_cases hi : i < s.regenQueue.length
    · obtain ⟨cols, heap, q, errs, hist, af, gf, g, last, tr⟩ := s
      simp only at hi hQ hch hn
      cases q with
      | nil => simp at hi
      | cons e rest =>
        simp only [List.map_cons, List.chain_cons] at hch
        obtain ⟨hne, hch'⟩ := hch
        obtain ⟨t', hex, hq', hI'⟩ := hexec ⟨cols, heap, rest, errs, hist, af, gf, g, last, tr⟩ e
          (hframe _ rest last hI) (hQ e (List.mem_cons_self _ _))
        obtain ⟨htr, _⟩ := executeAndAnalyseFilter_frame _ _ _ _ hex
        obtain ⟨cols2, heap2, q2, errs2, hist2, af2, gf2, g2, last2, tr2⟩ := t'
        simp only at hq' htr
        subst hq' htr
        obtain ⟨k, s', hp, h1, h2, h3, h4, _⟩ := ih (i + 1)
          ⟨cols2, heap2, q2, errs2, hist2, af2, gf2, g2, concatEntryName e,
            tr ++ [.exec e.collection e.property]⟩
          (hframe _ q2 (concatEntryName e) hI')
          (fun x hx => hQ x (List.mem_cons_of_mem _ hx)) hch'
          (by simp only [List.length_cons] at hn; exact Nat.le_of_succ_le_succ hn)
        refine ⟨k + 1, s', ?_, ?_, ?_, h3, h4, fun _ => Nat.succ_pos k⟩
        · rw [regenPass]
          simp only [hi, if_true]
          have hne' : ¬ e.collection ++ "/" ++ e.property = last := fun h => hne h.symm
          simp only [hne', if_false, hex]
          exact hp
        · simpa using h1
        · rw [h2]
          simp [execEvents]
    · refine ⟨0, s, ?_, by simp, by simp [execEvents], hI, hch, fun h => absurd h hi⟩
      rw [regenPass]
      simp only [hi, if_false]

theorem processRegenQueue_drains (Inv : State → Prop) (Q : List Entry)
    (hframe : ∀ (t : State) (q : List Entry) (m : String),
      Inv t → Inv { t with regenQueue := q, lastRegenerated := m })
    (hexec : ∀ (t : State) (e : Entry), Inv t → e ∈ Q →
      ∃ t', executeAndAnalyseFilter t e.collection e.property = .ok t'
        ∧ t'.regenQueue = t.regenQueue ∧ Inv t') :
    ∀ (fuel : Nat) (s : State), Inv s → (∀ e ∈ s.regenQueue, e ∈ Q) →
      List.Chain (fun a b => a ≠ b) s.lastRegenerated (s.regenQueue.map concatEntryName) →
      s.regenQueue ≠ [] → s.regenQueue.length < fuel →
      ∃ s', processRegenQueue fuel s = .ok s'
        ∧ s'.regenQueue = [] ∧ s'.lastRegenerated = ""
        ∧ s'.trace = s.trace ++ execEvents s.regenQueue
        ∧ Inv s' := by
  intro fuel
  induction fuel with
  | zero => intro s _ _ _ _ hf; simp at hf
  | succ fuel ih =>
    intro s hI hQ hch hne hf
    have hlen : 0 < s.regenQueue.length := List.length_pos.2 hne
    obtain ⟨k, s1, hp, h1, h2, h3, h4, h5⟩ :=
      regenPass_drains Inv Q hframe hexec s.regenQueue.length 0 s hI hQ hch (Nat.le_refl _)
    have hk := h5 hlen
    rw [processRegenQueue]
    have hl0 : ¬ s.regenQueue.length = 0 := Nat.pos_iff_ne_zero.1 hlen
    simp only [hl0, if_false, hp]
    by_cases hrem : s1.regenQueue.length > 0
    · simp only [hrem, if_true]
      obtain ⟨s', e1, e2, e3, e4, e5⟩ := ih s1 h3
        (fun x hx => hQ x (by rw [h1] at hx; exact List.mem_of_mem_drop hx)) h4
        (List.length_pos.1 hrem)
        (by rw [h1, List.length_drop]; omega)
      refine ⟨s', e1, e2, e3, ?_, e5⟩
      rw [e4, h2, h1, List.append_assoc]
      congr 1
      simp only [execEvents, ← List.map_append, List.take_append_drop]
    · simp only [hrem, if_false]
      have hnil : s1.regenQueue = [] := by
        cases h : s1.regenQueue with
        | nil => rfl
        | cons a b => rw [h] at hrem; simp at hrem
      refine ⟨_, rfl, hnil, rfl, ?_, hframe s1 s1.regenQueue "" h3⟩
      show s1.trace = _
      rw [h2]
      rw [h1] at hnil
      have : s.regenQueue.take k = s.regenQueue := by
        apply List.take_of_length_le
        exact List.drop_eq_nil_iff.1 hnil
      rw [this]

theorem enqueue_nodup (l : List String) :
    ∀ q : List Entry, q.Nodup → (enqueue q l).Nodup := by
  induction l with
  | nil => intro q h; exact h
  | cons f rest ih =>
    intro q h
    rw [enqueue]
    apply ih
    by_cases hm : parseKey f ∈ q
    · simp only [hm, if_true]; exact h
    · simp only [hm, if_false]
      exact List.Nodup.append h (List.nodup_singleton _) (by simpa using hm)

theorem execEvents_count (q : List Entry) (e : Entry) :
    (execEvents q).count (.exec e.collection e.property) = q.count e := by
  unfold execEvents
  induction q with
  | nil => rfl
  | cons a t ih =>
    rw [List.map_cons, List.count_cons, List.count_cons, ih]
    congr 1
    by_cases h : a = e
    · subst h; simp
    · have : ¬ (Event.exec a.collection a.property = Event.exec e.collection e.property) := by
        intro h1
        apply h
        cases a; cases e
        simp only [Event.exec.injEq] at h1
        simp [h1.1, h1.2]
      simp [h, this]

theorem chainState_executes_B (t : State) (e : Entry) (hI : SameProgram chainState t)
    (he : e ∈ [(⟨"c", "B"⟩ : Entry)]) :
    ∃ t', executeAndAnalyseFilter t e.collection e.property = .ok t'
      ∧ t'.regenQueue = t.regenQueue ∧ SameProgram chainState t' := by
  simp only [List.mem_singleton] at he
  subst he
  obtain ⟨h1, h2, h3, h4⟩ := hI
  have hc : getC t "c" = some chainCollection := by
    show oget t.collections "c" = _
    rw [h1]; rfl
  have hrun : (FilterProg.read "c" .root "D" fun x => .ret (id x)).run t []
      = some (nv 1, [⟨"c", "D"⟩]) :=
    (FilterProg.run_congr chainState t h1 h2 _ []).trans rfl
  have hspec := executeAndAnalyseFilter_spec t "c" "B" chainCollection _ (nv 1) [⟨"c", "D"⟩]
    hc rfl hrun
  have hany : ([⟨"c", "D"⟩] : List Entry).any (isMissingDependency t) = false := by
    have : t.allFilters = ["B", "A"] := h3
    simp [isMissingDependency, this]
  have hpop : populateDependencies "c" "B" t.dependencyGraph [⟨"c", "D"⟩]
      = .ok chainState.dependencyGraph := by
    rw [h4]; rfl
  rw [hany, hpop] at hspec
  refine ⟨_, hspec, rfl, ?_, h2, h3, rfl⟩
  show oset t.collections "c" _ = chainState.collections
  rw [h1]; rfl

/-! ## The primary key after a collect -/

theorem processDataItem_primaryKey (s : State) (c : String) (col : Collection) (r : Obj)
    (index : Option String) (hc : getC s c = some col) :
    ∃ col', getC (processDataItem s c r index).state c = some col'
      ∧ col'.primaryKey
          = (if noPrimaryKey col then (discoverKey r col).primaryKey else col.primaryKey) := by
  have hc0 : getC { s with heap := s.heap ++ [r] } c = some col := hc
  have hdisc : ∃ col', getC (if (getC { s with heap := s.heap ++ [r] } c).elim true noPrimaryKey
        then findPrimaryKey { s with heap := s.heap ++ [r] } c s.heap.length r
        else { s with heap := s.heap ++ [r] }) c = some col'
      ∧ col'.primaryKey
          = (if noPrimaryKey col then (discoverKey r col).primaryKey else col.primaryKey) := by
    by_cases hn : noPrimaryKey col = true
    · simp only [hc0, Option.elim, hn, if_true]
      refine ⟨discoverKey r col, ?_, rfl⟩
      unfold findPrimaryKey
      dsimp only
      split
      · show getC (modC _ c _) c = _
        rw [getC_modC, hc0]; simp
      · rw [getC_modC, hc0]; simp
    · simp only [hc0, Option.elim, hn]
      exact ⟨col, hc0, by simp⟩
  obtain ⟨col', hg, hpk⟩ := hdisc
  unfold processDataItem
  dsimp only
  generalize (if (getC { s with heap := s.heap ++ [r] } c).elim true noPrimaryKey = true then
      findPrimaryKey { s with heap := s.heap ++ [r] } c s.heap.length r
    else { s with heap := s.heap ++ [r] }) = s' at hg
  rw [hg]
  dsimp only
  have hg2 : getC (if (!ohas r (pkName col')) = true then
        dataRejectionHandler s' s.heap.length "Primary key mismatch" else s') c = some col' := by
    split
    · exact hg
    · exact hg
  split
  · exact ⟨col', hg2, hpk⟩
  · rename_i col2 hcol2
    have h2 : col2.primaryKey = col'.primaryKey := by
      split at hcol2
      · cases hcol2; rfl
      · split at hcol2
        · split at hcol2
          · cases hcol2
          · split at hcol2
            · cases hcol2; rfl
            · cases hcol2; rfl
        · cases hcol2; rfl
    refine ⟨_, (getC_setC_sync _ _ _ _).trans (if_pos rfl), ?_⟩
    have h3 : ∀ colx : Collection, (findFiltersToRegen
        (if field r (pkName col') ∈ (okeys colx.data).map (fun k => Val.atom (.str k)) then
          findGroupsToRegen colx (field r (pkName col')) else colx)
        (field r (pkName col')) (indexVal index)).primaryKey = colx.primaryKey := by
      intro colx
      have h : (findFiltersToRegen
          (if field r (pkName col') ∈ (okeys colx.data).map (fun k => Val.atom (.str k)) then
            findGroupsToRegen colx (field r (pkName col')) else colx)
          (field r (pkName col')) (indexVal index)).store = colx.store := by
        rw [findFiltersToRegen_store]
        split
        · rw [findGroupsToRegen_store]
        · rfl
      exact (store_eq h).1
    exact (h3 { col2 with relations := pushRelations col2.relations (indexVal index) r }).trans
      (h2.trans hpk)

/-! ## The rounds of the dependents traversal -/

theorem findLoopCount_fst (g : Graph) :
    ∀ (n loops : Nat) (lastRound found : List String),
      (findLoopCount g n loops lastRound found).map Prod.fst
        = findLoop g n loops lastRound found := by
  intro n
  induction n with
  | zero => intro loops lastRound found; rfl
  | succ n ih =>
    intro loops lastRound found
    rw [findLoopCount, findLoop]
    cases expandRound g lastRound with
    | none => rfl
    | some next =>
      dsimp only
      split
      · rfl
      · split
        · exact ih _ _ _
        · rfl

theorem findLoopCount_le (g : Graph) :
    ∀ (n loops : Nat) (lastRound found : List String) (r : List String × Nat),
      loops ≤ 1000 → findLoopCount g n loops lastRound found = some r → r.2 ≤ 1001 := by
  intro n
  induction n with
  | zero =>
    intro loops lastRound found r hl h
    simp only [findLoopCount, Option.some.injEq] at h
    subst h
    exact Nat.le_succ_of_le hl
  | succ n ih =>
    intro loops lastRound found r hl h
    rw [findLoopCount] at h
    cases hx : expandRound g lastRound with
    | none => rw [hx] at h; cases h
    | some next =>
      rw [hx] at h
      dsimp only at h
      split at h
      · cases h; exact Nat.succ_le_succ hl
      · rename_i hgt
        split at h
        · exact ih _ _ _ r (Nat.le_of_not_lt hgt) h
        · cases h; exact Nat.succ_le_succ hl

theorem findLoopCount_fuel (g : Graph) :
    ∀ (n loops extra : Nat) (lastRound found : List String),
      loops ≤ 1000 → 1001 ≤ loops + n →
      findLoopCount g (n + extra) loops lastRound found
        = findLoopCount g n loops lastRound found := by
  intro n
  induction n with
  | zero => intro loops extra lastRound found hl hn; omega
  | succ n ih =>
    intro loops extra lastRound found hl hn
    rw [show n + 1 + extra = (n + extra) + 1 by omega, findLoopCount, findLoopCount]
    cases expandRound g lastRound with
    | none => rfl
    | some next =>
      dsimp only
      split
      · rfl
      · rename_i hgt
        split
        · exact ih _ _ _ _ (Nat.le_of_not_lt hgt) (by omega)
        · rfl

theorem expandRound_named (g : Graph) (hg : DependentsNamed g) :
    ∀ l : List String, (∀ k ∈ l, (dependentsOfKey g k).isSome = true) →
      ∃ next, expandRound g l = some next
        ∧ ∀ k ∈ next, (dependentsOfKey g k).isSome = true := by
  intro l
  induction l with
  | nil => intro _; exact ⟨[], rfl, by simp⟩
  | cons dep rest ih =>
    intro hl
    obtain ⟨more, hmore, hm⟩ := ih (fun k hk => hl k (List.mem_cons_of_mem _ hk))
    have hdep := hl dep (List.mem_cons_self _ _)
    cases hd : dependentsOfKey g dep with
    | none => rw [hd] at hdep; simp at hdep
    | some ds =>
      refine ⟨ds ++ more, by simp [expandRound, hd, hmore], ?_⟩
      intro k hk
      rcases List.mem_append.1 hk with h | h
      · unfold dependentsOfKey at hd
        obtain ⟨m, hm1, hm2⟩ := Option.map_eq_some'.mp hd
        subst hm2
        exact hg _ _ m k hm1 h
      · exact hm k h

theorem findLoopCount_named (g : Graph) (hg : DependentsNamed g) :
    ∀ (n loops : Nat) (lastRound found : List String),
      (∀ k ∈ lastRound, (dependentsOfKey g k).isSome = true) →
      ∃ all rounds rest, findLoopCount g n loops lastRound found = some (all, rounds)
        ∧ all = found ++ rest := by
  intro n
  induction n with
  | zero => intro loops lastRound found _; exact ⟨found, loops, [], rfl, by simp⟩
  | succ n ih =>
    intro loops lastRound found hl
    obtain ⟨next, hnext, hn⟩ := expandRound_named g hg lastRound hl
    rw [findLoopCount]
    rw [hnext]
    dsimp only
    split
    · exact ⟨_, _, next, rfl, rfl⟩
    · split
      · obtain ⟨all, rounds, rest, h1, h2⟩ := ih (loops + 1) next (found ++ next) hn
        exact ⟨all, rounds, next ++ rest, h1, by rw [h2, List.append_assoc]⟩
      · exact ⟨_, _, next, rfl, rfl⟩

theorem cycleGraph_rounds :
    ∀ (n loops : Nat) (found : List String), loops ≤ 1000 → 1001 ≤ loops + n →
      (findLoopCount cycleGraph n loops ["c/a"] found).map Prod.snd = some 1001 := by
  intro n
  induction n with
  | zero => intro loops found hl hn; omega
  | succ n ih =>
    intro loops found hl hn
    have hx : expandRound cycleGraph ["c/a"] = some ["c/a"] := rfl
    rw [findLoopCount]
    rw [hx]
    dsimp only
    split
    · rename_i hgt
      have : loops + 1 = 1001 := by omega
      simp [this]
    · rename_i hgt
      simp only [List.length_singleton, ne_eq, Nat.succ_ne_zero, not_false_eq_true, if_true]
      exact ih _ _ (Nat.le_of_not_lt hgt) (by omega)

theorem cycleGraph_named : DependentsNamed cycleGraph := by
  intro c p n k hn hk
  unfold nodeOf cycleGraph at hn
  simp only [oget] at hn
  by_cases hc : "c" = c
  · simp only [hc, if_true, Option.bind] at hn
    simp only [oget] at hn
    by_cases hp : "a" = p
    · simp only [hp, if_true, Option.some.injEq] at hn
      subst hn
      simp only [List.mem_singleton] at hk
      subst hk
      rfl
    · simp [hp] at hn
  · simp [hc] at hn

theorem reachIn_pos (g : Graph) (c p : String) (j : Nat) (k : String)
    (h : ReachIn g c p j k) : 1 ≤ j := by
  cases h with
  | direct => exact Nat.le_refl 1
  | step j => exact Nat.succ_le_succ (Nat.zero_le j)

theorem levelKeys_nil (g : Graph) (start : List String) (j : Nat)
    (h : levelKeys g start j = some []) :
    ∀ d, levelKeys g start (j + d) = some [] := by
  intro d
  induction d with
  | zero => exact h
  | succ d ih =>
    rw [← Nat.add_assoc, levelKeys, ih]
    rfl

/-! ## Materialization: the resolved array and the attached records -/

theorem oset_same {α : Type} (o : List (String × α)) (k : String) (v : α)
    (h : oget o k = some v) : oset o k v = o := by
  induction o with
  | nil => simp [oget] at h
  | cons e t ih =>
    obtain ⟨k0, v0⟩ := e
    by_cases h0 : k0 = k
    · subst h0
      simp only [oget, if_true, Option.some.injEq] at h
      subst h
      simp [oset]
    · simp only [oget, h0, if_false] at h
      simp [oset, h0, ih h]

theorem resolveRelations_congr (s s' : State)
    (hs : ∀ x, (getC s' x).map (fun col => col.data) = (getC s x).map fun col => col.data) :
    ∀ (rels : List (String × Relation)) (data : Obj),
      resolveRelations s' rels data = resolveRelations s rels data := by
  intro rels
  induction rels with
  | nil => intro data; rfl
  | cons e rest ih =>
    intro data
    obtain ⟨relationKey, rel⟩ := e
    rw [resolveRelations, resolveRelations]
    split
    · rfl
    · by_cases hk : ohas data relationKey = true
      · simp only [hk, if_true]
        have hx := hs rel.fromCollectionName
        cases h1 : getC s rel.fromCollectionName with
        | none =>
          rw [h1] at hx
          cases h2 : getC s' rel.fromCollectionName with
          | none =>
            dsimp only
            split
            · exact ih data
            · rfl
          | some t' => rw [h2] at hx; simp at hx
        | some t =>
          rw [h1] at hx
          cases h2 : getC s' rel.fromCollectionName with
          | none => rw [h2] at hx; simp at hx
          | some t' =>
            rw [h2] at hx
            simp only [Option.map_some', Option.some.injEq] at hx
            dsimp only
            rw [hx]
            cases oget t.data (field data relationKey).toKey with
            | none =>
              dsimp only
              split
              · exact ih _
              · exact ih data
            | some f => exact ih _
      · simp only [hk]
        exact ih data

theorem resolveRelations_total (s : State) :
    ∀ (rels : List (String × Relation)),
      (∀ e ∈ rels, (getC s e.2.fromCollectionName).isSome = true) → Unshadowed rels →
      ∀ data : Obj, ∃ data', resolveRelations s rels data = some data' := by
  intro rels
  induction rels with
  | nil => intro _ _ data; exact ⟨data, rfl⟩
  | cons e rest ih =>
    intro hrel hun data
    obtain ⟨relationKey, rel⟩ := e
    have hrest := ih (fun e he => hrel e (List.mem_cons_of_mem _ he))
      (fun e he => hun e (List.mem_cons_of_mem _ he))
    have hhead := hrel (relationKey, rel) (List.mem_cons_self _ _)
    have hun0 : ohas rel.props "hasOwnProperty" = false :=
      hun (relationKey, rel) (List.mem_cons_self _ _)
    rw [resolveRelations]
    simp only [hun0, Bool.false_eq_true, if_false]
    by_cases hk : ohas data relationKey = true
    · simp only [hk, if_true]
      cases h1 : getC s rel.fromCollectionName with
      | none => rw [h1] at hhead; simp at hhead
      | some t =>
        dsimp only
        cases oget t.data (field data relationKey).toKey with
        | none =>
          dsimp only
          split
          · exact hrest _
          · exact hrest data
        | some f => exact hrest _
    · simp only [hk]
      exact hrest data

theorem resolveRelations_unshadowed (s : State) :
    ∀ (rels : List (String × Relation)) (data data' : Obj),
      resolveRelations s rels data = some data' → Unshadowed rels := by
  intro rels
  induction rels with
  | nil => intro _ _ _ e he; cases he
  | cons e rest ih =>
    intro data data' h
    obtain ⟨relationKey, rel⟩ := e
    rw [resolveRelations] at h
    split at h
    · cases h
    · rename_i hun0
      have hrest : Unshadowed rest := by
        split at h
        · split at h
          · split at h
            · exact ih _ _ h
            · cases h
          · split at h
            · split at h
              · exact ih _ _ h
              · exact ih _ _ h
            · exact ih _ _ h
        · exact ih _ _ h
      intro e he
      rcases List.mem_cons.1 he with rfl | he
      · simpa using hun0
      · exact hrest e he

theorem mapIndex_congr (s s' : State) (col col' : Collection)
    (hs : ∀ x, (getC s' x).map (fun col => col.data) = (getC s x).map fun col => col.data)
    (hd : col'.data = col.data) (hr : col'.relations = col.relations) :
    ∀ (keys : List Val) (heap : List Obj) (out : List Atom),
      mapIndex s' col' keys heap out = mapIndex s col keys heap out := by
  intro keys
  induction keys with
  | nil => intro heap out; rfl
  | cons id rest ih =>
    intro heap out
    rw [mapIndex, mapIndex, hd, hr]
    cases oget col.data id.toKey with
    | none =>
      dsimp only
      split
      · split
        · rfl
        · exact ih _ _
      · split
        · exact ih _ _
        · rfl
    | some r =>
      dsimp only
      rw [resolveRelations_congr s s' hs]
      cases resolveRelations s col.relations (heap.getD r []) with
      | none => rfl
      | some data => exact ih _ _

theorem mapIndex_out (s : State) (col : Collection) :
    ∀ (keys : List Val) (heap : List Obj) (out : List Atom) (heap' : List Obj)
      (out' : List Atom), mapIndex s col keys heap out = .ok (heap', out') →
      out' = out ++ keys.map (atomOf col.data) ∧ heap'.length = heap.length
      ∧ (∀ id ∈ keys, (oget col.data id.toKey).isSome = true ∨ col.relations.length = 0
          ∨ id.toKey ∈ inheritedNames)
      ∧ (keys ≠ [] → Unshadowed col.relations) := by
  intro keys
  induction keys with
  | nil =>
    intro heap out heap' out' h
    simp only [mapIndex, Except.ok.injEq, Prod.mk.injEq] at h
    obtain ⟨h1, h2⟩ := h
    subst h1 h2
    simp
  | cons id rest ih =>
    intro heap out heap' out' h
    rw [mapIndex] at h
    cases hd : oget col.data id.toKey with
    | none =>
      rw [hd] at h
      dsimp only at h
      split at h
      · rename_i hin
        split at h
        · cases h
        · rename_i hany
          obtain ⟨h1, h2, h3, _⟩ := ih _ _ _ _ h
          refine ⟨?_, h2, ?_, ?_⟩
          · rw [h1]
            simp [atomOf, hd, hin]
          · intro x hx
            rcases List.mem_cons.1 hx with rfl | hx
            · exact Or.inr (Or.inr hin)
            · exact h3 x hx
          · intro _ e he
            cases hh : ohas e.2.props "hasOwnProperty" with
            | false => rfl
            | true => exact absurd (List.any_eq_true.2 ⟨e, he, hh⟩) hany
      · rename_i hin
        split at h
        · rename_i hlen
          obtain ⟨h1, h2, h3, _⟩ := ih _ _ _ _ h
          refine ⟨?_, h2, ?_, ?_⟩
          · rw [h1]
            simp [atomOf, hd, hin]
          · intro x hx
            rcases List.mem_cons.1 hx with rfl | hx
            · exact Or.inr (Or.inl hlen)
            · exact h3 x hx
          · intro _ e he
            rw [List.length_eq_zero.1 hlen] at he
            cases he
        · cases h
    | some r =>
      rw [hd] at h
      dsimp only at h
      cases hres : resolveRelations s col.relations (heap.getD r []) with
      | none => rw [hres] at h; cases h
      | some data =>
        rw [hres] at h
        dsimp only at h
        obtain ⟨h1, h2, h3, _⟩ := ih _ _ _ _ h
        refine ⟨?_, ?_, ?_, fun _ => resolveRelations_unshadowed s _ _ _ hres⟩
        · rw [h1]
          simp [atomOf, hd]
        · rw [h2, List.length_set]
        · intro x hx
          rcases List.mem_cons.1 hx with rfl | hx
          · left; rw [hd]; rfl
          · exact h3 x hx

theorem mapIndex_total (s : State) (col : Collection)
    (hrel : ∀ e ∈ col.relations, (getC s e.2.fromCollectionName).isSome = true) :
    ∀ (keys : List Val),
      (∀ id ∈ keys, (oget col.data id.toKey).isSome = true ∨ col.relations.length = 0
        ∨ id.toKey ∈ inheritedNames) →
      (keys ≠ [] → Unshadowed col.relations) →
      ∀ (heap : List Obj) (out : List Atom),
        ∃ heap', mapIndex s col keys heap out = .ok (heap', out ++ keys.map (atomOf col.data)) := by
  intro keys
  induction keys with
  | nil => intro _ _ heap out; exact ⟨heap, by simp [mapIndex]⟩
  | cons id rest ih =>
    intro hkeys hun heap out
    have hun0 : Unshadowed col.relations := hun (List.cons_ne_nil _ _)
    have hrest := ih (fun x hx => hkeys x (List.mem_cons_of_mem _ hx)) (fun _ => hun0)
    rw [mapIndex]
    cases hd : oget col.data id.toKey with
    | none =>
      dsimp only
      by_cases hin : id.toKey ∈ inheritedNames
      · rw [if_pos hin]
        have hany : ¬ (col.relations.any fun e => ohas e.2.props "hasOwnProperty") = true := by
          rw [List.any_eq_true]
          rintro ⟨e, he, hh⟩
          rw [hun0 e he] at hh
          cases hh
        rw [if_neg hany]
        obtain ⟨heap', h'⟩ := hrest heap (out ++ [.native id.toKey])
        refine ⟨heap', ?_⟩
        rw [h']
        simp [atomOf, hd, hin]
      · rw [if_neg hin]
        rcases hkeys id (List.mem_cons_self _ _) with h | h | h
        · rw [hd] at h; simp at h
        · rw [if_pos h]
          obtain ⟨heap', h'⟩ := hrest heap (out ++ [.undefined])
          refine ⟨heap', ?_⟩
          rw [h']
          simp [atomOf, hd, hin]
        · exact absurd h hin
    | some r =>
      dsimp only
      obtain ⟨data, hdata⟩ := resolveRelations_total s col.relations hrel hun0 (heap.getD r [])
      rw [hdata]
      dsimp only
      obtain ⟨heap', h'⟩ := hrest (heap.set r data) (out ++ [.ref r])
      refine ⟨heap', ?_⟩
      rw [h']
      simp [atomOf, hd]

theorem resolveRelations_field (s : State) :
    ∀ (rels : List (String × Relation)) (data data' : Obj),
      resolveRelations s rels data = some data' →
      (relationTargets rels).Nodup → TargetsApart rels →
      ∀ (relationKey : String) (rel : Relation), (relationKey, rel) ∈ rels →
      ohas data relationKey = true →
      (getC s rel.fromCollectionName).isSome = true →
      ∃ target, getC s rel.fromCollectionName = some target
        ∧ (∀ f, oget target.data (field data relationKey).toKey = some f →
            oget data' rel.target = some (.atom (.ref f)))
        ∧ (oget target.data (field data relationKey).toKey = none →
            (field data relationKey).toKey ∉ inheritedNames →
            oget data' rel.target = oget data rel.target)
        ∧ (oget target.data (field data relationKey).toKey = none →
            (field data relationKey).toKey ∈ inheritedNames →
            oget data' rel.target = some (.atom (.native (field data relationKey).toKey))) := by
  intro rels
  induction rels with
  | nil => intro _ _ _ _ _ _ _ hmem; cases hmem
  | cons e rest ih =>
    intro data data' hres hnd hap relationKey rel hmem hk hsome
    obtain ⟨k0, rel0⟩ := e
    have hnd' : rel0.target ∉ relationTargets rest ∧ (relationTargets rest).Nodup := by
      simpa [relationTargets] using hnd
    have hap' : TargetsApart rest := fun a ha b hb =>
      hap a (List.mem_cons_of_mem _ ha) b (List.mem_cons_of_mem _ hb)
    have hkeep : ∀ d1 : Obj, resolveRelations s rest d1 = some data' →
        oget data' rel0.target = oget d1 rel0.target := fun d1 h1 =>
      resolveRelations_oget s (relationTargets rest) rest d1 data'
        (fun e he => List.mem_map_of_mem (fun e => e.2.target) he) h1 _ hnd'.1
    rw [resolveRelations] at hres
    split at hres
    · cases hres
    rcases List.mem_cons.1 hmem with heq | hin
    · -- the relation is the first of the list
      cases heq
      simp only [hk, if_true] at hres
      cases ht : getC s rel.fromCollectionName with
      | none => rw [ht] at hsome; cases hsome
      | some target =>
        rw [ht] at hres
        dsimp only at hres
        refine ⟨target, rfl, ?_, ?_, ?_⟩
        · intro f hf
          rw [hf] at hres
          dsimp only at hres
          rw [hkeep _ hres, oget_oset_same]
        · intro hf hin
          rw [hf] at hres
          dsimp only at hres
          rw [if_neg hin] at hres
          exact hkeep _ hres
        · intro hf hin
          rw [hf] at hres
          dsimp only at hres
          rw [if_pos hin] at hres
          rw [hkeep _ hres, oget_oset_same]
    · -- the relation comes later: the first one leaves its source field alone
      have hne1 : rel0.target ≠ relationKey :=
        hap (k0, rel0) (List.mem_cons_self _ _) (relationKey, rel) hmem
      have hne2 : rel0.target ≠ rel.target := by
        intro h
        apply hnd'.1
        rw [h]
        exact List.mem_map_of_mem (fun e => e.2.target) hin
      have hstep : ∀ d1 : Obj, resolveRelations s rest d1 = some data' →
          oget d1 relationKey = oget data relationKey →
          oget d1 rel.target = oget data rel.target →
          ∃ target, getC s rel.fromCollectionName = some target
            ∧ (∀ f, oget target.data (field data relationKey).toKey = some f →
                oget data' rel.target = some (.atom (.ref f)))
            ∧ (oget target.data (field data relationKey).toKey = none →
                (field data relationKey).toKey ∉ inheritedNames →
                oget data' rel.target = oget data rel.target)
            ∧ (oget target.data (field data relationKey).toKey = none →
                (field data relationKey).toKey ∈ inheritedNames →
                oget data' rel.target
                  = some (.atom (.native (field data relationKey).toKey))) := by
        intro d1 h1 hsrc htgt
        have hk1 : ohas d1 relationKey = true := by
          unfold ohas at hk ⊢
          rw [hsrc]; exact hk
        obtain ⟨target, ht, hfound, hnone, hinh⟩ :=
          ih d1 data' h1 hnd'.2 hap' relationKey rel hin hk1 hsome
        have hfield : field d1 relationKey = field data relationKey := by
          unfold field; rw [hsrc]
        rw [hfield] at hfound hnone hinh
        exact ⟨target, ht, hfound, fun hf hi => (hnone hf hi).trans htgt, hinh⟩
      by_cases hk0 : ohas data k0 = true
      · simp only [hk0, if_true] at hres
        cases ht0 : getC s rel0.fromCollectionName with
        | none =>
          rw [ht0] at hres
          dsimp only at hres
          split at hres
          · exact hstep data hres rfl rfl
          · cases hres
        | some target0 =>
          rw [ht0] at hres
          dsimp only at hres
          cases hf0 : oget target0.data (field data k0).toKey with
          | none =>
            rw [hf0] at hres
            dsimp only at hres
            split at hres
            · exact hstep _ hres (oget_oset_ne _ _ _ _ hne1) (oget_oset_ne _ _ _ _ hne2)
            · exact hstep data hres rfl rfl
          | some f0 =>
            rw [hf0] at hres
            dsimp only at hres
            exact hstep _ hres (oget_oset_ne _ _ _ _ hne1) (oget_oset_ne _ _ _ _ hne2)
      · simp only [hk0] at hres
        exact hstep data hres rfl rfl

theorem resolveRelations_source (s : State) (rels : List (String × Relation)) (data data' : Obj)
    (h : resolveRelations s rels data = some data') (hap : TargetsApart rels)
    (relationKey : String) (rel : Relation) (hmem : (relationKey, rel) ∈ rels) :
    oget data' relationKey = oget data relationKey := by
  apply resolveRelations_oget s (relationTargets rels) rels data data'
    (fun e he => List.mem_map_of_mem (fun e => e.2.target) he) h
  intro hin
  obtain ⟨e, he, heq⟩ := List.mem_map.1 hin
  exact hap e he (relationKey, rel) hmem heq

theorem mapIndex_field (s : State) (col : Collection)
    (hnd : (relationTargets col.relations).Nodup) (hap : TargetsApart col.relations)
    (relationKey : String) (rel : Relation) (hmem : (relationKey, rel) ∈ col.relations)
    (hsome : (getC s rel.fromCollectionName).isSome = true)
    (r0 : Nat) (o0 : Obj) (hk : ohas o0 relationKey = true) (n : Nat) :
    ∀ (keys : List Val) (heap : List Obj) (out : List Atom) (heap' : List Obj)
      (out' : List Atom), mapIndex s col keys heap out = .ok (heap', out') →
      heap.length = n →
      oget (heap.getD r0 []) relationKey = oget o0 relationKey →
      (∀ target, getC s rel.fromCollectionName = some target →
        oget target.data (field o0 relationKey).toKey = none →
        (field o0 relationKey).toKey ∉ inheritedNames →
        oget (heap.getD r0 []) rel.target = oget o0 rel.target) →
      (Attached s relationKey rel o0 (heap.getD r0 []) →
          Attached s relationKey rel o0 (heap'.getD r0 []))
        ∧ ((∃ id ∈ keys, oget col.data id.toKey = some r0) → r0 < n →
          Attached s relationKey rel o0 (heap'.getD r0 [])) := by
  intro keys
  induction keys with
  | nil =>
    intro heap out heap' out' h _ _ _
    simp only [mapIndex, Except.ok.injEq, Prod.mk.injEq] at h
    obtain ⟨h1, _⟩ := h
    subst h1
    exact ⟨id, fun ⟨_, hx, _⟩ _ => absurd hx (List.not_mem_nil _)⟩
  | cons id rest ih =>
    intro heap out heap' out' h hlen hsrc hkept
    rw [mapIndex] at h
    cases hd : oget col.data id.toKey with
    | none =>
      rw [hd] at h
      dsimp only at h
      have hnone : ∀ out1, mapIndex s col rest heap out1 = .ok (heap', out') →
          (Attached s relationKey rel o0 (heap.getD r0 []) →
            Attached s relationKey rel o0 (heap'.getD r0 []))
          ∧ ((∃ id' ∈ id :: rest, oget col.data id'.toKey = some r0) → r0 < n →
            Attached s relationKey rel o0 (heap'.getD r0 [])) := by
        intro out1 h
        obtain ⟨h1, h2⟩ := ih _ _ _ _ h hlen hsrc hkept
        refine ⟨h1, ?_⟩
        rintro ⟨x, hx, hx2⟩ hlt
        rcases List.mem_cons.1 hx with rfl | hx
        · rw [hd] at hx2; cases hx2
        · exact h2 ⟨x, hx, hx2⟩ hlt
      split at h
      · split at h
        · cases h
        · exact hnone _ h
      · split at h
        · exact hnone _ h
        · cases h
    | some r =>
      rw [hd] at h
      dsimp only at h
      cases hres : resolveRelations s col.relations (heap.getD r []) with
      | none => rw [hres] at h; cases h
      | some data =>
        rw [hres] at h
        dsimp only at h
        by_cases hr : r = r0 ∧ r < heap.length
        · -- the record itself is resolved
          obtain ⟨hr1, hr2⟩ := hr
          subst hr1
          have hget : (heap.set r data).getD r [] = data := by
            rw [getD_set_obj]; simp [hr2]
          have hk1 : ohas (heap.getD r []) relationKey = true := by
            unfold ohas at hk ⊢
            rw [hsrc]; exact hk
          have hfield : field (heap.getD r []) relationKey = field o0 relationKey := by
            unfold field; rw [hsrc]
          obtain ⟨target, ht, hfound, hnone, hinh⟩ := resolveRelations_field s col.relations _ _
            hres hnd hap relationKey rel hmem hk1 hsome
          rw [hfield] at hfound hnone hinh
          have hdone : Attached s relationKey rel o0 ((heap.set r data).getD r []) := by
            rw [hget]
            exact ⟨target, ht, hfound,
              fun hf hi => (hnone hf hi).trans (hkept target ht hf hi), hinh⟩
          have hsrc1 : oget ((heap.set r data).getD r []) relationKey = oget o0 relationKey := by
            rw [hget, resolveRelations_source s col.relations _ _ hres hap relationKey rel hmem]
            exact hsrc
          have hkept1 : ∀ target, getC s rel.fromCollectionName = some target →
              oget target.data (field o0 relationKey).toKey = none →
              (field o0 relationKey).toKey ∉ inheritedNames →
              oget ((heap.set r data).getD r []) rel.target = oget o0 rel.target := by
            intro target' ht' hf' hi'
            obtain ⟨target2, ht2, _, hnone2, _⟩ := hdone
            rw [ht'] at ht2
            cases ht2
            exact hnone2 hf' hi'
          obtain ⟨h1, _⟩ := ih _ _ _ _ h (by rw [List.length_set]; exact hlen) hsrc1 hkept1
          exact ⟨fun _ => h1 hdone, fun _ _ => h1 hdone⟩
        · -- another record, or no cell to write
          have hget : (heap.set r data).getD r0 [] = heap.getD r0 [] := by
            rw [getD_set_obj]; simp [hr]
          obtain ⟨h1, h2⟩ := ih _ _ _ _ h (by rw [List.length_set]; exact hlen)
            (by rw [hget]; exact hsrc) (by rw [hget]; exact hkept)
          rw [hget] at h1
          refine ⟨h1, ?_⟩
          rintro ⟨x, hx, hx2⟩ hlt
          rcases List.mem_cons.1 hx with rfl | hx
          · rw [hd] at hx2
            cases hx2
            exact absurd ⟨rfl, hlen ▸ hlt⟩ hr
          · exact h2 ⟨x, hx, hx2⟩ hlt

theorem buildGroupFromIndex_eq (s : State) (c index : String) (col : Collection)
    (keys : List Val) (heap : List Obj) (data : List Atom)
    (hc : getC s c = some col) (hi : oget col.indexes index = some keys)
    (hm : mapIndex s col keys s.heap [] = .ok (heap, data)) :
    buildGroupFromIndex s c index
      = .ok (modC { s with trace := s.trace ++ [.rebuild c index], heap := heap } c
          (delivered data index)) := by
  have hc' : getC { s with trace := s.trace ++ [.rebuild c index] } c = some col := hc
  have hm' : mapIndex { s with trace := s.trace ++ [.rebuild c index] } col keys s.heap []
      = .ok (heap, data) :=
    (mapIndex_congr s { s with trace := s.trace ++ [.rebuild c index] } col col (fun _ => rfl)
      rfl rfl keys s.heap []).trans hm
  unfold buildGroupFromIndex
  simp only [hc', hi, hm']
  rfl

theorem buildGroupFromIndex_ok_inv (s s' : State) (c index : String)
    (h : buildGroupFromIndex s c index = .ok s') :
    ∃ col keys heap data, getC s c = some col ∧ oget col.indexes index = some keys
      ∧ mapIndex s col keys s.heap [] = .ok (heap, data)
      ∧ s' = modC { s with trace := s.trace ++ [.rebuild c index], heap := heap } c
          (delivered data index) := by
  cases hc : getC s c with
  | none =>
    have hc' : getC { s with trace := s.trace ++ [.rebuild c index] } c = none := hc
    unfold buildGroupFromIndex at h
    simp only [hc'] at h
    cases h
  | some col =>
    have hc' : getC { s with trace := s.trace ++ [.rebuild c index] } c = some col := hc
    cases hi : oget col.indexes index with
    | none =>
      unfold buildGroupFromIndex at h
      simp only [hc', hi] at h
      cases h
    | some keys =>
      cases hm : mapIndex s col keys s.heap [] with
      | error e =>
        have hm' : mapIndex { s with trace := s.trace ++ [.rebuild c index] } col keys s.heap []
            = .error e :=
          (mapIndex_congr s { s with trace := s.trace ++ [.rebuild c index] } col col
            (fun _ => rfl) rfl rfl keys s.heap []).trans hm
        unfold buildGroupFromIndex at h
        simp only [hc', hi, hm'] at h
        cases h
      | ok res =>
        obtain ⟨heap, data⟩ := res
        rw [buildGroupFromIndex_eq s c index col keys heap data hc hi hm] at h
        cases h
        exact ⟨col, keys, heap, data, rfl, hi, hm, rfl⟩

theorem delivered_idem (data : List Atom) (index : String) (col : Collection) :
    delivered data index (delivered data index col) = delivered data index col := by
  obtain ⟨pk, d, ix, rl, fl, fd, fg, md, itr, ftr, cs, ⟨root, pdata, pfilters, groups, pix⟩⟩ := col
  cases hr : oget root index <;> cases hg : oget groups index <;>
    simp [delivered, deliverUpdate, Public.setNs, ohas, hr, hg, oget_oset, oset_oset_same]

theorem set_getD_self (heap : List Obj) (r : Nat) : heap.set r (heap.getD r []) = heap := by
  induction heap generalizing r with
  | nil => rfl
  | cons a t ih =>
    cases r with
    | zero => rfl
    | succ r =>
      simp only [List.set_cons_succ, List.getD_cons_succ]
      rw [ih]

theorem resolveRelations_fixed_of (s : State) :
    ∀ (rels : List (String × Relation)) (o : Obj), Unshadowed rels →
      (∀ k rel, (k, rel) ∈ rels → ohas o k = true →
        ∃ target, getC s rel.fromCollectionName = some target
          ∧ (∀ f, oget target.data (field o k).toKey = some f →
              oget o rel.target = some (.atom (.ref f)))
          ∧ (oget target.data (field o k).toKey = none →
              (field o k).toKey ∈ inheritedNames →
              oget o rel.target = some (.atom (.native (field o k).toKey)))) →
      resolveRelations s rels o = some o := by
  intro rels
  induction rels with
  | nil => intro o _ _; rfl
  | cons e rest ih =>
    intro o hun h
    obtain ⟨k0, rel0⟩ := e
    have hrest := ih o (fun e he => hun e (List.mem_cons_of_mem _ he))
      (fun k rel hm => h k rel (List.mem_cons_of_mem _ hm))
    have hun0 : ohas rel0.props "hasOwnProperty" = false :=
      hun (k0, rel0) (List.mem_cons_self _ _)
    rw [resolveRelations]
    simp only [hun0, Bool.false_eq_true, if_false]
    by_cases hk : ohas o k0 = true
    · obtain ⟨target, ht, hf, hn⟩ := h k0 rel0 (List.mem_cons_self _ _) hk
      simp only [hk, if_true, ht]
      cases hl : oget target.data (field o k0).toKey with
      | none =>
        dsimp only
        split
        · rename_i hin
          rw [oset_same _ _ _ (hn hl hin)]
          exact hrest
        · exact hrest
      | some f =>
        dsimp only
        rw [oset_same _ _ _ (hf f hl)]
        exact hrest
    · simp only [hk]
      exact hrest

theorem resolveRelations_idem (s : State) (rels : List (String × Relation)) (data data' : Obj)
    (hcols : ∀ e ∈ rels, (getC s e.2.fromCollectionName).isSome = true)
    (h : resolveRelations s rels data = some data') (hnd : (relationTargets rels).Nodup)
    (hap : TargetsApart rels) : resolveRelations s rels data' = some data' := by
  apply resolveRelations_fixed_of s rels data' (resolveRelations_unshadowed s rels data data' h)
  intro k rel hm hk
  have hsrc := resolveRelations_source s rels data data' h hap k rel hm
  have hk0 : ohas data k = true := by
    unfold ohas at hk ⊢
    rw [← hsrc]; exact hk
  obtain ⟨target, ht, hfound, _, hinh⟩ := resolveRelations_field s rels data data' h hnd hap k rel
    hm hk0 (hcols (k, rel) hm)
  have hfield : field data' k = field data k := by
    unfold field; rw [hsrc]
  rw [hfield]
  exact ⟨target, ht, hfound, hinh⟩

theorem mapIndex_fixed (s : State) (col : Collection)
    (hcols : ∀ e ∈ col.relations, (getC s e.2.fromCollectionName).isSome = true)
    (hnd : (relationTargets col.relations).Nodup) (hap : TargetsApart col.relations) :
    ∀ (keys : List Val) (heap : List Obj) (out : List Atom) (heap' : List Obj)
      (out' : List Atom), mapIndex s col keys heap out = .ok (heap', out') →
      (∀ r, resolveRelations s col.relations (heap.getD r []) = some (heap.getD r []) →
        resolveRelations s col.relations (heap'.getD r []) = some (heap'.getD r []))
      ∧ ∀ id ∈ keys, ∀ r, oget col.data id.toKey = some r →
        resolveRelations s col.relations (heap'.getD r []) = some (heap'.getD r []) := by
  intro keys
  induction keys with
  | nil =>
    intro heap out heap' out' h
    simp only [mapIndex, Except.ok.injEq, Prod.mk.injEq] at h
    obtain ⟨h1, _⟩ := h
    subst h1
    exact ⟨fun _ h => h, fun _ hx => absurd hx (List.not_mem_nil _)⟩
  | cons id rest ih =>
    intro heap out heap' out' h
    rw [mapIndex] at h
    cases hd : oget col.data id.toKey with
    | none =>
      rw [hd] at h
      dsimp only at h
      have hnone : ∀ out1, mapIndex s col rest heap out1 = .ok (heap', out') →
          (∀ r, resolveRelations s col.relations (heap.getD r []) = some (heap.getD r []) →
            resolveRelations s col.relations (heap'.getD r []) = some (heap'.getD r []))
          ∧ ∀ id' ∈ id :: rest, ∀ r, oget col.data id'.toKey = some r →
            resolveRelations s col.relations (heap'.getD r []) = some (heap'.getD r []) := by
        intro out1 h
        obtain ⟨h1, h2⟩ := ih _ _ _ _ h
        refine ⟨h1, ?_⟩
        intro x hx r hxr
        rcases List.mem_cons.1 hx with rfl | hx
        · rw [hd] at hxr; cases hxr
        · exact h2 x hx r hxr
      split at h
      · split at h
        · cases h
        · exact hnone _ h
      · split at h
        · exact hnone _ h
        · cases h
    | some r =>
      rw [hd] at h
      dsimp only at h
      cases hres : resolveRelations s col.relations (heap.getD r []) with
      | none => rw [hres] at h; cases h
      | some data =>
        rw [hres] at h
        dsimp only at h
        obtain ⟨h1, h2⟩ := ih _ _ _ _ h
        have hdata := resolveRelations_idem s col.relations _ _ hcols hres hnd hap
        have hnil : resolveRelations s col.relations [] = some [] :=
          resolveRelations_fixed_of s col.relations []
            (resolveRelations_unshadowed s _ _ _ hres)
            (fun k rel _ hk => by simp [ohas, oget] at hk)
        have hstep : ∀ r', resolveRelations s col.relations (heap.getD r' []) = some (heap.getD r' []) →
            resolveRelations s col.relations ((heap.set r data).getD r' [])
              = some ((heap.set r data).getD r' []) := by
          intro r' hr'
          rw [getD_set_obj]
          split
          · exact hdata
          · exact hr'
        have hself : resolveRelations s col.relations ((heap.set r data).getD r [])
            = some ((heap.set r data).getD r []) := by
          rw [getD_set_obj]
          by_cases hlt : r < heap.length
          · simp only [hlt, and_self, if_true]; exact hdata
          · simp only [hlt, and_false, if_false]
            rw [List.getD_eq_default _ _ (Nat.le_of_not_lt hlt)]
            exact hnil
        refine ⟨fun r' hr' => h1 r' (hstep r' hr'), ?_⟩
        intro x hx r' hxr
        rcases List.mem_cons.1 hx with rfl | hx
        · rw [hd] at hxr
          cases hxr
          exact h1 r hself
        · exact h2 x hx r' hxr

theorem mapIndex_noop (s : State) (col : Collection) :
    ∀ (keys : List Val) (heap : List Obj) (out : List Atom),
      (∀ id ∈ keys, (oget col.data id.toKey).isSome = true ∨ col.relations.length = 0
        ∨ id.toKey ∈ inheritedNames) →
      (keys ≠ [] → Unshadowed col.relations) →
      (∀ id ∈ keys, ∀ r, oget col.data id.toKey = some r →
        resolveRelations s col.relations (heap.getD r []) = some (heap.getD r [])) →
      mapIndex s col keys heap out = .ok (heap, out ++ keys.map (atomOf col.data)) := by
  intro keys
  induction keys with
  | nil => intro heap out _ _ _; simp [mapIndex]
  | cons id rest ih =>
    intro heap out hkeys hun hfix
    have hun0 : Unshadowed col.relations := hun (List.cons_ne_nil _ _)
    have hrest := fun out => ih heap out (fun x hx => hkeys x (List.mem_cons_of_mem _ hx))
      (fun _ => hun0) (fun x hx => hfix x (List.mem_cons_of_mem _ hx))
    rw [mapIndex]
    cases hd : oget col.data id.toKey with
    | none =>
      dsimp only
      by_cases hin : id.toKey ∈ inheritedNames
      · rw [if_pos hin]
        have hany : ¬ (col.relations.any fun e => ohas e.2.props "hasOwnProperty") = true := by
          rw [List.any_eq_true]
          rintro ⟨e, he, hh⟩
          rw [hun0 e he] at hh
          cases hh
        rw [if_neg hany, hrest]
        simp [atomOf, hd, hin]
      · rw [if_neg hin]
        rcases hkeys id (List.mem_cons_self _ _) with h | h | h
        · rw [hd] at h; simp at h
        · rw [if_pos h, hrest]
          simp [atomOf, hd, hin]
        · exact absurd h hin
    | some r =>
      dsimp only
      rw [hfix id (List.mem_cons_self _ _) r hd]
      dsimp only
      rw [set_getD_self, hrest]
      simp [atomOf, hd]

theorem targetsIn_own (s : State) (c : String) :
    TargetsIn (relationTargets ((getC s c).elim [] fun col => col.relations)) s c := by
  intro col hcol e he
  rw [hcol]
  exact List.mem_map_of_mem (fun e => e.2.target) he

theorem getGroup_keeps (T : List String) (s : State) (c id : String) (hT : TargetsIn T s c) :
    Keeps T s (getGroup s c id).state := by
  unfold getGroup
  split
  · exact Keeps.refl T s
  · split
    · exact buildGroupFromIndex_keeps T s c id hT
    · exact Keeps.refl T s

/-! ## The primary key through the record store calls -/

theorem continues_refl (c : String) (s : State) : Continues c s s := rfl

theorem continues_trans {c : String} {s1 s2 s3 : State} (h12 : Continues c s1 s2)
    (h23 : Continues c s2 s3) : Continues c s1 s3 :=
  Eq.trans h23 h12

theorem continues_of_keeps {T : List String} {s s' : State} (c : String) (h : Keeps T s s') :
    Continues c s s' := by
  unfold Continues
  have hs := h.store c
  cases h1 : getC s c <;> cases h2 : getC s' c <;> rw [h1, h2] at hs <;>
    simp [Collection.store] at hs ⊢
  exact hs.1

theorem internalDataModified_continues (fuel : Nat) (s : State) (c : String) (primaryKey : Val) :
    Continues c s (internalDataModified fuel s c primaryKey).state :=
  continues_of_keeps c (internalDataModified_keeps _ fuel s c primaryKey (targetsIn_own s c))

theorem buildGroupFromIndex_continues (s : State) (c index : String) :
    Continues c s (buildGroupFromIndex s c index).state :=
  continues_of_keeps c (buildGroupFromIndex_keeps _ s c index (targetsIn_own s c))

theorem update_continues (fuel : Nat) (s : State) (c : String) (id : Val) (p : Obj) :
    Continues c s (update fuel s c id p).state := by
  unfold update
  split
  · exact continues_refl c s
  · rename_i ref _
    dsimp only
    refine continues_trans ?_ (internalDataModified_continues fuel _ c id)
    exact rfl

theorem deleteFunction_continues (fuel : Nat) (s : State) (c : String) (primaryKey : Val) :
    Continues c s (deleteFunction fuel s c primaryKey).state := by
  unfold deleteFunction
  dsimp only
  have h1 : Continues c s (modC s c fun col => { col with data := odel col.data primaryKey.toKey }) := by
    unfold Continues
    rw [getC_modC]
    simp only [if_true]
    cases getC s c <;> rfl
  refine continues_trans (continues_trans h1 ?_) (internalDataModified_continues fuel _ c primaryKey)
  exact rfl

theorem delete_continues (fuel : Nat) (c : String) :
    ∀ (items : List Val) (s : State), Continues c s (delete fuel c s items).state := by
  intro items
  induction items with
  | nil => intro s; exact continues_refl c s
  | cons k rest ih =>
    intro s
    have h1 := deleteFunction_continues fuel s c k
    rw [delete]
    cases h : deleteFunction fuel s c k with
    | error s1 => rw [h] at h1; exact h1
    | ok s1 =>
      rw [h] at h1
      exact continues_trans h1 (ih s1)

theorem moveLoop_primaryKey (A B : String) :
    ∀ (ids : List Val) (col : Collection) (res : Except Collection (Collection × Bool)),
      moveLoop A B col ids = res →
      match res with
      | .error col1 => col1.primaryKey = col.primaryKey
      | .ok (col1, _) => col1.primaryKey = col.primaryKey := by
  intro ids
  induction ids with
  | nil => intro col res h; rw [moveLoop] at h; subst h; rfl
  | cons id rest ih =>
    intro col res h
    rw [moveLoop] at h
    split at h
    · subst h; rfl
    · split at h
      · subst h; rfl
      · dsimp only at h
        split at h
        · subst h; rfl
        · have := ih _ res h
          cases res with
          | error col1 => exact this
          | ok r => exact this

theorem putLoop_primaryKey (B : String) :
    ∀ (ids : List Val) (col : Collection) (res : Except Collection (Collection × Bool)),
      putLoop B col ids = res →
      match res with
      | .error col1 => col1.primaryKey = col.primaryKey
      | .ok (col1, _) => col1.primaryKey = col.primaryKey := by
  intro ids
  induction ids with
  | nil => intro col res h; rw [putLoop] at h; subst h; rfl
  | cons id rest ih =>
    intro col res h
    rw [putLoop] at h
    split at h
    · subst h; rfl
    · split at h
      · subst h; rfl
      · have := ih _ res h
        cases res with
        | error col1 => exact this
        | ok r => exact this

theorem setC_continues (s : State) (c : String) (col col' : Collection)
    (hc : getC s c = some col) (hpk : col'.primaryKey = col.primaryKey) :
    Continues c s (setC s c col') := by
  unfold Continues
  rw [getC_setC_sync, hc]
  simp [hpk]

theorem move_continues (fuel : Nat) (s : State) (c : String) (ids : List Val) (A B : String) :
    Continues c s (move fuel s c ids A B).state := by
  unfold move
  split
  · exact continues_refl c s
  · rename_i col hc
    split
    · exact continues_refl c s
    · split
      · exact continues_refl c s
      · have hpk := moveLoop_primaryKey A B ids col _ rfl
        split
        · rename_i col1 hl
          rw [hl] at hpk
          exact setC_continues s c col col1 hc hpk
        · rename_i col1 stopped hl
          rw [hl] at hpk
          have h1 := setC_continues s c col col1 hc hpk
          dsimp only
          split
          · exact h1
          · have h2 := buildGroupFromIndex_continues (setC s c col1) c A
            split
            · rename_i s2 hs2
              rw [hs2] at h2
              exact continues_trans h1 h2
            · rename_i s2 hs2
              rw [hs2] at h2
              have h3 := buildGroupFromIndex_continues s2 c B
              split
              · rename_i s3 hs3
                rw [hs3] at h3
                exact continues_trans h1 (continues_trans h2 h3)
              · rename_i s3 hs3
                rw [hs3] at h3
                have h4 : Continues c s3 { s3 with history := s3.history ++
                    [{ collection := c, data := .move ids A B }] } := rfl
                exact continues_trans h1 (continues_trans h2 (continues_trans h3
                  (continues_trans h4 (continues_of_keeps c
                    (findAndUpdateDependentsOfAll_keeps [] fuel _ c [A, B])))))

theorem put_continues (fuel : Nat) (s : State) (c : String) (ids : List Val) (B : String) :
    Continues c s (put fuel s c ids B).state := by
  unfold put
  split
  · exact continues_refl c s
  · rename_i col hc
    split
    · exact continues_refl c s
    · have hpk := putLoop_primaryKey B ids col _ rfl
      split
      · rename_i col1 hl
        rw [hl] at hpk
        exact setC_continues s c col col1 hc hpk
      · rename_i col1 stopped hl
        rw [hl] at hpk
        have h1 := setC_continues s c col col1 hc hpk
        dsimp only
        split
        · exact h1
        · have h2 := buildGroupFromIndex_continues (setC s c col1) c B
          split
          · rename_i s2 hs2
            rw [hs2] at h2
            exact continues_trans h1 h2
          · rename_i s2 hs2
            rw [hs2] at h2
            have h4 : Continues c s2 { s2 with history := s2.history ++
                [{ collection := c, data := .put ids ((oget col.indexes B).getD []) }] } := rfl
            exact continues_trans h1 (continues_trans h2 (continues_trans h4
              (continues_of_keeps c (findAndUpdateDependents_keeps [] fuel _ c B))))

theorem continues_primaryKey {c : String} {s s' : State} (h : Continues c s s')
    (col : Collection) (hc : getC s c = some col) :
    ∃ col', getC s' c = some col' ∧ col'.primaryKey = col.primaryKey := by
  have h2 : (getC s' c).map (fun col => col.primaryKey)
      = (getC s c).map fun col => col.primaryKey := h
  rw [hc] at h2
  cases hc' : getC s' c with
  | none => rw [hc'] at h2; simp at h2
  | some col' =>
    rw [hc'] at h2
    exact ⟨col', rfl, by simpa using h2⟩

theorem processDataItems_primaryKey (c : String) (index : Option String) :
    ∀ (data : List Obj) (s : State) (col : Collection), getC s c = some col →
      noPrimaryKey col = false →
      ∃ col', getC (processDataItems c index s data).state c = some col'
        ∧ col'.primaryKey = col.primaryKey := by
  intro data
  induction data with
  | nil => intro s col hc _; exact ⟨col, hc, rfl⟩
  | cons item rest ih =>
    intro s col hc hn
    obtain ⟨col1, hc1, hpk1⟩ := processDataItem_primaryKey s c col item index hc
    rw [hn] at hpk1
    simp only [Bool.false_eq_true, if_false] at hpk1
    rw [processDataItems]
    cases hp : processDataItem s c item index with
    | error s1 =>
      rw [hp] at hc1
      exact ⟨col1, hc1, hpk1⟩
    | ok s1 =>
      rw [hp] at hc1
      have hn1 : noPrimaryKey col1 = false := by
        unfold noPrimaryKey at hn ⊢
        rw [hpk1]; exact hn
      obtain ⟨col2, hc2, hpk2⟩ := ih s1 col1 hc1 hn1
      exact ⟨col2, hc2, hpk2.trans hpk1⟩

theorem collect_primaryKey (fuel : Nat) (s : State) (c : String) (col : Collection)
    (data : List Obj) (index : Option String) (hc : getC s c = some col)
    (hn : noPrimaryKey col = false) :
    ∃ col', getC (collect fuel s c data index).state c = some col'
      ∧ col'.primaryKey = col.primaryKey := by
  have key : ∀ (s0 : State) (entry : HistoryItem),
      (∃ col0, getC s0 c = some col0 ∧ col0.primaryKey = col.primaryKey) →
      ∃ col', getC (Result.state (match processDataItems c index s0 data with
          | .error s1 => Except.error s1
          | .ok s1 =>
            regenerateGroupsAndFilters fuel { s1 with history := s1.history ++ [entry] } c)) c
          = some col' ∧ col'.primaryKey = col.primaryKey := by
    intro s0 entry h0
    obtain ⟨col0, hc0, hpk0⟩ := h0
    have hn0 : noPrimaryKey col0 = false := by
      unfold noPrimaryKey at hn ⊢
      rw [hpk0]; exact hn
    obtain ⟨col1, hc1, hpk1⟩ := processDataItems_primaryKey c index data s0 col0 hc0 hn0
    cases hp : processDataItems c index s0 data with
    | error s1 =>
      rw [hp] at hc1
      exact ⟨col1, hc1, hpk1.trans hpk0⟩
    | ok s1 =>
      rw [hp] at hc1
      dsimp only
      have hk := continues_of_keeps c (regenerateGroupsAndFilters_keeps _ fuel
        { s1 with history := s1.history ++ [entry] } c (targetsIn_own _ c))
      obtain ⟨col2, hc2, hpk2⟩ := continues_primaryKey hk col1 hc1
      exact ⟨col2, hc2, hpk2.trans (hpk1.trans hpk0)⟩
  unfold collect
  dsimp only
  apply key
  split
  · rw [getC_modC, hc]
    simp only [if_true, Option.map_some']
    exact ⟨_, rfl, rfl⟩
  · exact ⟨col, hc, rfl⟩

theorem chainState_executes (t : State) (e : Entry)
    (hI : SameProgram chainState t ∧ "cB" ∈ t.generatedFilters)
    (he : e ∈ [(⟨"c", "B"⟩ : Entry), ⟨"c", "A"⟩]) :
    ∃ t', executeAndAnalyseFilter t e.collection e.property = .ok t'
      ∧ t'.regenQueue = t.regenQueue
      ∧ (SameProgram chainState t' ∧ "cB" ∈ t'.generatedFilters) := by
  obtain ⟨⟨h1, h2, h3, h4⟩, hgen⟩ := hI
  have hc : getC t "c" = some chainCollection := by
    show oget t.collections "c" = _
    rw [h1]; rfl
  have hall : t.allFilters = ["B", "A"] := h3
  simp only [List.mem_cons, List.mem_singleton, List.not_mem_nil, or_false] at he
  rcases he with rfl | rfl
  · have hrun : (FilterProg.read "c" .root "D" fun x => .ret (id x)).run t []
        = some (nv 1, [⟨"c", "D"⟩]) :=
      (FilterProg.run_congr chainState t h1 h2 _ []).trans rfl
    have hspec := executeAndAnalyseFilter_spec t "c" "B" chainCollection _ (nv 1) [⟨"c", "D"⟩]
      hc rfl hrun
    have hany : ([⟨"c", "D"⟩] : List Entry).any (isMissingDependency t) = false := by
      simp [isMissingDependency, hall]
    have hpop : populateDependencies "c" "B" t.dependencyGraph [⟨"c", "D"⟩]
        = .ok chainState.dependencyGraph := by
      rw [h4]; rfl
    rw [hany, hpop] at hspec
    refine ⟨_, hspec, rfl, ⟨?_, h2, h3, rfl⟩, List.mem_append_left _ hgen⟩
    show oset t.collections "c" _ = chainState.collections
    rw [h1]; rfl
  · have hrun : (FilterProg.read "c" .filters "B" fun x => .ret (id x)).run t []
        = some (nv 1, [⟨"c", "B"⟩]) :=
      (FilterProg.run_congr chainState t h1 h2 _ []).trans rfl
    have hspec := executeAndAnalyseFilter_spec t "c" "A" chainCollection _ (nv 1) [⟨"c", "B"⟩]
      hc rfl hrun
    have hany : ([⟨"c", "B"⟩] : List Entry).any (isMissingDependency t) = false := by
      simp [isMissingDependency, hall, hgen]
    have hpop : populateDependencies "c" "A" t.dependencyGraph [⟨"c", "B"⟩]
        = .ok chainState.dependencyGraph := by
      rw [h4]; rfl
    rw [hany, hpop] at hspec
    refine ⟨_, hspec, rfl, ⟨?_, h2, h3, rfl⟩, List.mem_append_left _ hgen⟩
    show oset t.collections "c" _ = chainState.collections
    rw [h1]; rfl

/-! ## The keys `populateDependencies` writes name nodes -/

theorem setNode_declared (F : String → String → Prop) (g : Graph) (c p : String)
    (n n0 : GraphNode) (h : nodeOf g c p = some n0) (hJ : DependentsDeclared F g)
    (hn : ∀ k ∈ n.dependents, k ∈ n0.dependents
      ∨ ∃ c' f, k = c' ++ "/" ++ f ∧ F c' f ∧ (nodeOf g c' f).isSome = true) :
    DependentsDeclared F (setNode g c p n) := by
  have hsome : ∀ c' f, (nodeOf g c' f).isSome = true →
      (nodeOf (setNode g c p n) c' f).isSome = true := by
    intro c' f hf
    rw [nodeOf_setNode g c p n n0 c' f h]
    split
    · rfl
    · exact hf
  intro c1 p1 n1 k hn1 hk
  rw [nodeOf_setNode g c p n n0 c1 p1 h] at hn1
  have hold : ∀ (m : GraphNode) (cm pm : String), nodeOf g cm pm = some m → k ∈ m.dependents →
      ∃ c' f, k = c' ++ "/" ++ f ∧ F c' f ∧ (nodeOf (setNode g c p n) c' f).isSome = true := by
    intro m cm pm hm hkm
    obtain ⟨c', f, e1, e2, e3⟩ := hJ cm pm m k hm hkm
    exact ⟨c', f, e1, e2, hsome c' f e3⟩
  split at hn1
  · cases hn1
    rcases hn k hk with h0 | ⟨c', f, e1, e2, e3⟩
    · exact hold n0 c p h h0
    · exact ⟨c', f, e1, e2, hsome c' f e3⟩
  · exact hold n1 c1 p1 hn1 hk

theorem populateDependencies_declared (F : String → String → Prop) (c filter : String)
    (hF : F c filter) (found : List Entry) :
    ∀ g : Graph, DependentsDeclared F g →
      DependentsDeclared F (graphAfter (populateDependencies c filter g found)) := by
  induction found with
  | nil => intro g hJ; exact hJ
  | cons dependency rest ih =>
    intro g hJ
    rw [populateDependencies]
    cases h1 : nodeOf g c filter with
    | none => exact hJ
    | some location1 =>
      dsimp only
      have hg1 : DependentsDeclared F (if dependency.collection ++ "/" ++ dependency.property
            ∈ location1.dependencies then g
          else setNode g c filter { location1 with
            dependencies := location1.dependencies
              ++ [dependency.collection ++ "/" ++ dependency.property] })
          ∧ (nodeOf (if dependency.collection ++ "/" ++ dependency.property
            ∈ location1.dependencies then g
          else setNode g c filter { location1 with
            dependencies := location1.dependencies
              ++ [dependency.collection ++ "/" ++ dependency.property] }) c filter).isSome
            = true := by
        split
        · exact ⟨hJ, by rw [h1]; rfl⟩
        · refine ⟨setNode_declared F g c filter _ location1 h1 hJ (fun k hk => Or.inl hk), ?_⟩
          rw [nodeOf_setNode g c filter _ location1 c filter h1]
          simp
      generalize (if dependency.collection ++ "/" ++ dependency.property
            ∈ location1.dependencies then g
          else setNode g c filter { location1 with
            dependencies := location1.dependencies
              ++ [dependency.collection ++ "/" ++ dependency.property] }) = g1 at hg1 ⊢
      cases hm : oget g1 dependency.collection with
      | none => exact hg1.1
      | some m =>
        dsimp only
        cases hp : oget m dependency.property with
        | none => exact ih g1 hg1.1
        | some location2 =>
          dsimp only
          have h2 : nodeOf g1 dependency.collection dependency.property = some location2 := by
            unfold nodeOf; rw [hm]; exact hp
          apply ih
          split
          · exact hg1.1
          · refine setNode_declared F g1 dependency.collection dependency.property _ location2 h2
              hg1.1 ?_
            intro k hk
            rcases List.mem_append.1 hk with hk | hk
            · exact Or.inl hk
            · right
              rw [List.mem_singleton.1 hk]
              exact ⟨c, filter, rfl, hF, hg1.2⟩

theorem emptyNodes_oget (names : List String) :
    ∀ (m0 : List (String × GraphNode)),
      (∀ p n, oget m0 p = some n → n.dependents = []) →
      ∀ p n, oget (names.foldl
        (fun m item => oset m item { dependencies := [], dependents := [] }) m0) p = some n →
        n.dependents = [] := by
  induction names with
  | nil => intro m0 h; exact h
  | cons a t ih =>
    intro m0 h
    apply ih
    intro p n hpn
    rw [oget_oset] at hpn
    split at hpn
    · cases hpn; rfl
    · exact h p n hpn

theorem prepareDependencyGraph_fold (cs : List (String × Collection)) :
    ∀ (g0 : Graph),
      (∀ c m, oget g0 c = some m → ∀ p n, oget m p = some n → n.dependents = []) →
      ∀ c m, oget (cs.foldl (fun g (entry : String × Collection) =>
          oset g entry.1
            ((okeys entry.2.pub.filters ++ okeys entry.2.pub.groups ++ okeys entry.2.pub.data).foldl
              (fun m item => oset m item { dependencies := [], dependents := [] }) [])) g0) c
          = some m →
        ∀ p n, oget m p = some n → n.dependents = [] := by
  induction cs with
  | nil => intro g0 h; exact h
  | cons e t ih =>
    intro g0 h
    apply ih
    intro c m hcm
    rw [oget_oset] at hcm
    split at hcm
    · cases hcm
      exact emptyNodes_oget _ [] (fun p n hpn => by simp [oget] at hpn)
    · exact h c m hcm

theorem prepareDependencyGraph_declared (F : String → String → Prop)
    (cs : List (String × Collection)) : DependentsDeclared F (prepareDependencyGraph cs) := by
  intro c p n k hn hk
  unfold nodeOf at hn
  cases hm : oget (prepareDependencyGraph cs) c with
  | none => rw [hm] at hn; cases hn
  | some m =>
    rw [hm] at hn
    have := prepareDependencyGraph_fold cs [] (fun c m h => by simp [oget] at h) c m hm p n hn
    rw [this] at hk
    cases hk

theorem graphReach_declared (F : String → String → Prop) (g0 g : Graph)
    (h0 : DependentsDeclared F g0) (h : GraphReach F g0 g) : DependentsDeclared F g := by
  induction h with
  | init => exact h0
  | step g c filter found hF _ ih => exact populateDependencies_declared F c filter hF found g ih

theorem dependentsDeclared_named (F : String → String → Prop) (g : Graph)
    (hJ : DependentsDeclared F g)
    (hslash : ∀ c f, F c f → '/' ∉ c.data ∧ '/' ∉ f.data) : DependentsNamed g := by
  intro c p n k hn hk
  obtain ⟨c', f, e1, e2, e3⟩ := hJ c p n k hn hk
  obtain ⟨s1, s2⟩ := hslash c' f e2
  unfold dependentsOfKey
  dsimp only
  rw [e1, parseKey_key c' f s1 s2]
  cases h : nodeOf g c' f with
  | none => rw [h] at e3; simp at e3
  | some m => rfl

theorem enqueue_firstOccurrences :
    ∀ (l : List String) (q : List Entry),
      enqueue q l = q ++ (firstOccurrences (l.map parseKey)).filter fun x => x ∉ q := by
  intro l
  induction l with
  | nil => intro q; simp [enqueue, firstOccurrences]
  | cons f rest ih =>
    intro q
    rw [enqueue]
    simp only [List.map_cons, firstOccurrences]
    by_cases hq : parseKey f ∈ q
    · simp only [hq, if_true]
      rw [ih q, List.filter_cons]
      simp only [hq, not_true_eq_false, decide_False, Bool.false_eq_true, if_false]
      rw [List.filter_filter]
      congr 1
      apply List.filter_congr
      intro x _
      by_cases hx : x ∈ q
      · simp [hx]
      · have : x ≠ parseKey f := fun h => hx (h ▸ hq)
        simp [hx, this]
    · simp only [hq, if_false]
      rw [ih (q ++ [parseKey f]), List.filter_cons]
      simp only [hq, not_false_eq_true, decide_True, if_true]
      rw [List.filter_filter, List.append_assoc]
      congr 1
      rw [List.singleton_append]
      congr 1
      apply List.filter_congr
      intro x _
      by_cases hx : x ∈ q <;> by_cases hx2 : x = parseKey f <;> simp [hx, hx2]

theorem findLoop_rounds (g : Graph) (start : List String) :
    ∀ (fuel loops : Nat) (last found all : List String),
      findLoop g fuel loops last found = some all →
      levelKeys g start loops = some last →
      ∃ rounds : List (List String), all = found ++ rounds.flatten
        ∧ ∀ j, j < rounds.length → levelKeys g start (loops + 1 + j) = rounds[j]? := by
  intro fuel
  induction fuel with
  | zero =>
    intro loops last found all h _
    simp only [findLoop, Option.some.injEq] at h
    exact ⟨[], by simp [h], fun j hj => absurd hj (Nat.not_lt_zero j)⟩
  | succ fuel ih =>
    intro loops last found all h hlast
    rw [findLoop] at h
    cases hx : expandRound g last with
    | none => rw [hx] at h; cases h
    | some next =>
      rw [hx] at h
      dsimp only at h
      have hlev : levelKeys g start (loops + 1) = some next := by
        rw [levelKeys, hlast]; exact hx
      have hone : ∀ j, j < [next].length → levelKeys g start (loops + 1 + j) = [next][j]? := by
        intro j hj
        have : j = 0 := by simpa using hj
        subst this
        simpa using hlev
      split at h
      · cases h
        exact ⟨[next], by simp, hone⟩
      · split at h
        · obtain ⟨rounds, h1, h2⟩ := ih (loops + 1) next (found ++ next) all h hlev
          refine ⟨next :: rounds, by rw [h1]; simp, ?_⟩
          intro j hj
          cases j with
          | zero => simpa using hlev
          | succ j =>
            have := h2 j (by simpa using hj)
            rw [show loops + 1 + (j + 1) = loops + 1 + 1 + j by omega]
            simpa using this
        · cases h
          exact ⟨[next], by simp, hone⟩

theorem expandRound_double (g : Graph) (P Q : String → Prop)
    (h : ∀ k, P k → ∃ ds, dependentsOfKey g k = some ds ∧ ds.length = 2 ∧ ∀ d ∈ ds, Q d) :
    ∀ l : List String, (∀ k ∈ l, P k) →
      ∃ next, expandRound g l = some next ∧ next.length = 2 * l.length ∧ ∀ d ∈ next, Q d := by
  intro l
  induction l with
  | nil => intro _; exact ⟨[], rfl, rfl, by simp⟩
  | cons dep rest ih =>
    intro hl
    obtain ⟨ds, h1, h2, h3⟩ := h dep (hl dep (List.mem_cons_self _ _))
    obtain ⟨more, k1, k2, k3⟩ := ih fun k hk => hl k (List.mem_cons_of_mem _ hk)
    refine ⟨ds ++ more, ?_, ?_, ?_⟩
    · rw [expandRound, h1, k1]
    · rw [List.length_append, h2, k2, List.length_cons]; omega
    · intro d hd
      rcases List.mem_append.1 hd with hd | hd
      · exact h3 d hd
      · exact k3 d hd

theorem levelKeys_double (g : Graph) (start : List String) (P : Nat → String → Prop) (D : Nat)
    (hstep : ∀ j, j < D → ∀ k, P j k →
      ∃ ds, dependentsOfKey g k = some ds ∧ ds.length = 2 ∧ ∀ d ∈ ds, P (j + 1) d)
    (h0 : ∀ k ∈ start, P 0 k) :
    ∀ j, j ≤ D → ∃ l, levelKeys g start j = some l ∧ l.length = start.length * 2 ^ j
      ∧ ∀ k ∈ l, P j k := by
  intro j
  induction j with
  | zero => intro _; exact ⟨start, rfl, by simp, h0⟩
  | succ j ih =>
    intro hj
    obtain ⟨l, h1, h2, h3⟩ := ih (by omega)
    obtain ⟨next, k1, k2, k3⟩ := expandRound_double g (P j) (P (j + 1)) (hstep j (by omega)) l h3
    refine ⟨next, ?_, ?_, k3⟩
    · rw [levelKeys, h1]; exact k1
    · rw [k2, h2, Nat.pow_succ]; ring

theorem levelKeys_shift (g : Graph) (last : List String) :
    ∀ i, levelKeys g last (i + 1) = (expandRound g last).bind fun next => levelKeys g next i := by
  intro i
  induction i with
  | zero =>
    show expandRound g last = _
    cases expandRound g last <;> rfl
  | succ i ih =>
    rw [levelKeys, ih]
    cases expandRound g last with
    | none => rfl
    | some next => rfl

theorem findLoop_level_length (g : Graph) :
    ∀ (i fuel loops : Nat) (last pre all l : List String),
      findLoop g fuel loops last (pre ++ last) = some all →
      levelKeys g last i = some l → l ≠ [] → i ≤ fuel → loops + i ≤ 1000 →
      l.length ≤ all.length := by
  intro i
  induction i with
  | zero =>
    intro fuel loops last pre all l h hl _ _ _
    cases hl
    obtain ⟨rest, hrest⟩ := findLoop_extends g _ _ _ _ _ h
    rw [hrest]
    simp only [List.length_append]
    omega
  | succ i ih =>
    intro fuel loops last pre all l h hl hne hf hloops
    obtain ⟨f, rfl⟩ : ∃ f, fuel = f + 1 := ⟨fuel - 1, by omega⟩
    rw [levelKeys_shift] at hl
    rw [findLoop] at h
    cases hx : expandRound g last with
    | none => rw [hx] at h; cases h
    | some next =>
      rw [hx] at h hl
      dsimp only at h
      have hl2 : levelKeys g next i = some l := hl
      rw [if_neg (by omega)] at h
      have hnext : next.length ≠ 0 := by
        intro h0
        have hnil : next = [] := List.length_eq_zero.1 h0
        rw [hnil] at hl2
        have := levelKeys_nil g [] 0 rfl i
        rw [Nat.zero_add, hl2] at this
        exact hne (Option.some.inj this)
      rw [if_pos hnext] at h
      exact ih f (loops + 1) next (pre ++ last) all l h hl2 hne (by omega) (by omega)

theorem cliqueGraph_step :
    ∀ k, k ∈ ["c/A", "c/B", "c/C"] →
      ∃ ds, dependentsOfKey cliqueGraph k = some ds ∧ ds.length = 2
        ∧ ∀ d ∈ ds, d ∈ ["c/A", "c/B", "c/C"] := by
  intro k hk
  simp only [List.mem_cons, List.mem_singleton, List.not_mem_nil, or_false] at hk
  rcases hk with rfl | rfl | rfl
  · exact ⟨["c/B", "c/C"], rfl, rfl, by simp⟩
  · exact ⟨["c/A", "c/C"], rfl, rfl, by simp⟩
  · exact ⟨["c/A", "c/B"], rfl, rfl, by simp⟩

theorem ladderGraph_rungs :
    ((List.range 31).all fun j =>
      (ladderRung j).all fun k => dependentsOfKey ladderGraph k == some (ladderRung (j + 1)))
      = true := by
  rfl

theorem oget_mem {α : Type} : ∀ (o : List (String × α)) (k : String) (v : α),
    oget o k = some v → (k, v) ∈ o := by
  intro o
  induction o with
  | nil => intro k v h; cases h
  | cons e t ih =>
    intro k v h
    obtain ⟨k', v'⟩ := e
    simp only [oget] at h
    split at h
    · cases h
      rename_i hk
      subst hk
      exact List.mem_cons_self _ _
    · exact List.mem_cons_of_mem _ (ih k v h)

theorem dependentsNamedCheck_sound (g : Graph) (h : dependentsNamedCheck g = true) :
    DependentsNamed g := by
  intro c p n k hn hk
  unfold nodeOf at hn
  cases hm : oget g c with
  | none => rw [hm] at hn; cases hn
  | some m =>
    rw [hm] at hn
    have h1 := oget_mem g c m hm
    have h2 := oget_mem m p n hn
    unfold dependentsNamedCheck at h
    rw [List.all_eq_true] at h
    have h3 := h (c, m) h1
    rw [List.all_eq_true] at h3
    have h4 := h3 (p, n) h2
    rw [List.all_eq_true] at h4
    exact h4 k hk

theorem ladderGraph_last :
    ((ladderRung 31).all fun k => dependentsOfKey ladderGraph k == some []) = true := by
  rfl

theorem ladderGraph_named : dependentsNamedCheck ladderGraph = true := by
  rfl

theorem cliqueGraph_named : dependentsNamedCheck cliqueGraph = true := by
  rfl

theorem ladderGraph_step (j : Nat) (hj : j < 31) (k : String) (hk : k ∈ ladderRung j) :
    dependentsOfKey ladderGraph k = some (ladderRung (j + 1)) := by
  have h := ladderGraph_rungs
  rw [List.all_eq_true] at h
  have h1 := h j (List.mem_range.2 hj)
  rw [List.all_eq_true] at h1
  exact eq_of_beq (h1 k hk)

theorem ladderGraph_reach :
    ∀ j k, ReachIn ladderGraph "c" "r" j k → j ≤ 32 ∧ k ∈ ladderRung (j - 1) := by
  intro j k h
  induction h with
  | direct n k hn hk =>
    have : n = ⟨[], ladderRung 0⟩ := by
      have h0 : nodeOf ladderGraph "c" "r" = some ⟨[], ladderRung 0⟩ := rfl
      rw [h0] at hn
      exact (Option.some.inj hn).symm
    subst this
    exact ⟨by decide, hk⟩
  | step j k k' m hr hm hk ih =>
    obtain ⟨h1, h2⟩ := ih
    have hpos := reachIn_pos _ _ _ _ _ hr
    have hdep : dependentsOfKey ladderGraph k = some m.dependents := by
      unfold dependentsOfKey
      dsimp only
      rw [hm]
      rfl
    by_cases hlt : j - 1 < 31
    · rw [ladderGraph_step (j - 1) hlt k h2] at hdep
      have hm2 : m.dependents = ladderRung (j - 1 + 1) := (Option.some.inj hdep).symm
      rw [hm2] at hk
      rw [show j - 1 + 1 = j by omega] at hk
      exact ⟨by omega, by simpa using hk⟩
    · have hj : j - 1 = 31 := by omega
      rw [hj] at h2
      have h := ladderGraph_last
      rw [List.all_eq_true] at h
      have := eq_of_beq (h k h2)
      rw [this] at hdep
      have hm2 : m.dependents = [] := (Option.some.inj hdep).symm
      rw [hm2] at hk
      cases hk

theorem findAllDependents_long (g : Graph) (c p : String) (n : GraphNode)
    (hn : nodeOf g c p = some n) (hg : DependentsNamed g) (P : Nat → String → Prop)
    (hstep : ∀ j, j < 31 → ∀ k, P j k →
      ∃ ds, dependentsOfKey g k = some ds ∧ ds.length = 2 ∧ ∀ d ∈ ds, P (j + 1) d)
    (h0 : ∀ k ∈ n.dependents, P 0 k) (hlen : n.dependents.length = 2) :
    ∃ all, findAllDependents g c p = some all ∧ maxArrayLength < all.length := by
  obtain ⟨all, rounds, rest, h1, _⟩ := findLoopCount_named g hg 1001 0 n.dependents
    n.dependents (fun k hk => hg c p n k hn hk)
  have hall : findLoop g 1001 0 n.dependents n.dependents = some all := by
    rw [← findLoopCount_fst, h1]
    rfl
  refine ⟨all, ?_, ?_⟩
  · unfold findAllDependents
    rw [hn]
    exact hall
  · obtain ⟨l, hl, hl2, _⟩ := levelKeys_double g n.dependents P 31 hstep h0 31 (Nat.le_refl 31)
    rw [hlen] at hl2
    have hne : l ≠ [] := by
      intro h
      rw [h] at hl2
      simp at hl2
    have := findLoop_level_length g 31 1001 0 n.dependents [] all l hall hl hne (by decide)
      (by decide)
    rw [hl2] at this
    have h32 : maxArrayLength < 2 * 2 ^ 31 := by
      unfold maxArrayLength
      norm_num
    omega

theorem FilterProg.run_extends (s : State) :
    ∀ (prog : FilterProg) (buffer : List Entry) (data : Val) (found : List Entry),
      prog.run s buffer = some (data, found) → ∃ t, found = buffer ++ t := by
  intro prog
  induction prog with
  | ret v =>
    intro buffer data found h
    simp only [FilterProg.run, Option.some.injEq, Prod.mk.injEq] at h
    exact ⟨[], by simp [h.2]⟩
  | read c ns p k ih =>
    intro buffer data found h
    simp only [FilterProg.run] at h
    cases hc : getC s c with
    | none => rw [hc] at h; cases h
    | some col =>
      rw [hc] at h
      obtain ⟨t, ht⟩ := ih _ _ _ _ h
      unfold recordAccess at ht
      split at ht
      · exact ⟨⟨c, p⟩ :: t, by rw [ht]; simp⟩
      · exact ⟨t, ht⟩
  | fieldOf r f k ih =>
    intro buffer data found h
    simp only [FilterProg.run] at h
    exact ih _ _ _ _ h

theorem executeAndAnalyseFilterFrom_nil (s : State) (c filter : String) :
    (executeAndAnalyseFilterFrom [] s c filter).mapError Prod.fst
      = executeAndAnalyseFilter s c filter := by
  unfold executeAndAnalyseFilterFrom executeAndAnalyseFilter executeFilterFrom executeFilter
  cases hc : getC s c with
  | none => rfl
  | some col =>
    have hc' : getC { s with trace := s.trace ++ [.exec c filter] } c = some col := hc
    simp only [hc']
    cases hF : oget col.filters filter with
    | none => rfl
    | some prog =>
      simp only []
      cases hrun : prog.run { s with trace := s.trace ++ [.exec c filter] } [] with
      | none => rfl
      | some r =>
        obtain ⟨data, found⟩ := r
        simp only []
        split
        · rfl
        · split <;> rfl

/-! ## Theorems -/

/-- C1, the code at the failing input: `collect({name: "x"}, "list")` on a
collection whose primary key the record lacks (none declared and neither `id`
nor `_id` in the record, or `id` declared) stores the rejected record under the
key `undefined` and appends `undefined` to the key list of `list`; without an
index argument the record is stored all the same. -/
theorem C1_rejected_record_is_inserted :
    storeAndIndexes rejectionState "c" = some ([], [("list", [])])
    ∧ storeAndIndexes (collect 10 rejectionState "c" [[("name", sv "x")]] (some "list")).state "c"
        = some ([("undefined", 0)], [("list", [undefined])])
    ∧ storeAndIndexes (collect 10 rejectionState "c" [[("name", sv "x")]] none).state "c"
        = some ([("undefined", 0)], [("list", [])])
    ∧ storeAndIndexes
        (collect 10 rejectionStateDeclared "c" [[("name", sv "x")]] (some "list")).state "c"
        = some ([("undefined", 0)], [("list", [undefined])]) := by
  refine ⟨?_, ?_, ?_, ?_⟩ <;> rfl

/-- C2, the code at the failing input: in `chainState` the dependents edges are
`D -> B -> A`, the queue is empty and every output is `1`.  The write
`c.D = null` stores `null` and then raises in `analyseChildProperties`
(`Object.keys(null)`, since `typeof null` is `object`) before the dependents are
looked up: neither `B` nor `A` is executed and both keep the output computed
from the old value of `D`.  The write `c.D = 7` executes `B`, then `A`, and both
outputs become `7`. -/
theorem C2_write_of_null_regenerates_nothing :
    (nodeOf chainState.dependencyGraph "c" "D").map (fun n => n.dependents) = some ["c/B"]
    ∧ (nodeOf chainState.dependencyGraph "c" "B").map (fun n => n.dependents) = some ["c/A"]
    ∧ chainState.regenQueue = []
    ∧ filterOutputs chainState "c" = some [("B", nv 1), ("A", nv 1)]
    ∧ (write 10 chainState "c" .root "D" (.atom .null)).threw = true
    ∧ rootValue (write 10 chainState "c" .root "D" (.atom .null)).state "c" "D"
        = some (.atom .null)
    ∧ (write 10 chainState "c" .root "D" (.atom .null)).state.trace = chainState.trace
    ∧ filterOutputs (write 10 chainState "c" .root "D" (.atom .null)).state "c"
        = some [("B", nv 1), ("A", nv 1)]
    ∧ (write 10 chainState "c" .root "D" (nv 7)).state.trace
        = chainState.trace ++ [.exec "c" "B", .exec "c" "A"]
    ∧ filterOutputs (write 10 chainState "c" .root "D" (nv 7)).state "c"
        = some [("B", nv 7), ("A", nv 7)] := by
  refine ⟨?_, ?_, ?_, ?_, ?_, ?_, ?_, ?_, ?_, ?_⟩ <;> rfl

/-- C3, counterexample: in the graph `populateDependencies` builds for the
filters `Z`, `Y`, `X` (`X` reads `D` and `Y`), mutating `D` fills the queue with
`Z`, `X`, `Y`: `X` is a dependent of `Y` and is placed before it.  The write
then executes `X` before `Y`, and `X` keeps the value it computed from the
output `Y` had before the mutation. -/
theorem C3_queue_not_in_dependency_order :
    (nodeOf diamondState.dependencyGraph "c" "Y").map (fun n => n.dependents) = some ["c/X"]
    ∧ (findAllDependents diamondState.dependencyGraph "c" "D").map (enqueue [])
        = some [⟨"c", "Z"⟩, ⟨"c", "X"⟩, ⟨"c", "Y"⟩]
    ∧ dependencyOrdered diamondState.dependencyGraph [⟨"c", "Z"⟩, ⟨"c", "X"⟩, ⟨"c", "Y"⟩] = false
    ∧ (write 10 diamondState "c" .root "D" (nv 5)).state.trace
        = diamondState.trace ++ [.exec "c" "Z", .exec "c" "X", .exec "c" "Y"]
    ∧ filterOutputs (write 10 diamondState "c" .root "D" (nv 5)).state "c"
        = some [("Z", nv 5), ("Y", nv 5), ("X", nv 0)] := by
  refine ⟨?_, ?_, ?_, ?_, ?_⟩ <;> rfl

/-- C3, amended: the queue filled from empty with the result of
`findAllDependents` is in breadth-first discovery order.  The traversal's list
is the concatenation of its rounds, round 0 being the mutated property's own
dependents list and each later round the dependents of the keys of the round
before, in order.  The queue is that list with every filter kept at its first
occurrence and dropped at the later ones.  It therefore splits into a front
part, which is the dependents list of the mutated property at first
occurrences, and a rest, which holds the filters discovered in later rounds
only: every filter that is not a direct dependent of the mutated property is
placed after all that are. -/
theorem C3_direct_dependents_first (g : Graph) (c p : String) (n : GraphNode)
    (all : List String) (hn : nodeOf g c p = some n)
    (hall : findAllDependents g c p = some all) :
    (∃ rounds : List (List String), all = rounds.flatten
        ∧ 0 < rounds.length
        ∧ ∀ j, j < rounds.length → levelKeys g n.dependents j = rounds[j]?)
      ∧ enqueue [] all = firstOccurrences (all.map parseKey)
      ∧ ∃ first later, enqueue [] all = first ++ later
        ∧ first = firstOccurrences (n.dependents.map parseKey)
        ∧ (∀ e, e ∈ first ↔ ∃ d ∈ n.dependents, parseKey d = e)
        ∧ (∀ e ∈ later, e ∉ first) := by
  unfold findAllDependents at hall
  rw [hn] at hall
  have hfirst : ∀ l, enqueue [] l = firstOccurrences (l.map parseKey) := by
    intro l
    rw [enqueue_firstOccurrences l []]
    simp
  refine ⟨?_, hfirst all, ?_⟩
  · obtain ⟨rounds, h1, h2⟩ := findLoop_rounds g n.dependents 1001 0 n.dependents n.dependents
      all hall rfl
    refine ⟨n.dependents :: rounds, by rw [h1]; simp, by simp, ?_⟩
    intro j hj
    cases j with
    | zero => simp [levelKeys]
    | succ j =>
      have := h2 j (by simpa using hj)
      rw [show 0 + 1 + j = j + 1 by omega] at this
      rw [this]
      simp
  · obtain ⟨rest, hrest⟩ := findLoop_extends g _ _ _ _ _ hall
    obtain ⟨first, h1, _, h3, h4⟩ := enqueue_spec n.dependents []
    obtain ⟨later, k1, k2, _, _⟩ := enqueue_spec rest (enqueue [] n.dependents)
    refine ⟨first, later, ?_, ?_, ?_, ?_⟩
    · rw [hrest, enqueue_append, k1, h1]; simp
    · rw [← hfirst n.dependents, h1]; simp
    · intro e
      constructor
      · intro he; exact h3 e he
      · rintro ⟨d, hd, rfl⟩
        simpa using h4 d hd
    · intro e he hf
      apply k2 e he
      rw [h1]; simpa using hf

/-- C3, witness: the amended statement on the graph of `diamondState` and the
property `D`. -/
theorem C3_direct_dependents_first_witness :
    nodeOf diamondState.dependencyGraph "c" "D" = some ⟨[], ["c/Z", "c/X"]⟩
    ∧ findAllDependents diamondState.dependencyGraph "c" "D" = some ["c/Z", "c/X", "c/Y", "c/X"]
    ∧ (∃ rounds : List (List String), ["c/Z", "c/X", "c/Y", "c/X"] = rounds.flatten
        ∧ 0 < rounds.length
        ∧ ∀ j, j < rounds.length →
            levelKeys diamondState.dependencyGraph ["c/Z", "c/X"] j = rounds[j]?)
      ∧ enqueue [] ["c/Z", "c/X", "c/Y", "c/X"]
          = firstOccurrences (["c/Z", "c/X", "c/Y", "c/X"].map parseKey)
      ∧ ∃ first later, enqueue [] ["c/Z", "c/X", "c/Y", "c/X"] = first ++ later
        ∧ first = firstOccurrences (["c/Z", "c/X"].map parseKey)
        ∧ (∀ e, e ∈ first ↔ ∃ d ∈ ["c/Z", "c/X"], parseKey d = e)
        ∧ (∀ e ∈ later, e ∉ first) :=
  ⟨rfl, rfl, C3_direct_dependents_first diamondState.dependencyGraph "c" "D" ⟨[], ["c/Z", "c/X"]⟩
    ["c/Z", "c/X", "c/Y", "c/X"] rfl rfl⟩

/-- C4, the code at the failing input: with record `a` in the indexes `P` and
`Q`, `collect({id: "a", name: "n3"}, "R")` leaves three indexes pending (`P`
from the call before, `R`, `Q`).  The loop rebuilds `P`, executes the filter of
`P`, rebuilds `R`, executes the filter of `R`, and stops: a filter runs before
`R` is rebuilt, and `Q` is not rebuilt at all and stays pending with the output
of the replaced record. -/
theorem C4_filters_run_between_rebuilds_and_index_skipped :
    pendingIndexes threeGroupsState "c" = some ["P"]
    ∧ (collect 10 threeGroupsState "c" [recordA "n3"] (some "R")).state.trace
        = threeGroupsState.trace
          ++ [.rebuild "c" "P", .exec "c" "FP", .rebuild "c" "R", .exec "c" "FR"]
    ∧ pendingIndexes (collect 10 threeGroupsState "c" [recordA "n3"] (some "R")).state "c"
        = some ["Q"]
    ∧ (collect 10 threeGroupsState "c" [recordA "n3"] (some "R")).threw = false
    ∧ storeAndIndexes (collect 10 threeGroupsState "c" [recordA "n3"] (some "R")).state "c"
        = some ([("a", 2)], [("P", [sv "a"]), ("Q", [sv "a"]), ("R", [sv "a"])])
    ∧ groupOutputs (collect 10 threeGroupsState "c" [recordA "n3"] (some "R")).state "c"
        = some [("P", .arr [.ref 2]), ("Q", .arr [.ref 1]), ("R", .arr [.ref 2])] := by
  refine ⟨?_, ?_, ?_, ?_, ?_, ?_⟩ <;> rfl

/-- C5, the code at the failing input: record `1` is in the indexes `Q` and `P`
and the filter `F` returns the name of the first record of group `P`.
`update(1, {name: "b"})` marks `Q` and `P` pending, rebuilds `Q` only, and never
executes `F`: its output slot keeps `"a"` although its computation on the state
after the call gives `"b"`. -/
theorem C5_filter_not_regenerated_after_update :
    indexLists twoGroupsState "c" = some [("Q", [nv 1]), ("P", [nv 1])]
    ∧ pendingIndexes twoGroupsState "c" = some []
    ∧ filterOutputs twoGroupsState "c" = some [("F", sv "a")]
    ∧ (update 10 twoGroupsState "c" (nv 1) [("name", sv "b")]).threw = false
    ∧ (update 10 twoGroupsState "c" (nv 1) [("name", sv "b")]).state.trace
        = twoGroupsState.trace ++ [.rebuild "c" "Q"]
    ∧ pendingIndexes (update 10 twoGroupsState "c" (nv 1) [("name", sv "b")]).state "c"
        = some ["P"]
    ∧ filterOutputs (update 10 twoGroupsState "c" (nv 1) [("name", sv "b")]).state "c"
        = some [("F", sv "a")]
    ∧ ((firstName "c" "P").run
          (update 10 twoGroupsState "c" (nv 1) [("name", sv "b")]).state []).map (fun r => r.1)
        = some (sv "b") := by
  refine ⟨?_, ?_, ?_, ?_, ?_, ?_, ?_, ?_⟩ <;> rfl

/-- C6, the code at the failing input: `put` and `move` append to the
destination without looking for the key in it.  With `list = [1]`,
`put([1], "list")` leaves `list = [1, 1]`; with `P = [1]` and `Q = [1]`,
`move([1], "P", "Q")` leaves `Q = [1, 1]`. -/
theorem C6_put_and_move_duplicate_keys :
    indexLists oneRecordState "c" = some [("list", [nv 1])]
    ∧ indexLists (put 10 oneRecordState "c" [nv 1] "list").state "c"
        = some [("list", [nv 1, nv 1])]
    ∧ indexLists (move 10 twoGroupsState "c" [nv 1] "P" "Q").state "c"
        = some [("Q", [nv 1, nv 1]), ("P", [])] := by
  refine ⟨?_, ?_, ?_⟩ <;> rfl

/-- C7, the code at the failing input: collection `c` holds record `1` in
`list`.  `collect({id: 2}, "constructor")` tests `!this._indexes[index]`, which
is false for the inherited member `constructor`, so no index is created;
`processDataItem` then calls `.includes` on that member and raises before the
store is written.  The record is not stored, the collection has no index
`constructor`, and the name stays in the pending list.  With the index name
`other` the same call stores the record and makes the key list `[2]`. -/
theorem C7_collect_into_inherited_name_raises :
    storeAndIndexes oneRecordState "c" = some ([("1", 0)], [("list", [nv 1])])
    ∧ (collect 10 oneRecordState "c" [[("id", nv 2)]] (some "constructor")).threw = true
    ∧ storeAndIndexes (collect 10 oneRecordState "c" [[("id", nv 2)]] (some "constructor")).state "c"
        = some ([("1", 0)], [("list", [nv 1])])
    ∧ pendingIndexes (collect 10 oneRecordState "c" [[("id", nv 2)]] (some "constructor")).state "c"
        = some ["constructor"]
    ∧ (collect 10 oneRecordState "c" [[("id", nv 2)]] (some "other")).threw = false
    ∧ storeAndIndexes (collect 10 oneRecordState "c" [[("id", nv 2)]] (some "other")).state "c"
        = some ([("1", 0), ("2", 1)], [("list", [nv 1]), ("other", [nv 2])]) := by
  refine ⟨?_, ?_, ?_, ?_, ?_, ?_⟩ <;> rfl

/-- C8, the code at the failing input: with `{id: 1, name: "a"}` stored under
the key `1`, `delete(1)` removes the record and appends one `delete` entry whose
`deleted` payload is the empty object, not the record: the snapshot is read from
`this._data.primaryKey`, the property with the literal name `primaryKey`. -/
theorem C8_delete_snapshot_is_empty :
    storeRecords oneRecordState "c" = some [("1", [("id", nv 1), ("name", sv "a")])]
    ∧ storeRecords (delete 10 "c" oneRecordState [nv 1]).state "c" = some []
    ∧ (delete 10 "c" oneRecordState [nv 1]).state.history
        = oneRecordState.history ++ [{ collection := "c", data := .delete [] }] := by
  refine ⟨?_, ?_, ?_⟩ <;> rfl

/-- C9, counterexample: `posts` declares the relation `owner -> users`, and
record `1` of `posts` has `owner = 5`, a key of `users`.  After
`update(1, {users: "x"})` the field `users` of the record holds the foreign
record object (heap address 0), not the patched value `"x"`. -/
theorem C9_relation_overwrites_patched_field :
    findById relationState "posts" (nv 1) = some 1
    ∧ findById (update 10 relationState "posts" (nv 1) [("users", sv "x")]).state "posts" (nv 1)
        = some 1
    ∧ storeRecords (update 10 relationState "posts" (nv 1) [("users", sv "x")]).state "posts"
        = some [("1", [("id", nv 1), ("owner", nv 5), ("users", .atom (.ref 0))])]
    ∧ (update 10 relationState "posts" (nv 1) [("users", sv "x")]).threw = false := by
  refine ⟨?_, ?_, ?_, ?_⟩ <;> rfl

/-- C9, amended: for a key present in the store and a patch `p`, after
`update(k, p)` `findById(k)` is the same record object; each field named in `p`
that is not a field relations attach holds the value of `p`; each other field
that is not a field relations attach is unchanged; and exactly one history entry
has been appended, of type `update`, whose `previousValues` maps each patched
field to its value before the call. -/
theorem C9_update_patches_record (fuel : Nat) (s : State) (c : String) (col : Collection)
    (id : Val) (p : Obj) (ref : Nat)
    (hc : getC s c = some col) (hk : oget col.data id.toKey = some ref)
    (href : ref < s.heap.length) (hp : (okeys p).Nodup) :
    findById (update fuel s c id p).state c id = some ref
    ∧ (∀ f, f ∈ okeys p → f ∉ relationTargets col.relations →
        oget ((update fuel s c id p).state.heap.getD ref []) f = some (field p f))
    ∧ (∀ f, f ∉ okeys p → f ∉ relationTargets col.relations →
        oget ((update fuel s c id p).state.heap.getD ref []) f = oget (s.heap.getD ref []) f)
    ∧ ∃ previousValues,
        (update fuel s c id p).state.history
          = s.history ++ [{ collection := c, data := .update id previousValues p }]
        ∧ ∀ f, oget previousValues f
            = if f ∈ okeys p then some (field (s.heap.getD ref []) f) else none := by
  have hfold := patchFold_spec p (okeys p) ([], s.heap.getD ref []) hp
  have hupd : update fuel s c id p = internalDataModified fuel
      { s with
        heap := s.heap.set ref (patchFold p (okeys p) ([], s.heap.getD ref [])).2
        history := s.history ++
          [⟨c, .update id (patchFold p (okeys p) ([], s.heap.getD ref [])).1 p⟩] } c id := by
    unfold update
    simp only [hc, Option.bind, hk]
  rw [hupd]
  have hT : TargetsIn (relationTargets col.relations)
      { s with
        heap := s.heap.set ref (patchFold p (okeys p) ([], s.heap.getD ref [])).2
        history := s.history ++
          [⟨c, .update id (patchFold p (okeys p) ([], s.heap.getD ref [])).1 p⟩] } c := by
    intro colx hx e he
    have h2 : getC s c = some colx := hx
    rw [hc] at h2
    cases h2
    exact List.mem_map_of_mem (fun e => e.2.target) he
  have hkeep := internalDataModified_keeps (relationTargets col.relations) fuel _ c id hT
  have hcell : ∀ f, f ∉ relationTargets col.relations →
      oget ((internalDataModified fuel
        { s with
          heap := s.heap.set ref (patchFold p (okeys p) ([], s.heap.getD ref [])).2
          history := s.history ++
            [⟨c, .update id (patchFold p (okeys p) ([], s.heap.getD ref [])).1 p⟩] }
        c id).state.heap.getD ref []) f
      = oget (patchFold p (okeys p) ([], s.heap.getD ref [])).2 f := by
    intro f hf
    rw [hkeep.heap ref f hf]
    show oget ((s.heap.set ref _).getD ref []) f = _
    rw [getD_set_obj]
    simp [href]
  refine ⟨?_, ?_, ?_, ?_⟩
  · obtain ⟨col', hc', hst⟩ := hkeep.getC hc
    unfold findById
    rw [hc']
    show oget col'.data id.toKey = some ref
    rw [(store_eq hst).2.1, hk]
  · intro f hf hT
    rw [hcell f hT, hfold.2 f]
    simp [hf]
  · intro f hf hT
    rw [hcell f hT, hfold.2 f]
    simp [hf]
  · refine ⟨(patchFold p (okeys p) ([], s.heap.getD ref [])).1, ?_, ?_⟩
    · rw [hkeep.history]
    · intro f
      rw [hfold.1 f]
      simp [oget]

/-- C9, witness: the statement at `update(1, {name: "b"})` on
`oneRecordState`. -/
theorem C9_update_patches_record_witness :
    getC oneRecordState "c" = some oneRecordCollection
    ∧ oget oneRecordCollection.data (nv 1).toKey = some 0
    ∧ 0 < oneRecordState.heap.length ∧ (okeys [("name", sv "b")]).Nodup
    ∧ findById (update 10 oneRecordState "c" (nv 1) [("name", sv "b")]).state "c" (nv 1)
        = some 0 :=
  ⟨rfl, rfl, by decide, by decide,
    (C9_update_patches_record 10 oneRecordState "c" oneRecordCollection (nv 1)
      [("name", sv "b")] 0 rfl rfl (by decide) (by decide)).1⟩

/-- C10, the code at the failing input: `posts` declares a relation, the index
`A` is `[1, 99]` with no record under `99`, and `B` is empty.
`move([1], "A", "B")` changes both key lists (`A = [99]`, `B = [1]`) and then
raises in `buildGroupFromIndex("A")`, where the record of `99` is `undefined`
and `data.hasOwnProperty` is read from it: `recordHistory` is not reached and no
`move` entry is appended. -/
theorem C10_move_raises_before_history :
    indexLists danglingKeyState "posts" = some [("B", []), ("A", [nv 1, nv 99])]
    ∧ storeRecords danglingKeyState "posts" = some [("1", [("id", nv 1)])]
    ∧ indexLists (move 10 danglingKeyState "posts" [nv 1] "A" "B").state "posts"
        = some [("B", [nv 1]), ("A", [nv 99])]
    ∧ (move 10 danglingKeyState "posts" [nv 1] "A" "B").threw = true
    ∧ (move 10 danglingKeyState "posts" [nv 1] "A" "B").state.history
        = danglingKeyState.history := by
  refine ⟨?_, ?_, ?_, ?_, ?_⟩ <;> rfl

/-- C11, the code at the failing input: collection `c` has the indexes `Q` and
`P`, both `[1]`, and no index `toString`.  The guard of `move` tests
`!this._indexes[destIndex]`, which is false for the inherited member
`toString`: `move([1], "P", "toString")` goes on, assigns the filtered array to
`P` and raises at `.push` of the member.  The key list of `P` has changed from
`[1]` to `[]`.  With the destination `missing` the call returns and leaves the
state as it was. -/
theorem C11_move_to_inherited_name_changes_source :
    indexLists twoGroupsState "c" = some [("Q", [nv 1]), ("P", [nv 1])]
    ∧ (move 10 twoGroupsState "c" [nv 1] "P" "toString").threw = true
    ∧ indexLists (move 10 twoGroupsState "c" [nv 1] "P" "toString").state "c"
        = some [("Q", [nv 1]), ("P", [])]
    ∧ move 10 twoGroupsState "c" [nv 1] "P" "missing" = .ok twoGroupsState := by
  refine ⟨?_, ?_, ?_, ?_⟩ <;> rfl

/-- C12, the code at the failing input: the store of collection `c` holds the
record of `1` only, and `Q` and `P` are both `[1]`.  The loops of `put` and
`move` stop at `!this._data[id]`, which is false for the absent key `toString`
(the read gives the inherited member).  `put(["toString", 1], "Q")` appends both
keys, and `move(["toString", 1], "P", "Q")` appends both to `Q` and removes `1`
from `P`, although the first key of the list is absent from the store.  With
the absent key `x` in its place both calls leave the key lists as they were. -/
theorem C12_absent_inherited_key_does_not_stop :
    storeRecords twoGroupsState "c" = some [("1", [("id", nv 1), ("name", sv "a")])]
    ∧ indexLists twoGroupsState "c" = some [("Q", [nv 1]), ("P", [nv 1])]
    ∧ indexLists (put 10 twoGroupsState "c" [sv "toString", nv 1] "Q").state "c"
        = some [("Q", [nv 1, sv "toString", nv 1]), ("P", [nv 1])]
    ∧ groupOutputs (put 10 twoGroupsState "c" [sv "toString", nv 1] "Q").state "c"
        = some [("Q", .arr [.ref 0, .native "toString", .ref 0]), ("P", .arr [.ref 0])]
    ∧ indexLists (move 10 twoGroupsState "c" [sv "toString", nv 1] "P" "Q").state "c"
        = some [("Q", [nv 1, sv "toString", nv 1]), ("P", [])]
    ∧ indexLists (put 10 twoGroupsState "c" [sv "x", nv 1] "Q").state "c"
        = some [("Q", [nv 1]), ("P", [nv 1])]
    ∧ indexLists (move 10 twoGroupsState "c" [sv "x", nv 1] "P" "Q").state "c"
        = some [("Q", [nv 1]), ("P", [nv 1])] := by
  refine ⟨?_, ?_, ?_, ?_, ?_, ?_, ?_⟩ <;> rfl

/-- C13, counterexample: in `retryState` the write `c.D = 2` hands the pair
`c/F` to `pushDependentsToRegenQueue` twice (`F` depends on `D` directly and
through `X`); the queue gets a single entry for it, `[X, F, G]`.  The execution
of `F` now reads the never generated filter `S`, so `F` is deferred and enqueued
again behind `G`, and the same call of `processRegenQueue` executes `F` a second
time. -/
theorem C13_deferred_filter_executed_twice :
    retryState.regenQueue = [] ∧ retryState.lastRegenerated = ""
    ∧ findAllDependents retryState.dependencyGraph "c" "D"
        = some ["c/X", "c/F", "c/G", "c/F"]
    ∧ enqueue [] ["c/X", "c/F", "c/G", "c/F"] = [⟨"c", "X"⟩, ⟨"c", "F"⟩, ⟨"c", "G"⟩]
    ∧ (write 10 retryState "c" .root "D" (nv 2)).threw = false
    ∧ (write 10 retryState "c" .root "D" (nv 2)).state.trace
        = retryState.trace ++ [.exec "c" "X", .exec "c" "F", .exec "c" "G", .exec "c" "F"] := by
  refine ⟨?_, ?_, ?_, ?_, ?_, ?_⟩ <;> rfl

/-- C13, amended: every key handed to `pushDependentsToRegenQueue` has exactly
one entry in the queue it fills from a duplicate-free queue, however often the
key occurs in the list and whether or not its entry was pending.  If, in a set
of states `Inv` that holds the state and does not depend on the queue or the
marker, the execution of every queued filter returns without enqueuing a retry
and stays in the set, the first entry's name differs from the last-processed
marker and no two adjacent entries have the same name, then the following
`processRegenQueue` returns with the queue empty, having executed the queued
entries in order: each handed pair exactly once. -/
theorem C13_pair_handed_twice_executed_once (fuel : Nat) (s : State) (l : List String)
    (Inv : State → Prop) (hnodup : s.regenQueue.Nodup) (hinv : Inv s)
    (hframe : ∀ (t : State) (q : List Entry) (m : String),
      Inv t → Inv { t with regenQueue := q, lastRegenerated := m })
    (hexec : ∀ (t : State) (e : Entry), Inv t → e ∈ enqueue s.regenQueue l →
      ∃ t', executeAndAnalyseFilter t e.collection e.property = .ok t'
        ∧ t'.regenQueue = t.regenQueue ∧ Inv t')
    (hnames : List.Chain (fun a b => a ≠ b) s.lastRegenerated
      ((enqueue s.regenQueue l).map concatEntryName))
    (hfuel : (enqueue s.regenQueue l).length < fuel) :
    (∀ d ∈ l, (enqueue s.regenQueue l).count (parseKey d) = 1)
    ∧ ∃ s', pushDependentsToRegenQueue fuel s l = .ok s'
      ∧ s'.trace = s.trace ++ execEvents (enqueue s.regenQueue l)
      ∧ (∀ d ∈ l, (execEvents (enqueue s.regenQueue l)).count
          (.exec (parseKey d).collection (parseKey d).property) = 1)
      ∧ s'.regenQueue = [] := by
  have hnd := enqueue_nodup l s.regenQueue hnodup
  have hone : ∀ d ∈ l, (enqueue s.regenQueue l).count (parseKey d) = 1 := by
    intro d hd
    obtain ⟨later, h1, _, _, h4⟩ := enqueue_spec l s.regenQueue
    exact List.count_eq_one_of_mem hnd (by rw [h1]; exact h4 d hd)
  refine ⟨hone, ?_⟩
  unfold pushDependentsToRegenQueue
  by_cases hq : enqueue s.regenQueue l = []
  · refine ⟨{ s with regenQueue := enqueue s.regenQueue l }, ?_, ?_, ?_, hq⟩
    · cases fuel with
      | zero => simp at hfuel
      | succ fuel => rw [processRegenQueue]; simp [hq]
    · simp [hq, execEvents]
    · intro d hd; rw [execEvents_count]; exact hone d hd
  · obtain ⟨s', e1, e2, _, e4, _⟩ := processRegenQueue_drains Inv (enqueue s.regenQueue l)
      hframe hexec fuel { s with regenQueue := enqueue s.regenQueue l }
      (hframe s _ s.lastRegenerated hinv) (fun e he => he) hnames hq hfuel
    exact ⟨s', e1, e4, fun d hd => by rw [execEvents_count]; exact hone d hd, e2⟩

/-- C13, witness: on `chainState` the key `c/B` handed twice gives the queue
`[B]`, and `B` is executed once. -/
theorem C13_pair_handed_twice_executed_once_witness :
    chainState.regenQueue = [] ∧ chainState.lastRegenerated = ""
    ∧ enqueue chainState.regenQueue ["c/B", "c/B"] = [⟨"c", "B"⟩]
    ∧ ∃ s', pushDependentsToRegenQueue 2 chainState ["c/B", "c/B"] = .ok s'
      ∧ s'.trace = chainState.trace ++ [.exec "c" "B"]
      ∧ s'.regenQueue = [] :=
  ⟨rfl, rfl, rfl,
    (C13_pair_handed_twice_executed_once 2 chainState ["c/B", "c/B"] (SameProgram chainState)
      List.nodup_nil ⟨rfl, rfl, rfl, rfl⟩ (fun _ _ _ h => h) chainState_executes_B
      (List.Chain.cons (by decide) List.Chain.nil) (by decide)).2.imp
      fun _ h => ⟨h.1, h.2.1, h.2.2.2⟩⟩

/-- C14, the code at the failing input: `forceUpdate` pushes its entry without
looking for it in the queue.  In `pendingState` the queue is `[F, G]`, without
duplicates (the write `c.D = 2` raised in the filter `X` ahead of them).
`forceUpdate("F")` hands `processRegenQueue` the queue `[F, G, F]`, and `F` is
executed twice in that drain; `pushDependentsToRegenQueue(["c/F"])` on the same
state leaves the queue `[F, G]` and `F` is executed once. -/
theorem C14_forceUpdate_enqueues_pending_filter_again :
    (write 10 throwState "c" .root "D" (nv 2)).threw = true
    ∧ pendingState.regenQueue = [⟨"c", "F"⟩, ⟨"c", "G"⟩]
    ∧ forceUpdate 10 pendingState "c" "F"
        = processRegenQueue 10
            { pendingState with regenQueue := [⟨"c", "F"⟩, ⟨"c", "G"⟩, ⟨"c", "F"⟩] }
    ∧ (forceUpdate 10 pendingState "c" "F").threw = false
    ∧ (forceUpdate 10 pendingState "c" "F").state.trace
        = pendingState.trace ++ [.exec "c" "F", .exec "c" "G", .exec "c" "F"]
    ∧ pushDependentsToRegenQueue 10 pendingState ["c/F"]
        = processRegenQueue 10 { pendingState with regenQueue := [⟨"c", "F"⟩, ⟨"c", "G"⟩] }
    ∧ (pushDependentsToRegenQueue 10 pendingState ["c/F"]).state.trace
        = pendingState.trace ++ [.exec "c" "F", .exec "c" "G"] := by
  refine ⟨?_, ?_, ?_, ?_, ?_, ?_, ?_⟩ <;> rfl

/-- C15: at an iteration of the loop of `processRegenQueue` that pops an entry
`e` whose `collection/property` name is the last-processed marker (the name of
the entry processed immediately before), the loop reports the return from
`processRegenQueue` with a state that differs from the one before the pop in the
queue, which is the entries that were behind `e`, and in the marker, which is
cleared: nothing is executed (the execution trace and every other component are
the same).  A call of `processRegenQueue` whose loop comes down to that
iteration returns that state, without recursion; so does a call (the recursive
one included) that starts on it. -/
theorem C15_repeat_guard_stops_the_drain (n i : Nat) (s : State) (e : Entry)
    (rest : List Entry) (hq : s.regenQueue = e :: rest) (hi : i < (e :: rest).length)
    (hname : e.collection ++ "/" ++ e.property = s.lastRegenerated) :
    regenPass (n + 1) i s = .ok ({ s with regenQueue := rest, lastRegenerated := "" }, true)
    ∧ (∀ fuel (s0 : State), s0.regenQueue.length ≠ 0 →
        regenPass s0.regenQueue.length 0 s0 = regenPass (n + 1) i s →
        processRegenQueue (fuel + 1) s0
          = .ok { s with regenQueue := rest, lastRegenerated := "" })
    ∧ ∀ fuel, processRegenQueue (fuel + 1) s
        = .ok { s with regenQueue := rest, lastRegenerated := "" } := by
  have hstep : ∀ m j, j < (e :: rest).length →
      regenPass (m + 1) j s
        = .ok ({ s with regenQueue := rest, lastRegenerated := "" }, true) := by
    intro m j hj
    rw [regenPass]
    rw [hq]
    simp only [hj, if_true]
    simp [hname]
  have hcall : ∀ fuel (s0 : State), s0.regenQueue.length ≠ 0 →
      regenPass s0.regenQueue.length 0 s0
        = .ok ({ s with regenQueue := rest, lastRegenerated := "" }, true) →
      processRegenQueue (fuel + 1) s0
        = .ok { s with regenQueue := rest, lastRegenerated := "" } := by
    intro fuel s0 h0 hp
    rw [processRegenQueue]
    simp only [h0, if_false, hp]
  refine ⟨hstep n i hi, ?_, ?_⟩
  · intro fuel s0 h0 hp
    exact hcall fuel s0 h0 (hp.trans (hstep n i hi))
  · intro fuel
    apply hcall fuel s (by simp [hq])
    rw [hq]
    exact hstep rest.length 0 (by simp)

/-- C15, witness: in `chainState` with the queue `[B, A]` and the marker `c/B`,
`processRegenQueue` pops `B`, executes nothing, leaves `A` in the queue and
clears the marker. -/
theorem C15_repeat_guard_stops_the_drain_witness :
    repeatedEntryState.regenQueue = [⟨"c", "B"⟩, ⟨"c", "A"⟩]
    ∧ 0 < ([⟨"c", "B"⟩, ⟨"c", "A"⟩] : List Entry).length
    ∧ "c" ++ "/" ++ "B" = repeatedEntryState.lastRegenerated
    ∧ processRegenQueue 5 repeatedEntryState
        = .ok { chainState with regenQueue := [⟨"c", "A"⟩], lastRegenerated := "" } :=
  ⟨rfl, by decide, rfl,
    (C15_repeat_guard_stops_the_drain 1 0 repeatedEntryState ⟨"c", "B"⟩ [⟨"c", "A"⟩]
      rfl (by decide) rfl).2.2 4⟩

/-- C16: in a state with an empty queue and a cleared marker, let `F` be a
declared filter of collection `c` whose computation returns `data` (the graph
holding the node of `F` and an entry for the collection of every pair the
computation reads).  Then `forceUpdate(F)` returns; the execution trace has
grown by exactly one execution, of `F`; the output slot of `F` holds `data`
(`false` for `undefined` and `null`); the queue is empty and the marker is
cleared.  Nothing is assumed about the dependencies of `F` or their values: the
statement covers the execution that ends with `F` deferred as well. -/
theorem C16_forceUpdate_executes_once (fuel : Nat) (s : State) (c filter : String)
    (col : Collection) (prog : FilterProg) (data : Val) (found : List Entry) (nF : GraphNode)
    (hq : s.regenQueue = []) (hlast : s.lastRegenerated = "")
    (hc : getC s c = some col) (hF : oget col.filters filter = some prog)
    (hrun : prog.run s [] = some (data, found))
    (hnF : nodeOf s.dependencyGraph c filter = some nF)
    (hcols : ∀ dep ∈ found, (oget s.dependencyGraph dep.collection).isSome = true) :
    ∃ s', forceUpdate (fuel + 2) s c filter = .ok s'
      ∧ s'.trace = s.trace ++ [.exec c filter]
      ∧ (∃ col', getC s' c = some col'
          ∧ oget col'.pub.filters filter = some (coerceResult data))
      ∧ s'.regenQueue = [] ∧ s'.lastRegenerated = "" := by
  obtain ⟨cols, heap, q, errs, hist, af, gf, g, last, tr⟩ := s
  simp only at hq hlast hnF hcols
  subst hq hlast
  have hex := executeAndAnalyseFilter_spec ⟨cols, heap, [], errs, hist, af, gf, g, "", tr⟩
    c filter col prog data found hc hF hrun
  have hne : ¬ c ++ "/" ++ filter = "" := key_ne_empty c filter
  have hcol : ∀ (q' : List Entry) (gf' : List String) (g' : Graph) (l' : String),
      ∃ col', getC ⟨oset cols c { col with
            pub := deliverUpdate col.pub .filters (coerceResult data) filter },
          heap, q', errs, hist, af, gf', g', l', tr ++ [.exec c filter]⟩ c = some col'
        ∧ oget col'.pub.filters filter = some (coerceResult data) := by
    intro q' gf' g' l'
    refine ⟨_, oget_oset_same _ _ _, deliverUpdate_filters_read _ _ _⟩
  unfold forceUpdate
  by_cases hany : found.any
      (isMissingDependency ⟨cols, heap, [], errs, hist, af, gf, g, "", tr⟩) = true
  · simp only [hany, if_true] at hex
    refine ⟨⟨oset cols c { col with
            pub := deliverUpdate col.pub .filters (coerceResult data) filter },
          heap, [], errs, hist, af, gf, g, "", tr ++ [.exec c filter]⟩, ?_, rfl,
        hcol [] gf g "", rfl, rfl⟩
    rw [processRegenQueue]
    simp only [List.nil_append, List.length_singleton, Nat.succ_ne_zero, if_false]
    rw [regenPass_single _ ⟨c, filter⟩ rfl]
    simp only [hne, if_false, hex]
    simp only [List.nil_append, List.length_singleton, gt_iff_lt, Nat.zero_lt_one, if_true]
    rw [processRegenQueue]
    simp only [List.length_singleton, Nat.succ_ne_zero, if_false]
    rw [regenPass_single _ ⟨c, filter⟩ rfl]
    simp
  · simp only [hany, if_false] at hex
    obtain ⟨g', hg, _⟩ := populateDependencies_spec c filter found g nF hnF hcols
    simp only [hg] at hex
    refine ⟨⟨oset cols c { col with
            pub := deliverUpdate col.pub .filters (coerceResult data) filter },
          heap, [], errs, hist, af, gf ++ [c ++ filter], g', "", tr ++ [.exec c filter]⟩, ?_, rfl,
        hcol [] (gf ++ [c ++ filter]) g' "", rfl, rfl⟩
    rw [processRegenQueue]
    simp only [List.nil_append, List.length_singleton, Nat.succ_ne_zero, if_false]
    rw [regenPass_single _ ⟨c, filter⟩ rfl]
    simp only [hne, if_false, hex]
    simp

/-- C16, witness: `forceUpdate("A")` on `chainState`, where nothing has changed
since construction: `A` is executed once and its output slot holds `1`. -/
theorem C16_forceUpdate_executes_once_witness :
    chainState.regenQueue = [] ∧ chainState.lastRegenerated = ""
    ∧ getC chainState "c" = some chainCollection
    ∧ (oget chainCollection.filters "A").isSome = true
    ∧ ∃ s', forceUpdate 2 chainState "c" "A" = .ok s'
      ∧ s'.trace = chainState.trace ++ [.exec "c" "A"]
      ∧ (∃ col', getC s' "c" = some col'
          ∧ oget col'.pub.filters "A" = some (coerceResult (nv 1)))
      ∧ s'.regenQueue = [] ∧ s'.lastRegenerated = "" :=
  ⟨rfl, rfl, rfl, rfl,
    C16_forceUpdate_executes_once 0 chainState "c" "A" chainCollection
      (.read "c" .filters "B" fun x => .ret (id x)) (nv 1) [⟨"c", "B"⟩] ⟨["c/B"], []⟩
      rfl rfl rfl rfl rfl rfl (by decide)⟩

/-- C17: let the execution of the filter `F` of collection `c` discover the
pairs `found`, one of which has a property name recorded as a declared filter
(in `allFilters`) and is not recorded as generated (its `collection ++ property`
is not in `generatedFilters`).  Then `executeAndAnalyseFilter(F)` returns with
the dependency graph unchanged, the generated list unchanged, and the queue
extended by exactly one entry, for `F`, whatever else `found` holds. -/
theorem C17_deferred_filter_is_enqueued_once (s : State) (c filter : String) (col : Collection)
    (prog : FilterProg) (data : Val) (found : List Entry) (dep : Entry)
    (hc : getC s c = some col) (hF : oget col.filters filter = some prog)
    (hrun : prog.run s [] = some (data, found))
    (hdep : dep ∈ found) (hfilter : dep.property ∈ s.allFilters)
    (hgen : dep.collection ++ dep.property ∉ s.generatedFilters) :
    ∃ s', executeAndAnalyseFilter s c filter = .ok s'
      ∧ s'.dependencyGraph = s.dependencyGraph
      ∧ s'.generatedFilters = s.generatedFilters
      ∧ s'.regenQueue = s.regenQueue ++ [⟨c, filter⟩] := by
  have hany : found.any (isMissingDependency s) = true := by
    rw [List.any_eq_true]
    exact ⟨dep, hdep, by simp [isMissingDependency, hfilter, hgen]⟩
  rw [executeAndAnalyseFilter_spec s c filter col prog data found hc hF hrun]
  simp only [hany, if_true]
  exact ⟨_, rfl, rfl, rfl, rfl⟩

/-- C17, witness: before any filter of `chainConfig` has run, the filter `A`
reads the output of the filter `B`; executing `A` leaves the graph and the
generated list as they are and puts `A` in the queue. -/
theorem C17_deferred_filter_is_enqueued_once_witness :
    getC (preparedState [("c", chainConfig)]) "c" = some chainPrepared
    ∧ (oget chainPrepared.filters "A").isSome = true
    ∧ "B" ∈ (preparedState [("c", chainConfig)]).allFilters
    ∧ "c" ++ "B" ∉ (preparedState [("c", chainConfig)]).generatedFilters
    ∧ ∃ s', executeAndAnalyseFilter (preparedState [("c", chainConfig)]) "c" "A" = .ok s'
      ∧ s'.dependencyGraph = (preparedState [("c", chainConfig)]).dependencyGraph
      ∧ s'.generatedFilters = []
      ∧ s'.regenQueue = [⟨"c", "A"⟩] :=
  ⟨rfl, rfl, by decide, by decide,
    C17_deferred_filter_is_enqueued_once (preparedState [("c", chainConfig)]) "c" "A"
      chainPrepared (.read "c" .filters "B" fun x => .ret (id x)) (.arr []) [⟨"c", "B"⟩]
      ⟨"c", "B"⟩ rfl rfl rfl (by decide) (by decide) (by decide)⟩

/-- C18, the code at the failing inputs: the test is on the property name alone
(`allFilters` holds filter names of every collection) and on the string
`collection ++ property`.  In `clashState` the pair `c1`, `x` names a data
property, and it counts as a missing dependency because `c2` declares a filter
named `x`: `F` is deferred at construction and at its retry, is never generated,
gets no edge from `x`, and is not executed by the write `c1.x = 5`, so that its
output stays `1`.  Under `concatConfigs`, once `a/bc` is generated the pair `ab`,
`c` does not count as missing although the filter `c` of `ab` has not run: `F`
is generated from the placeholder output of `c` and keeps it after `c` has
produced `9`. -/
theorem C18_deferral_test_ignores_the_collection :
    clashState.allFilters = ["F", "x"]
    ∧ clashState.generatedFilters = ["c2x"]
    ∧ isMissingDependency clashState ⟨"c1", "x"⟩ = true
    ∧ clashState.trace = [.exec "c1" "F", .exec "c2" "x", .exec "c1" "F"]
    ∧ nodeOf clashState.dependencyGraph "c1" "x" = some ⟨[], []⟩
    ∧ (write 10 clashState "c1" .root "x" (nv 5)).threw = false
    ∧ (write 10 clashState "c1" .root "x" (nv 5)).state.trace = clashState.trace
    ∧ rootValue (write 10 clashState "c1" .root "x" (nv 5)).state "c1" "x" = some (nv 5)
    ∧ filterOutputs (write 10 clashState "c1" .root "x" (nv 5)).state "c1" = some [("F", nv 1)]
    ∧ (executeAndAnalyseFilter (preparedState concatConfigs) "a" "bc").state.generatedFilters
        = ["abc"]
    ∧ isMissingDependency
        (executeAndAnalyseFilter (preparedState concatConfigs) "a" "bc").state ⟨"ab", "c"⟩ = false
    ∧ concatState.trace = [.exec "a" "bc", .exec "ab" "F", .exec "ab" "c"]
    ∧ filterOutputs concatState "ab" = some [("F", .arr []), ("c", nv 9)] := by
  refine ⟨?_, ?_, ?_, ?_, ?_, ?_, ?_, ?_, ?_, ?_, ?_, ?_, ?_⟩ <;> rfl

/-- C19: let the filter `F` of collection `c` be executed while the discovery
buffer holds the pairs `buffer` (none, unless a filter raised while recording),
let the run return with the pairs `found` in the buffer, none of which is
recorded as a declared filter that is not generated, and let the graph hold the
node of `F` and an entry for the collection of every discovered pair.  The
pairs of `buffer` are among the discovered pairs.  `executeAndAnalyseFilter(F)`
returns and, in the graph it leaves: the key `c'/p` of every discovered pair is
in the dependencies list of the node of `F`; `c/F` is in the dependents list of
every discovered pair that was a node; a list of a node that had no repeated key
has none (so the lists, empty at construction, never get one, however often
filters are executed); and `c ++ F` is in the generated list. -/
theorem C19_edges_recorded_without_repeats (buffer : List Entry) (s : State)
    (c filter : String) (col : Collection)
    (prog : FilterProg) (data : Val) (found : List Entry) (nF : GraphNode)
    (hc : getC s c = some col) (hF : oget col.filters filter = some prog)
    (hrun : prog.run s buffer = some (data, found))
    (hclear : ∀ dep ∈ found, dep.property ∉ s.allFilters
      ∨ dep.collection ++ dep.property ∈ s.generatedFilters)
    (hnF : nodeOf s.dependencyGraph c filter = some nF)
    (hcols : ∀ dep ∈ found, (oget s.dependencyGraph dep.collection).isSome = true) :
    (∀ dep ∈ buffer, dep ∈ found)
    ∧ ∃ s', executeAndAnalyseFilterFrom buffer s c filter = .ok s'
      ∧ (∀ dep ∈ found, ∃ n, nodeOf s'.dependencyGraph c filter = some n
          ∧ dep.collection ++ "/" ++ dep.property ∈ n.dependencies)
      ∧ (∀ dep ∈ found, ∀ n0, nodeOf s.dependencyGraph dep.collection dep.property = some n0 →
          ∃ n, nodeOf s'.dependencyGraph dep.collection dep.property = some n
            ∧ c ++ "/" ++ filter ∈ n.dependents)
      ∧ NodupKept s.dependencyGraph s'.dependencyGraph
      ∧ c ++ filter ∈ s'.generatedFilters := by
  have hany : ¬ found.any (isMissingDependency s) = true := by
    rw [List.any_eq_true]
    rintro ⟨dep, hdep, hm⟩
    simp only [isMissingDependency, decide_eq_true_eq] at hm
    rcases hclear dep hdep with h | h
    · exact h hm.1
    · exact hm.2 h
  obtain ⟨g', hg, h1, h2⟩ := populateDependencies_spec c filter found s.dependencyGraph nF hnF hcols
  have hk := (populateDependencies_kept c filter found s.dependencyGraph).2
  rw [hg] at hk
  have hrun' : prog.run { s with trace := s.trace ++ [.exec c filter] } buffer
      = some (data, found) :=
    (FilterProg.run_congr s { s with trace := s.trace ++ [.exec c filter] } rfl rfl prog
      buffer).trans hrun
  have hc' : getC { s with trace := s.trace ++ [.exec c filter] } c = some col := hc
  refine ⟨?_, ?_⟩
  · obtain ⟨t, ht⟩ := FilterProg.run_extends s prog buffer data found hrun
    intro dep hdep
    rw [ht]
    exact List.mem_append_left _ hdep
  · have hex : executeFilterFrom buffer { s with trace := s.trace ++ [.exec c filter] } c filter
        = .ok ({ s with
            trace := s.trace ++ [.exec c filter]
            collections := oset s.collections c { col with
              pub := deliverUpdate col.pub .filters (coerceResult data) filter } }, found) := by
      unfold executeFilterFrom
      rw [hc']
      simp only [hF, hrun']
      simp only [modC]
      have hm : oget s.collections c = some col := hc
      simp only [hm]
    unfold executeAndAnalyseFilterFrom
    rw [hc]
    simp only [hex]
    have hmiss2 : isMissingDependency { s with
          trace := s.trace ++ [.exec c filter]
          collections := oset s.collections c { col with
            pub := deliverUpdate col.pub .filters (coerceResult data) filter } }
        = isMissingDependency s := rfl
    rw [hmiss2]
    simp only [hany, if_false, hg]
    exact ⟨_, rfl, h1, h2, hk, by simp⟩

/-- C19, witness: before any filter of `chainConfig` has run, with the pair of
the method name `forceUpdate` left in the buffer by a run that raised, the
filter `B` reads the data property `D`.  Executing `B` puts `c/forceUpdate` and
`c/D` in the dependencies of `B`, `c/B` in the dependents of `D`, and `cB` in
the generated list. -/
theorem C19_edges_recorded_without_repeats_witness :
    getC (preparedState [("c", chainConfig)]) "c" = some chainPrepared
    ∧ nodeOf (preparedState [("c", chainConfig)]).dependencyGraph "c" "B" = some ⟨[], []⟩
    ∧ nodeOf (preparedState [("c", chainConfig)]).dependencyGraph "c" "D" = some ⟨[], []⟩
    ∧ (∀ dep ∈ [(⟨"c", "forceUpdate"⟩ : Entry)], dep ∈ [(⟨"c", "forceUpdate"⟩ : Entry), ⟨"c", "D"⟩])
    ∧ ∃ s', executeAndAnalyseFilterFrom [⟨"c", "forceUpdate"⟩] (preparedState [("c", chainConfig)]) "c" "B"
        = .ok s'
      ∧ (∀ dep ∈ [(⟨"c", "forceUpdate"⟩ : Entry), ⟨"c", "D"⟩],
          ∃ n, nodeOf s'.dependencyGraph "c" "B" = some n
          ∧ dep.collection ++ "/" ++ dep.property ∈ n.dependencies)
      ∧ (∀ dep ∈ [(⟨"c", "forceUpdate"⟩ : Entry), ⟨"c", "D"⟩], ∀ n0,
          nodeOf (preparedState [("c", chainConfig)]).dependencyGraph
            dep.collection dep.property = some n0 →
          ∃ n, nodeOf s'.dependencyGraph dep.collection dep.property = some n
            ∧ "c" ++ "/" ++ "B" ∈ n.dependents)
      ∧ NodupKept (preparedState [("c", chainConfig)]).dependencyGraph s'.dependencyGraph
      ∧ "c" ++ "B" ∈ s'.generatedFilters :=
  ⟨rfl, rfl, rfl,
    C19_edges_recorded_without_repeats [⟨"c", "forceUpdate"⟩] (preparedState [("c", chainConfig)]) "c" "B"
      chainPrepared (.read "c" .root "D" fun x => .ret (id x)) (nv 1) [⟨"c", "forceUpdate"⟩, ⟨"c", "D"⟩]
      ⟨[], []⟩ rfl rfl rfl (by decide) rfl (by decide)⟩

/-- C20: neither `executeAndAnalyseFilter` (whether it returns or raises) nor
`populateDependencies` changes the node keys of the dependency graph, and every
node keeps its edges: the collection names and the property names under each
collection are the same lists after the call, and the dependencies list and the
dependents list a node had before the call are initial segments of the lists it
has after it. -/
theorem C20_graph_vertices_fixed_edges_kept (s : State) (c filter : String) (g : Graph)
    (found : List Entry) :
    GraphKept s.dependencyGraph (executeAndAnalyseFilter s c filter).state.dependencyGraph
    ∧ GraphKept g (graphAfter (populateDependencies c filter g found)) :=
  ⟨(executeAndAnalyseFilter_graph s c filter).1, (populateDependencies_kept c filter found g).1⟩

/-- C21, the code at the failing input: the graph `ladderGraph` is acyclic, of
depth 32 from the node `c/r` (no key is reached over 33 edges), and every key
reached from `c/r` names a node.  The traversal has no
visited set: it pushes every dependent of every key of a round, so each round
is twice as long as the one before, and the list `findAllDependents("r")` has to
return is longer than the greatest length of an array.  The source cannot build
it and does not return the set of reachable keys. -/
theorem C21_ladder_result_exceeds_array_length :
    nodeOf ladderGraph "c" "r" = some ⟨[], ladderRung 0⟩
    ∧ (∀ j k, ReachIn ladderGraph "c" "r" j k →
        (nodeOf ladderGraph (parseKey k).collection (parseKey k).property).isSome = true)
    ∧ (∀ k, ¬ ReachIn ladderGraph "c" "r" 33 k)
    ∧ (∀ j, j ≤ 31 → ∃ l, levelKeys ladderGraph (ladderRung 0) j = some l
        ∧ l.length = 2 * 2 ^ j)
    ∧ ∃ all, findAllDependents ladderGraph "c" "r" = some all ∧ maxArrayLength < all.length := by
  have hg := dependentsNamedCheck_sound ladderGraph ladderGraph_named
  have hstep : ∀ j, j < 31 → ∀ k, k ∈ ladderRung j →
      ∃ ds, dependentsOfKey ladderGraph k = some ds ∧ ds.length = 2
        ∧ ∀ d ∈ ds, d ∈ ladderRung (j + 1) :=
    fun j hj k hk => ⟨ladderRung (j + 1), ladderGraph_step j hj k hk, rfl, fun _ h => h⟩
  refine ⟨rfl, ?_, ?_, ?_, ?_⟩
  · intro j k h
    have hsome : (dependentsOfKey ladderGraph k).isSome = true := by
      cases h with
      | direct n k hn hk => exact hg _ _ n k hn hk
      | step j k0 k m _ hm hk => exact hg _ _ m k hm hk
    unfold dependentsOfKey at hsome
    simpa using hsome
  · intro k h
    have := (ladderGraph_reach 33 k h).1
    omega
  · intro j hj
    obtain ⟨l, h1, h2, _⟩ := levelKeys_double ladderGraph (ladderRung 0)
      (fun j k => k ∈ ladderRung j) 31 hstep (fun _ h => h) j hj
    exact ⟨l, h1, h2⟩
  · exact findAllDependents_long ladderGraph "c" "r" ⟨[], ladderRung 0⟩ rfl hg
      (fun j k => k ∈ ladderRung j) hstep (fun _ h => h) rfl

/-- C22, counterexample: on the graph whose node `c/a` is its own dependent,
the counter `loops` of `findAllDependents` ends at `1001`: the test
`loops > 1000` comes after the expansion of the round, so the round numbered
`1001` is made before the traversal is given up. -/
theorem C22_cycle_makes_1001_rounds :
    nodeOf cycleGraph "c" "a" = some ⟨[], ["c/a"]⟩
    ∧ (findLoopCount cycleGraph 1001 0 ["c/a"] ["c/a"]).map Prod.snd = some 1001 :=
  ⟨rfl, cycleGraph_rounds 1001 0 ["c/a"] (by decide) (by decide)⟩

/-- C22, amended: for every dependency graph and every node, the counted loop
computes what `findAllDependents` returns, and the number of expansion rounds it
makes is at most `1001` (`0` stands for a traversal that raised). -/
theorem C22_at_most_1001_rounds (g : Graph) (c p : String) (start : List String) :
    findAllDependents g c p
        = (nodeOf g c p).bind (fun n =>
            (findLoopCount g 1001 0 n.dependents n.dependents).map Prod.fst)
    ∧ ((findLoopCount g 1001 0 start start).map Prod.snd).getD 0 ≤ 1001 := by
  constructor
  · unfold findAllDependents
    cases nodeOf g c p with
    | none => rfl
    | some n => exact (findLoopCount_fst g 1001 0 n.dependents n.dependents).symm
  · cases h : findLoopCount g 1001 0 start start with
    | none => simp
    | some r => exact findLoopCount_le g 1001 0 start start r (by decide) h

/-- C23, the code at the failing input: in the graph `cliqueGraph`, which
`populateDependencies` builds for three filters that read one another, every
dependents key names a node.  Each key of a round contributes its two
dependents to the next round, so every round is twice as long as the one
before, and the list `findAllDependents("A")` has to accumulate is longer than
the greatest length of an array long before the round bound is reached: the
source does not terminate with a result on this graph. -/
theorem C23_clique_result_exceeds_array_length :
    DependentsNamed cliqueGraph
    ∧ (nodeOf cliqueGraph "c" "A").map (fun n => n.dependents) = some ["c/B", "c/C"]
    ∧ (nodeOf cliqueGraph "c" "B").map (fun n => n.dependents) = some ["c/A", "c/C"]
    ∧ (nodeOf cliqueGraph "c" "C").map (fun n => n.dependents) = some ["c/A", "c/B"]
    ∧ (∀ j, j ≤ 31 → ∃ l, levelKeys cliqueGraph ["c/B", "c/C"] j = some l
        ∧ l.length = 2 * 2 ^ j)
    ∧ ∃ all, findAllDependents cliqueGraph "c" "A" = some all ∧ maxArrayLength < all.length := by
  have hg := dependentsNamedCheck_sound cliqueGraph cliqueGraph_named
  have hstep : ∀ j, j < 31 → ∀ k, k ∈ ["c/A", "c/B", "c/C"] →
      ∃ ds, dependentsOfKey cliqueGraph k = some ds ∧ ds.length = 2
        ∧ ∀ d ∈ ds, d ∈ ["c/A", "c/B", "c/C"] :=
    fun _ _ k hk => cliqueGraph_step k hk
  refine ⟨hg, rfl, rfl, rfl, ?_, ?_⟩
  · intro j hj
    obtain ⟨l, h1, h2, _⟩ := levelKeys_double cliqueGraph ["c/B", "c/C"]
      (fun _ k => k ∈ ["c/A", "c/B", "c/C"]) 31 hstep (by simp) j hj
    exact ⟨l, h1, h2⟩
  · exact findAllDependents_long cliqueGraph "c" "A" ⟨["c/B", "c/C"], ["c/B", "c/C"]⟩ rfl hg
      (fun _ k => k ∈ ["c/A", "c/B", "c/C"]) hstep (by simp) rfl

/-- C24, the code at the failing input: on a collection without a primary key,
`collect({name: "x"})` pushes two entries to the error sink for the one record.
`findPrimaryKey` rejects it (`No primary key supplied.`), `processDataItem`
goes on, tests `data.hasOwnProperty(null)` and rejects it again (`Primary key
mismatch`). -/
theorem C24_rejected_record_is_logged_twice :
    rejectionState.errors = []
    ∧ primaryKeyOf rejectionState "c" = some none
    ∧ (collect 10 rejectionState "c" [[("name", sv "x")]] none).threw = false
    ∧ (collect 10 rejectionState "c" [[("name", sv "x")]] none).state.errors
        = [⟨0, "No primary key supplied."⟩, ⟨0, "Primary key mismatch"⟩] := by
  refine ⟨?_, ?_, ?_, ?_⟩ <;> rfl

/-- C25, counterexample: on a collection without a primary key,
`collect({id: 1, _id: 2})` leaves the primary key `_id` and stores the record
under the key `2`; the order of the two fields in the record does not matter. -/
theorem C25_both_names_give_underscore_id :
    primaryKeyOf rejectionState "c" = some none
    ∧ primaryKeyOf (collect 10 rejectionState "c" [[("id", nv 1), ("_id", nv 2)]] none).state "c"
        = some (some "_id")
    ∧ storeAndIndexes (collect 10 rejectionState "c" [[("id", nv 1), ("_id", nv 2)]] none).state "c"
        = some ([("2", 0)], [("list", [])])
    ∧ primaryKeyOf (collect 10 rejectionState "c" [[("_id", nv 2), ("id", nv 1)]] none).state "c"
        = some (some "_id") := by
  refine ⟨?_, ?_, ?_, ?_⟩ <;> rfl

/-- C25, amended: on a collection whose primary key is not set, after
`collect(r)` or `collect(r, index)` of one record, whether the call returns or
raises, the primary key is the last name of the list `id`, `_id` that the record
has: `_id` when it has `_id` (also when it has `id` as well), `id` when it has
`id` only, and still unset when it has neither. -/
theorem C25_last_conventional_name_wins (fuel : Nat) (s : State) (c : String)
    (col : Collection) (r : Obj) (index : Option String)
    (hc : getC s c = some col) (hno : noPrimaryKey col = true) :
    ∃ col', getC (collect fuel s c [r] index).state c = some col'
      ∧ col'.primaryKey
          = (if ohas r "_id" then some "_id" else if ohas r "id" then some "id"
              else col.primaryKey) := by
  have hd : ∀ col0 : Collection, col0.primaryKey = col.primaryKey →
      (discoverKey r col0).primaryKey
        = (if ohas r "_id" then some "_id" else if ohas r "id" then some "id"
            else col.primaryKey) := by
    intro col0 h
    rw [(discoverKey_spec r col0).1, h]
  have key : ∀ (s0 : State) (entry : HistoryItem),
      (∃ col0, getC s0 c = some col0 ∧ col0.primaryKey = col.primaryKey) →
      ∃ col', getC (Result.state (match processDataItems c index s0 [r] with
          | .error s1 => Except.error s1
          | .ok s1 =>
            regenerateGroupsAndFilters fuel { s1 with history := s1.history ++ [entry] } c)) c
          = some col'
        ∧ col'.primaryKey
          = (if ohas r "_id" then some "_id" else if ohas r "id" then some "id"
              else col.primaryKey) := by
    intro s0 entry h0
    obtain ⟨col0, hc0, hpk0⟩ := h0
    have hno0 : noPrimaryKey col0 = true := by
      unfold noPrimaryKey at hno ⊢
      rw [hpk0]; exact hno
    obtain ⟨col1, hc1, hpk1⟩ := processDataItem_primaryKey s0 c col0 r index hc0
    simp only [hno0, if_true] at hpk1
    simp only [processDataItems]
    cases hres : processDataItem s0 c r index with
    | error s1 =>
      rw [hres] at hc1
      exact ⟨col1, hc1, hpk1.trans (hd col0 hpk0)⟩
    | ok s1 =>
      rw [hres] at hc1
      dsimp only
      have hk := continues_of_keeps c (regenerateGroupsAndFilters_keeps _ fuel
        { s1 with history := s1.history ++ [entry] } c (targetsIn_own _ c))
      obtain ⟨col2, hc2, hpk2⟩ := continues_primaryKey hk col1 hc1
      exact ⟨col2, hc2, hpk2.trans (hpk1.trans (hd col0 hpk0))⟩
  unfold collect
  dsimp only
  apply key
  split
  · rw [getC_modC, hc]
    simp only [if_true, Option.map_some']
    exact ⟨_, rfl, rfl⟩
  · exact ⟨col, hc, rfl⟩

/-- C25, witness: `collect({id: 1, _id: 2}, "list")` on `rejectionState`. -/
theorem C25_last_conventional_name_wins_witness :
    getC rejectionState "c" = some rejectionCollection
    ∧ noPrimaryKey rejectionCollection = true
    ∧ ∃ col', getC (collect 10 rejectionState "c" [[("id", nv 1), ("_id", nv 2)]]
          (some "list")).state "c" = some col'
        ∧ col'.primaryKey = some "_id" :=
  ⟨rfl, rfl,
    C25_last_conventional_name_wins 10 rejectionState "c" rejectionCollection
      [("id", nv 1), ("_id", nv 2)] (some "list") rfl rfl⟩

/-- C26, counterexample: `posts` declares the relation `owner -> users`, and
record `1` of `posts` (`owner = 5`) was resolved while `users` held a record
under `5`.  After `users.delete(5)` the store of `users` is empty, yet
`buildGroupFromIndex("list")` returns the record of `1` still carrying the
deleted foreign record (heap address 0) under `users`: a relation without a
foreign record leaves the field as it is. -/
theorem C26_stale_foreign_record_stays :
    storeRecords staleRelationState "users" = some []
    ∧ indexLists staleRelationState "posts" = some [("list", [nv 1])]
    ∧ (buildGroupFromIndex staleRelationState "posts" "list").threw = false
    ∧ groupOf staleRelationState "posts" "list" = some [.ref 1]
    ∧ storeRecords (buildGroupFromIndex staleRelationState "posts" "list").state "posts"
        = some [("1", [("id", nv 1), ("owner", nv 5), ("users", .atom (.ref 0))])] := by
  refine ⟨?_, ?_, ?_, ?_, ?_⟩ <;> rfl

/-- C26, amended: let every key of the index have a record in the store, let
every relation object name a collection and still inherit `hasOwnProperty`, and
let the relations attach under pairwise different fields, none of which is the
source field of a relation.  Then `buildGroupFromIndex(index)` returns the array
of the record objects stored under the keys, and for a key of the index, its
record object `r` and a relation whose source field `r` has: if the target store
has a record under the value of that field, `r` carries it under the relation's
field (`Relation.target`: the value of `assignTo` when the relation object has a
truthy one, otherwise the value of `fromCollectionName`, either as it is when
the group is built); if the target store has none and the value names no
inherited member, that field of `r` is what it was before the call; if the
target store has none and the value names an inherited member, `r` carries
that member. -/
theorem C26_relation_attaches_found_record (s : State) (c index : String) (col : Collection)
    (keys : List Val) (id : Val) (r : Nat) (relationKey : String) (rel : Relation)
    (target : Collection)
    (hc : getC s c = some col) (hi : oget col.indexes index = some keys)
    (hkeys : ∀ k ∈ keys, (oget col.data k.toKey).isSome = true)
    (hcols : ∀ e ∈ col.relations, (getC s e.2.fromCollectionName).isSome = true)
    (hun : Unshadowed col.relations)
    (hnd : (relationTargets col.relations).Nodup) (hap : TargetsApart col.relations)
    (hid : id ∈ keys) (hr : oget col.data id.toKey = some r) (hlt : r < s.heap.length)
    (hrel : (relationKey, rel) ∈ col.relations)
    (hsrc : ohas (s.heap.getD r []) relationKey = true)
    (ht : getC s rel.fromCollectionName = some target) :
    ∃ s', buildGroupFromIndex s c index = .ok s'
      ∧ groupOf s c index = some (keys.map (atomOf col.data))
      ∧ Atom.ref r ∈ keys.map (atomOf col.data)
      ∧ (∀ f, oget target.data (field (s.heap.getD r []) relationKey).toKey = some f →
          oget (s'.heap.getD r []) rel.target = some (.atom (.ref f)))
      ∧ (oget target.data (field (s.heap.getD r []) relationKey).toKey = none →
          (field (s.heap.getD r []) relationKey).toKey ∉ inheritedNames →
          oget (s'.heap.getD r []) rel.target = oget (s.heap.getD r []) rel.target)
      ∧ (oget target.data (field (s.heap.getD r []) relationKey).toKey = none →
          (field (s.heap.getD r []) relationKey).toKey ∈ inheritedNames →
          oget (s'.heap.getD r []) rel.target
            = some (.atom (.native (field (s.heap.getD r []) relationKey).toKey))) := by
  obtain ⟨heap', hm⟩ := mapIndex_total s col hcols keys (fun k hk => Or.inl (hkeys k hk))
    (fun _ => hun) s.heap []
  rw [List.nil_append] at hm
  have hfield := (mapIndex_field s col hnd hap relationKey rel hrel (by rw [ht]; rfl) r
    (s.heap.getD r []) hsrc s.heap.length keys s.heap [] heap' _ hm rfl rfl
    (fun _ _ _ _ => rfl)).2 ⟨id, hid, hr⟩ hlt
  obtain ⟨target', ht', hfound, hnone, hinh⟩ := hfield
  rw [ht] at ht'
  cases ht'
  refine ⟨_, buildGroupFromIndex_eq s c index col keys heap' _ hc hi hm, ?_, ?_, ?_, ?_, ?_⟩
  · simp only [groupOf, hc, hi, hm]
  · refine List.mem_map.2 ⟨id, hid, ?_⟩
    simp [atomOf, hr]
  · rw [modC_heap]; exact hfound
  · rw [modC_heap]; exact hnone
  · rw [modC_heap]; exact hinh

/-- C26, witness: record `1` of `posts` in `relationState`, whose `owner = 5` is
a key of `users`: after `buildGroupFromIndex("list")` it carries the record of
`5` (heap address 0) under `users`.  The relation object holds the array that
`collect(..., "list")` made for the index `list`. -/
theorem C26_relation_attaches_found_record_witness :
    getC relationState "posts" = some relationPosts
    ∧ oget relationPosts.indexes "list" = some [nv 1]
    ∧ oget relationPosts.data (nv 1).toKey = some 1
    ∧ relationPosts.relations
        = [("owner", ⟨[("fromCollectionName", sv "users"), ("list", .arr [.num 5])]⟩)]
    ∧ ∃ s', buildGroupFromIndex relationState "posts" "list" = .ok s'
      ∧ oget (s'.heap.getD 1 []) "users" = some (.atom (.ref 0)) := by
  have hrels : relationPosts.relations
      = [("owner", ⟨[("fromCollectionName", sv "users"), ("list", .arr [.num 5])]⟩)] := rfl
  have h := C26_relation_attaches_found_record relationState "posts" "list" relationPosts
    [nv 1] (nv 1) 1 "owner" ⟨[("fromCollectionName", sv "users"), ("list", .arr [.num 5])]⟩
    relationUsers rfl rfl
    (by intro k hk; simp only [List.mem_singleton] at hk; subst hk; rfl)
    (by intro e he; rw [hrels] at he; simp only [List.mem_singleton] at he; subst he; rfl)
    (by intro e he; rw [hrels] at he; simp only [List.mem_singleton] at he; subst he; rfl)
    (by rw [hrels]; simp [relationTargets])
    (by
      intro e he e' he'
      rw [hrels] at he he'
      simp only [List.mem_singleton] at he he'
      subst he he'
      decide)
    (List.mem_singleton.2 rfl) rfl (by decide) (by rw [hrels]; exact List.mem_singleton.2 rfl)
    rfl rfl
  obtain ⟨s', h1, _, _, h2, _⟩ := h
  exact ⟨rfl, rfl, rfl, hrels, s', h1, h2 0 rfl⟩

/-- C27: let `buildGroupFromIndex(index)` return on a state where every
relation of the collection names a collection.  Called again on the state it
left, with nothing in between, it returns again; the resolved array is the same
array of record objects; the collections are the same, so the group output and
the public key-list output are what the first call left; and the record objects
have the same contents as after the first call when the relations attach under
pairwise different fields that are not source fields of relations. -/
theorem C27_second_build_gives_same_outputs (s s1 : State) (c index : String)
    (col : Collection) (hc : getC s c = some col)
    (hcols : ∀ e ∈ col.relations, (getC s e.2.fromCollectionName).isSome = true)
    (h1 : buildGroupFromIndex s c index = .ok s1) :
    ∃ s2, buildGroupFromIndex s1 c index = .ok s2
      ∧ groupOf s1 c index = groupOf s c index
      ∧ (groupOf s c index).isSome = true
      ∧ s2.collections = s1.collections
      ∧ ((relationTargets col.relations).Nodup → TargetsApart col.relations →
          s2.heap = s1.heap) := by
  obtain ⟨col0, keys, heap1, data, hc0, hi, hm, hs1⟩ := buildGroupFromIndex_ok_inv s s1 c index h1
  rw [hc] at hc0
  cases hc0
  obtain ⟨_, _, hkeys, hun⟩ := mapIndex_out s col keys s.heap [] heap1 data hm
  have hc1 : getC s1 c = some (delivered data index col) := by
    rw [hs1, getC_modC]
    simp only [if_true]
    show (getC s c).map (delivered data index) = _
    rw [hc]; rfl
  have hstores : ∀ x, (getC s1 x).map (fun col => col.data)
      = (getC s x).map fun col => col.data := by
    intro x
    rw [hs1, getC_modC]
    by_cases hx : c = x
    · subst hx
      simp only [if_true]
      show ((getC s c).map (delivered data index)).map (fun col => col.data) = _
      rw [hc]; rfl
    · simp only [hx, if_false]; rfl
  have hheap1 : s1.heap = heap1 := by rw [hs1, modC_heap]
  obtain ⟨heap2, hm2'⟩ := mapIndex_total s col hcols keys hkeys hun heap1 []
  have hdata : data = [] ++ keys.map (atomOf col.data) :=
    (mapIndex_out s col keys s.heap [] heap1 data hm).1
  rw [← hdata] at hm2'
  have hm2 : mapIndex s1 (delivered data index col) keys s1.heap [] = .ok (heap2, data) := by
    rw [mapIndex_congr s s1 col (delivered data index col) hstores rfl rfl, hheap1]
    exact hm2'
  have hi1 : oget (delivered data index col).indexes index = some keys := hi
  refine ⟨_, buildGroupFromIndex_eq s1 c index _ keys heap2 data hc1 hi1 hm2, ?_, ?_, ?_, ?_⟩
  · simp only [groupOf, hc1, hi1, hm2, hc, hi, hm]
  · simp only [groupOf, hc, hi, hm]; rfl
  · have hget : oget s1.collections c = some (delivered data index col) := hc1
    unfold modC
    simp only [hget]
    rw [delivered_idem]
    exact oset_same _ _ _ hget
  · intro hnd hap
    rw [modC_heap, hheap1]
    have hfix := (mapIndex_fixed s col hcols hnd hap keys s.heap [] heap1 data hm).2
    have hnoop := mapIndex_noop s col keys heap1 [] hkeys hun hfix
    rw [← hdata, hm2'] at hnoop
    simp only [Except.ok.injEq, Prod.mk.injEq, and_true] at hnoop
    exact hnoop

/-- C27, witness: `buildGroupFromIndex("list")` twice on `relationState`;
both calls return the array holding the record of `1`. -/
theorem C27_second_build_gives_same_outputs_witness :
    getC relationState "posts" = some relationPosts
    ∧ (buildGroupFromIndex relationState "posts" "list").threw = false
    ∧ ∃ s2, buildGroupFromIndex (buildGroupFromIndex relationState "posts" "list").state
          "posts" "list" = .ok s2
        ∧ groupOf (buildGroupFromIndex relationState "posts" "list").state "posts" "list"
            = groupOf relationState "posts" "list"
        ∧ s2.collections = (buildGroupFromIndex relationState "posts" "list").state.collections := by
  have hrels : relationPosts.relations
      = [("owner", ⟨[("fromCollectionName", sv "users"), ("list", .arr [.num 5])]⟩)] := rfl
  obtain ⟨s2, h1, h2, _, h3, _⟩ := C27_second_build_gives_same_outputs relationState
    (buildGroupFromIndex relationState "posts" "list").state "posts" "list" relationPosts rfl
    (by intro e he; rw [hrels] at he; simp only [List.mem_singleton] at he; subst he; rfl)
    rfl
  exact ⟨rfl, rfl, s2, h1, h2, h3⟩

/-- C28, the code at the failing input: the record with the numeric key `1` is
in the store and in `list`.  `processDataItem` looks for the key in
`Object.keys(this._data)`, which holds strings, so the number `1` is not found
and `findGroupsToRegen` is not called: `list` does not become pending, and after
`collect({id: 1, name: "b"}, "other")` only `other` has been rebuilt, the group
`list` still holding the replaced record object.  With the string key `a` the
same step makes `list` pending. -/
theorem C28_numeric_key_marks_no_index :
    storeAndIndexes oneRecordState "c" = some ([("1", 0)], [("list", [nv 1])])
    ∧ pendingIndexes oneRecordState "c" = some []
    ∧ pendingIndexes
        (processDataItem oneRecordState "c" [("id", nv 1), ("name", sv "b")] none).state "c"
        = some []
    ∧ (collect 10 oneRecordState "c" [[("id", nv 1), ("name", sv "b")]] (some "other")).state.trace
        = oneRecordState.trace ++ [.rebuild "c" "other"]
    ∧ storeAndIndexes
        (collect 10 oneRecordState "c" [[("id", nv 1), ("name", sv "b")]] (some "other")).state "c"
        = some ([("1", 1)], [("list", [nv 1]), ("other", [nv 1])])
    ∧ groupOutputs
        (collect 10 oneRecordState "c" [[("id", nv 1), ("name", sv "b")]] (some "other")).state "c"
        = some [("list", .arr [.ref 0])]
    ∧ storeAndIndexes stringKeyState "c" = some ([("a", 0)], [("list", [sv "a"])])
    ∧ pendingIndexes stringKeyState "c" = some []
    ∧ pendingIndexes (processDataItem stringKeyState "c" (recordA "n2") none).state "c"
        = some ["list"] := by
  refine ⟨?_, ?_, ?_, ?_, ?_, ?_, ?_, ?_, ?_⟩ <;> rfl

/-- C29, the code at the failing input: the graph of `oneRecordState` has the
node of the declared group `list` only.  After `newGroup("extra", [])`,
`put([1], "extra")` and `move([1], "list", "extra")` change the key lists and
then raise in `findAllDependents`, which reads `graph[c]["extra"].dependents`;
so does `move([1], "list", "fresh")` after `collect({id: 2}, "fresh")`.  With
the declared `list` as destination `put` returns. -/
theorem C29_move_and_put_raise_on_runtime_index :
    oneRecordState.dependencyGraph = [("c", [("list", ⟨[], []⟩)])]
    ∧ nodeOf (newGroup oneRecordState "c" "extra" []).dependencyGraph "c" "extra" = none
    ∧ (put 10 (newGroup oneRecordState "c" "extra" []) "c" [nv 1] "extra").threw = true
    ∧ indexLists (put 10 (newGroup oneRecordState "c" "extra" []) "c" [nv 1] "extra").state "c"
        = some [("list", [nv 1]), ("extra", [nv 1])]
    ∧ (move 10 (newGroup oneRecordState "c" "extra" []) "c" [nv 1] "list" "extra").threw = true
    ∧ indexLists
        (move 10 (newGroup oneRecordState "c" "extra" []) "c" [nv 1] "list" "extra").state "c"
        = some [("list", []), ("extra", [nv 1])]
    ∧ (collect 10 oneRecordState "c" [[("id", nv 2)]] (some "fresh")).threw = false
    ∧ (move 10 (collect 10 oneRecordState "c" [[("id", nv 2)]] (some "fresh")).state "c"
        [nv 1] "list" "fresh").threw = true
    ∧ (put 10 oneRecordState "c" [nv 1] "list").threw = false := by
  refine ⟨?_, ?_, ?_, ?_, ?_, ?_, ?_, ?_, ?_⟩ <;> rfl

/-- C30, the code at the failing input: `increment` and `decrement` call
`validateNumberForDataProperty(...)` without `this.`, a name the module does not
bind, so every call raises a `ReferenceError` at its first statement and the
record keeps `n = 5`.  The method itself, had it been reached, accepts the field
`n = 5` and refuses the field `z = 0`, because it tests
`!this._data[primaryKey][property]` before it tests the type. -/
theorem C30_increment_raises_and_zero_is_refused :
    storeRecords counterState "c" = some [("1", [("id", nv 1), ("n", nv 5), ("z", nv 0)])]
    ∧ (increment 10 counterState "c" (nv 1) "n" (nv 2)).threw = true
    ∧ (increment 10 counterState "c" (nv 1) "n" (nv 2)).state = counterState
    ∧ (decrement 10 counterState "c" (nv 1) "n" (nv 2)).threw = true
    ∧ (decrement 10 counterState "c" (nv 1) "n" (nv 2)).state = counterState
    ∧ validateNumberForDataProperty counterState "c" (nv 1) "n" (nv 2) = true
    ∧ validateNumberForDataProperty counterState "c" (nv 1) "z" (nv 2) = false := by
  refine ⟨?_, ?_, ?_, ?_, ?_, ?_, ?_⟩ <;> rfl

/-- C31, the code at the failing input: collection `c` has the index `list`
only.  `getGroup` tests `this._indexes[id]`, which is truthy for the inherited
member `toString`: `getGroup("toString")` calls `buildGroupFromIndex`, which
raises at `.map` of the member, where the empty array was to be returned.  For
the name `missing` the call returns the empty array, and for `list` the array
holding the stored record. -/
theorem C31_getGroup_of_inherited_name_raises :
    indexLists oneRecordState "c" = some [("list", [nv 1])]
    ∧ (getGroup oneRecordState "c" "toString").threw = true
    ∧ getGroupValue oneRecordState "c" "toString" = none
    ∧ (getGroup oneRecordState "c" "missing").threw = false
    ∧ getGroupValue oneRecordState "c" "missing" = some []
    ∧ getGroupValue oneRecordState "c" "list" = some [.ref 0] := by
  refine ⟨?_, ?_, ?_, ?_, ?_, ?_⟩ <;> rfl

/-- C32, the code at the failing input: `newGroup("g", [1])` records in its
history entry the very array it installs as the index `g`.
`collect({id: 2}, "g")` then pushes the key `2` onto that array: the call
returns, and the history it leaves is not an extension of the history before it,
because the payload of the existing `newGroup` entry has changed from `[1]` to
`[1, 2]`.  `put([1], "g")` alters the entry in the same way, while its own entry
holds a copy of the key list.  And `collect({id: 2}, "constructor")`, which
raises before `recordHistory`, appends no entry. -/
theorem C32_push_alters_newGroup_entry :
    (newGroup oneRecordState "c" "g" [nv 1]).history
        = [⟨"c", .collect [0] ["list"] []⟩, ⟨"c", .newGroup "g" [nv 1]⟩]
    ∧ (collect 10 (newGroup oneRecordState "c" "g" [nv 1]) "c" [[("id", nv 2)]] (some "g")).threw
        = false
    ∧ (collect 10 (newGroup oneRecordState "c" "g" [nv 1]) "c" [[("id", nv 2)]]
          (some "g")).state.history
        = [⟨"c", .collect [0] ["list"] []⟩, ⟨"c", .newGroup "g" [nv 1, nv 2]⟩,
            ⟨"c", .collect [1] ["g"] []⟩]
    ∧ (put 10 (newGroup oneRecordState "c" "g" [nv 1]) "c" [nv 1] "g").state.history
        = [⟨"c", .collect [0] ["list"] []⟩, ⟨"c", .newGroup "g" [nv 1, nv 1]⟩,
            ⟨"c", .put [nv 1] [nv 1]⟩]
    ∧ (collect 10 oneRecordState "c" [[("id", nv 2)]] (some "constructor")).state.history
        = oneRecordState.history := by
  refine ⟨?_, ?_, ?_, ?_, ?_⟩ <;> rfl

/-- C33: in a collection whose primary-key field is set (declared, or
discovered by an earlier `collect`; the empty string counts as not set), the
field is the same after every `collect`, `update`, `delete`, `move` and `put`,
whatever the arguments and whether the call returns or raises. -/
theorem C33_primary_key_is_never_reassigned (fuel : Nat) (s : State) (c : String)
    (col : Collection) (pk : String) (hc : getC s c = some col)
    (hpk : col.primaryKey = some pk) (hne : pk ≠ "") :
    (∀ (data : List Obj) (index : Option String),
      ∃ col', getC (collect fuel s c data index).state c = some col'
        ∧ col'.primaryKey = some pk)
    ∧ (∀ id p, ∃ col', getC (update fuel s c id p).state c = some col'
        ∧ col'.primaryKey = some pk)
    ∧ (∀ items, ∃ col', getC (delete fuel c s items).state c = some col'
        ∧ col'.primaryKey = some pk)
    ∧ (∀ ids sourceIndex destIndex,
        ∃ col', getC (move fuel s c ids sourceIndex destIndex).state c = some col'
          ∧ col'.primaryKey = some pk)
    ∧ (∀ ids destIndex, ∃ col', getC (put fuel s c ids destIndex).state c = some col'
        ∧ col'.primaryKey = some pk) := by
  have hn : noPrimaryKey col = false := by
    unfold noPrimaryKey
    rw [hpk]
    simp [hne]
  have hk : ∀ s', Continues c s s' → ∃ col', getC s' c = some col' ∧ col'.primaryKey = some pk := by
    intro s' h
    obtain ⟨col', h1, h2⟩ := continues_primaryKey h col hc
    exact ⟨col', h1, h2.trans hpk⟩
  refine ⟨?_, fun id p => hk _ (update_continues fuel s c id p),
    fun items => hk _ (delete_continues fuel c items s),
    fun ids A B => hk _ (move_continues fuel s c ids A B),
    fun ids B => hk _ (put_continues fuel s c ids B)⟩
  intro data index
  obtain ⟨col', h1, h2⟩ := collect_primaryKey fuel s c col data index hc hn
  exact ⟨col', h1, h2.trans hpk⟩

/-- C33, witness: `oneRecordState` declares the primary key `id`; after the
`collect` of a record that has the field `_id` as well, the primary key is
still `id`. -/
theorem C33_primary_key_is_never_reassigned_witness :
    primaryKeyOf oneRecordState "c" = some (some "id")
    ∧ ∃ col', getC (collect 10 oneRecordState "c" [[("_id", nv 7), ("id", nv 8)]]
          (some "list")).state "c" = some col'
        ∧ col'.primaryKey = some "id" :=
  ⟨rfl, (C33_primary_key_is_never_reassigned 10 oneRecordState "c" oneRecordCollection "id"
    rfl rfl (by decide)).1 [[("_id", nv 7), ("id", nv 8)]] (some "list")⟩

/-- C34: let the queue be non-empty, the name of its first entry differ from
the last-processed marker and no two adjacent entries have the same
`collection/property` name; and let `Inv` be a set of states that holds the
state, does not depend on the queue or the marker, and in which the execution of
every queued filter returns without enqueuing anything and stays in the set.
Then `processRegenQueue`, given a recursion depth above the queue's length,
returns with the queue empty and the marker cleared, and the executions it has
made are those of the queued entries, each once, in queue order - although each
pass of its loop shifts entries off the array it iterates over. -/
theorem C34_drain_executes_each_entry_once_in_order (fuel : Nat) (s : State)
    (Inv : State → Prop) (hinv : Inv s)
    (hframe : ∀ (t : State) (q : List Entry) (m : String),
      Inv t → Inv { t with regenQueue := q, lastRegenerated := m })
    (hexec : ∀ (t : State) (e : Entry), Inv t → e ∈ s.regenQueue →
      ∃ t', executeAndAnalyseFilter t e.collection e.property = .ok t'
        ∧ t'.regenQueue = t.regenQueue ∧ Inv t')
    (hnames : List.Chain (fun a b => a ≠ b) s.lastRegenerated
      (s.regenQueue.map concatEntryName))
    (hne : s.regenQueue ≠ []) (hfuel : s.regenQueue.length < fuel) :
    ∃ s', processRegenQueue fuel s = .ok s'
      ∧ s'.regenQueue = [] ∧ s'.lastRegenerated = ""
      ∧ s'.trace = s.trace ++ execEvents s.regenQueue := by
  obtain ⟨s', h1, h2, h3, h4, _⟩ := processRegenQueue_drains Inv s.regenQueue hframe hexec
    fuel s hinv (fun e he => he) hnames hne hfuel
  exact ⟨s', h1, h2, h3, h4⟩

/-- C34, witness: `chainState` with the queue `[B, A]` and a cleared marker:
`processRegenQueue` executes `B`, then `A`, and returns with the queue empty.
Its loop makes one iteration per pass (the second entry is at index 1 of an
array that has one element left), so the drain takes two passes. -/
theorem C34_drain_executes_each_entry_once_in_order_witness :
    ∃ s', processRegenQueue 3 { chainState with regenQueue := [⟨"c", "B"⟩, ⟨"c", "A"⟩] } = .ok s'
      ∧ s'.regenQueue = [] ∧ s'.lastRegenerated = ""
      ∧ s'.trace = chainState.trace ++ [.exec "c" "B", .exec "c" "A"] :=
  C34_drain_executes_each_entry_once_in_order 3
    { chainState with regenQueue := [⟨"c", "B"⟩, ⟨"c", "A"⟩] }
    (fun t => SameProgram chainState t ∧ "cB" ∈ t.generatedFilters)
    ⟨⟨rfl, rfl, rfl, rfl⟩, by decide⟩ (fun _ _ _ h => h) chainState_executes
    (List.Chain.cons (by decide) (List.Chain.cons (by decide) List.Chain.nil)) (by simp)
    (by decide)

/-- C35, the code at the failing input: `threeGroupsState` is the state two
completed `collect` calls leave (`{id: "a", name: "n1"}` into `P`, then
`{id: "a", name: "n2"}` into `Q`).  The second call marks `Q` and `P` pending
and its loop rebuilds `Q` only: afterwards the pending-rebuild list is `[P]`,
and the output of `P` holds the replaced record object (address 0) while the
materialization of its key list gives the new one (address 1).  A `move`
aborted at the absent key `99` returns with the key lists changed (`Q = [1, 1]`,
`P = []`), no group rebuilt (the output of `P` still holds the record, while its
key list materializes to the empty array) and the public key list of `P`
still `[1]`. -/
theorem C35_outputs_lag_behind_key_lists :
    (collect 10
        (collect 10 (construct 10 [("c", threeGroupsConfig)]).state "c" [recordA "n1"]
          (some "P")).state
        "c" [recordA "n2"] (some "Q")).threw = false
    ∧ pendingIndexes threeGroupsState "c" = some ["P"]
    ∧ indexLists threeGroupsState "c" = some [("P", [sv "a"]), ("Q", [sv "a"]), ("R", [])]
    ∧ groupOutputs threeGroupsState "c"
        = some [("P", .arr [.ref 0]), ("Q", .arr [.ref 1]), ("R", .arr [])]
    ∧ groupOf threeGroupsState "c" "P" = some [.ref 1]
    ∧ (move 10 twoGroupsState "c" [nv 1, nv 99] "P" "Q").threw = false
    ∧ indexLists (move 10 twoGroupsState "c" [nv 1, nv 99] "P" "Q").state "c"
        = some [("Q", [nv 1, nv 1]), ("P", [])]
    ∧ groupOutputs (move 10 twoGroupsState "c" [nv 1, nv 99] "P" "Q").state "c"
        = some [("Q", .arr [.ref 0]), ("P", .arr [.ref 0])]
    ∧ groupOf (move 10 twoGroupsState "c" [nv 1, nv 99] "P" "Q").state "c" "P" = some []
    ∧ groupOf (move 10 twoGroupsState "c" [nv 1, nv 99] "P" "Q").state "c" "Q"
        = some [.ref 0, .ref 0]
    ∧ publicKeyList (move 10 twoGroupsState "c" [nv 1, nv 99] "P" "Q").state "c" "P"
        = some [nv 1] := by
  refine ⟨?_, ?_, ?_, ?_, ?_, ?_, ?_, ?_, ?_, ?_, ?_⟩ <;> rfl

/-- C36, the code at the failing input: in `oneRecordState` the index `list`
is `[1]` and the store holds the record of `1`.  `delete(1)` removes the record
and leaves the key in the index: the key list is still `[1]`, a key without a
record, and the rebuilt group output has the entry `undefined` for it.  In
`relationState`, where `posts` declares a relation, `delete(1)` on `posts`
raises in the rebuild of `list` (the record of the key left behind is
`undefined`), with the key still in the list. -/
theorem C36_delete_leaves_key_in_index :
    indexLists oneRecordState "c" = some [("list", [nv 1])]
    ∧ storeRecords oneRecordState "c" = some [("1", [("id", nv 1), ("name", sv "a")])]
    ∧ (delete 10 "c" oneRecordState [nv 1]).threw = false
    ∧ storeRecords (delete 10 "c" oneRecordState [nv 1]).state "c" = some []
    ∧ indexLists (delete 10 "c" oneRecordState [nv 1]).state "c" = some [("list", [nv 1])]
    ∧ groupOutputs (delete 10 "c" oneRecordState [nv 1]).state "c"
        = some [("list", .arr [.undefined])]
    ∧ (delete 10 "posts" relationState [nv 1]).threw = true
    ∧ storeRecords (delete 10 "posts" relationState [nv 1]).state "posts" = some []
    ∧ indexLists (delete 10 "posts" relationState [nv 1]).state "posts"
        = some [("list", [nv 1])] := by
  refine ⟨?_, ?_, ?_, ?_, ?_, ?_, ?_, ?_, ?_⟩ <;> rfl

/-- C37: let `g` be a graph that calls of `populateDependencies` for declared
filters (the pairs `F`) leave, starting from the graph `prepareDependencyGraph`
builds, whether the calls return or raise.  Every key of every dependents list
of `g` is the encoding `collection/filter` of a declared filter that has a node
in `g`.  If no collection or filter name of `F` contains `/`, every such key
names a node through `parseKey`, and `findAllDependents` returns for every node
of the graph: its lookups never miss. -/
theorem C37_dependents_keys_name_nodes (F : String → String → Prop)
    (collections : List (String × Collection)) (g : Graph)
    (hreach : GraphReach F (prepareDependencyGraph collections) g) :
    DependentsDeclared F g
    ∧ ((∀ c f, F c f → '/' ∉ c.data ∧ '/' ∉ f.data) →
        DependentsNamed g
        ∧ ∀ c p, (nodeOf g c p).isSome = true → (findAllDependents g c p).isSome = true) := by
  have hJ := graphReach_declared F _ g (prepareDependencyGraph_declared F collections) hreach
  refine ⟨hJ, fun hslash => ?_⟩
  have hg := dependentsDeclared_named F g hJ hslash
  refine ⟨hg, ?_⟩
  intro c p hcp
  cases hn : nodeOf g c p with
  | none => rw [hn] at hcp; simp at hcp
  | some n =>
    obtain ⟨all, rounds, rest, h1, _⟩ := findLoopCount_named g hg 1001 0 n.dependents
      n.dependents (fun k hk => hg c p n k hn hk)
    unfold findAllDependents
    rw [hn]
    dsimp only
    rw [← findLoopCount_fst, h1]
    rfl

/-- C37, witness: the graph of `chainState` is what the calls of
`populateDependencies` for the filters `B` (which found `D`) and `A` (which
found `B`) leave from the prepared graph; its dependents keys `c/B` and `c/A`
name nodes, and `findAllDependents("D")` returns. -/
theorem C37_dependents_keys_name_nodes_witness :
    DependentsNamed chainState.dependencyGraph
    ∧ (findAllDependents chainState.dependencyGraph "c" "D").isSome = true := by
  have hreach : GraphReach (fun c f => c = "c" ∧ (f = "B" ∨ f = "A"))
      (prepareDependencyGraph (preparedState [("c", chainConfig)]).collections)
      chainState.dependencyGraph :=
    GraphReach.step _ "c" "A" [⟨"c", "B"⟩] ⟨rfl, Or.inr rfl⟩
      (GraphReach.step _ "c" "B" [⟨"c", "D"⟩] ⟨rfl, Or.inl rfl⟩ GraphReach.init)
  have h := (C37_dependents_keys_name_nodes (fun c f => c = "c" ∧ (f = "B" ∨ f = "A"))
    (preparedState [("c", chainConfig)]).collections chainState.dependencyGraph hreach).2
    (by
      rintro c f ⟨rfl, rfl | rfl⟩ <;> exact ⟨by decide, by decide⟩)
  exact ⟨h.1, h.2 "c" "D" rfl⟩

/-- C38, the code at the failing input: in `chainState` the data property `D`
is `1` on both paths, and the filter `B` returns `D` as read at the root.  The
write `c.data.D = 2` sets the property of the `data` object only: the root
alias still reads `1`, the filters `B` and `A` are executed again and `B`
reads `1`, so both outputs stay `1`.  The write `c.D = 2` sets the root alias
only: `c.data.D` still reads `1`. -/
theorem C38_write_reaches_one_path_only :
    rootValue chainState "c" "D" = some (nv 1) ∧ dataValue chainState "c" "D" = some (nv 1)
    ∧ (write 10 chainState "c" .data "D" (nv 2)).threw = false
    ∧ dataValue (write 10 chainState "c" .data "D" (nv 2)).state "c" "D" = some (nv 2)
    ∧ rootValue (write 10 chainState "c" .data "D" (nv 2)).state "c" "D" = some (nv 1)
    ∧ (write 10 chainState "c" .data "D" (nv 2)).state.trace
        = chainState.trace ++ [.exec "c" "B", .exec "c" "A"]
    ∧ filterOutputs (write 10 chainState "c" .data "D" (nv 2)).state "c"
        = some [("B", nv 1), ("A", nv 1)]
    ∧ (write 10 chainState "c" .root "D" (nv 2)).threw = false
    ∧ rootValue (write 10 chainState "c" .root "D" (nv 2)).state "c" "D" = some (nv 2)
    ∧ dataValue (write 10 chainState "c" .root "D" (nv 2)).state "c" "D" = some (nv 1) := by
  refine ⟨?_, ?_, ?_, ?_, ?_, ?_, ?_, ?_, ?_, ?_⟩ <;> rfl

/-- C39, counterexample: record `1` of `posts` (`owner = 5`, a key of `users`)
has the fields `id` and `owner` in the store.  `getGroup("mine")` returns, and
afterwards the stored record has a third field, `users`, holding the foreign
record (heap address 0): the foreign record is attached to the stored record
object itself.  No group output exists for `mine`. -/
theorem C39_materialization_writes_into_stored_record :
    storeRecords unresolvedState "posts" = some [("1", [("id", nv 1), ("owner", nv 5)])]
    ∧ indexLists unresolvedState "posts" = some [("list", []), ("mine", [nv 1])]
    ∧ (getGroup unresolvedState "posts" "mine").threw = false
    ∧ storeRecords (getGroup unresolvedState "posts" "mine").state "posts"
        = some [("1", [("id", nv 1), ("owner", nv 5), ("users", .atom (.ref 0))])]
    ∧ groupOutputs (getGroup unresolvedState "posts" "mine").state "posts"
        = some [("list", .arr [])] := by
  refine ⟨?_, ?_, ?_, ?_, ?_⟩ <;> rfl

/-- C39, amended: `buildGroupFromIndex(index)` and `getGroup(index)` of
collection `c`, whether they return or raise, leave the primary key, the
mapping of the store from keys to record objects, the index key lists and the
relations of every collection as they were, and change no field of any record
object other than the fields the relations of `c` attach foreign records
under. -/
theorem C39_materialization_changes_relation_fields_only (s : State) (c index : String) :
    (∀ x, (getC (buildGroupFromIndex s c index).state x).map Collection.store
        = (getC s x).map Collection.store)
    ∧ (∀ r f, f ∉ relationTargets ((getC s c).elim [] fun col => col.relations) →
        oget ((buildGroupFromIndex s c index).state.heap.getD r []) f = oget (s.heap.getD r []) f)
    ∧ (∀ x, (getC (getGroup s c index).state x).map Collection.store
        = (getC s x).map Collection.store)
    ∧ (∀ r f, f ∉ relationTargets ((getC s c).elim [] fun col => col.relations) →
        oget ((getGroup s c index).state.heap.getD r []) f = oget (s.heap.getD r []) f) := by
  have h1 := buildGroupFromIndex_keeps _ s c index (targetsIn_own s c)
  have h2 := getGroup_keeps _ s c index (targetsIn_own s c)
  exact ⟨h1.store, h1.heap, h2.store, h2.heap⟩

end Pulse
